import Mathlib

/-!
The proto-model builder of the SMT core (`src/smt/proto_model/proto_model.cpp`).

A shallow embedding of `proto_model` and of the collaborators it drives, followed by the
theorems that settle the specification's claims about it.

Conventions of the embedding.

* AST nodes are hash-consed by the manager, so pointer identity of `expr*`, `func_decl*` and
  `sort*` coincides with structural equality; the embedding uses inductive values with
  decidable equality, and every identity-keyed table (`obj_map`, `obj_hashtable`) is keyed by
  that equality.
* Hash tables are association lists without duplicate keys; their iteration order is the
  list order, which is arbitrary, as the order of a hash table is.
* A nullable pointer is an `Option`; pointers that the code dereferences without a test are
  plain values.
* A `func_interp*` stored in the function-table map is a value; an in-place update through
  the pointer is a write-back under the key the pointer was read from.
-/

namespace ProtoModel

/-! ## Sorts, declarations, expressions -/

/-- Modelled from the spec: the id of a sort family (a theory). -/
abbrev family_id := Int

/-- Modelled from the spec: the family id of symbols that belong to no theory. -/
def null_family_id : family_id := -1

/-- Modelled from the spec: the family id of the basic (Boolean) theory. -/
def basic_family_id : family_id := 0

/-- Modelled from the spec: the family id of the model values, the elements of the
universes of uninterpreted sorts. -/
def model_value_family_id : family_id := 3

/-- Modelled from the spec: the family id that the manager hands to the user-sort
factory. -/
def user_sort_family_id : family_id := 4

/-- Modelled from the spec: a sort, the type tag of a value, with the theory family that
owns it. -/
structure sort where
  name : Nat
  family_id : family_id
deriving DecidableEq, Repr

/-- Modelled from the spec: a function declaration, a named symbol with the sorts of its
arguments and its range; a declaration without arguments is a constant. -/
structure func_decl where
  name : Nat
  family_id : family_id
  domain : List sort
  range : sort
deriving DecidableEq, Repr

/-- Modelled from the spec: the number of arguments of a declaration. -/
def func_decl.get_arity (d : func_decl) : Nat := d.domain.length

/-- Modelled from the spec: the range sort of a declaration. -/
def func_decl.get_range (d : func_decl) : sort := d.range

/-- Modelled from the spec: an expression node, of one of the three kinds (`AST_APP`,
`AST_VAR`, `AST_QUANTIFIER`). A quantifier has a body; `id` stands for the rest of its data
(the bound variables, the patterns, the weight), which no operation of the builder reads. -/
inductive expr where
  | app (d : func_decl) (args : List expr)
  | var (idx : Nat) (s : sort)
  | quantifier (id : Nat) (body : expr)
deriving Repr

mutual
def expr.beq : expr → expr → Bool
  | .app d as, .app e bs => decide (d = e) && expr.beqList as bs
  | .var i s, .var j t => decide (i = j) && decide (s = t)
  | .quantifier i b, .quantifier j c => decide (i = j) && expr.beq b c
  | _, _ => false
def expr.beqList : List expr → List expr → Bool
  | [], [] => true
  | a :: as, b :: bs => expr.beq a b && expr.beqList as bs
  | _, _ => false
end

mutual
theorem expr.beq_iff : ∀ (a b : expr), expr.beq a b = true ↔ a = b
  | .app d as, .app e bs => by
      simp only [expr.beq, Bool.and_eq_true, decide_eq_true_eq, expr.beqList_iff as bs]
      constructor
      · rintro ⟨rfl, rfl⟩; rfl
      · intro h; injection h with h1 h2; exact ⟨h1, h2⟩
  | .app _ _, .var _ _ => by simp [expr.beq]
  | .app _ _, .quantifier _ _ => by simp [expr.beq]
  | .var i s, .var j t => by
      simp only [expr.beq, Bool.and_eq_true, decide_eq_true_eq]
      constructor
      · rintro ⟨rfl, rfl⟩; rfl
      · intro h; injection h with h1 h2; exact ⟨h1, h2⟩
  | .var _ _, .app _ _ => by simp [expr.beq]
  | .var _ _, .quantifier _ _ => by simp [expr.beq]
  | .quantifier i b, .quantifier j c => by
      simp only [expr.beq, Bool.and_eq_true, decide_eq_true_eq, expr.beq_iff b c]
      constructor
      · rintro ⟨rfl, rfl⟩; rfl
      · intro h; injection h with h1 h2; exact ⟨h1, h2⟩
  | .quantifier _ _, .app _ _ => by simp [expr.beq]
  | .quantifier _ _, .var _ _ => by simp [expr.beq]
theorem expr.beqList_iff : ∀ (as bs : List expr), expr.beqList as bs = true ↔ as = bs
  | [], [] => by simp [expr.beqList]
  | [], _ :: _ => by simp [expr.beqList]
  | _ :: _, [] => by simp [expr.beqList]
  | a :: as, b :: bs => by
      simp only [expr.beqList, Bool.and_eq_true, expr.beq_iff a b, expr.beqList_iff as bs]
      constructor
      · rintro ⟨rfl, rfl⟩; rfl
      · intro h; injection h with h1 h2; exact ⟨h1, h2⟩
end

instance : DecidableEq expr := fun a b => decidable_of_iff _ (expr.beq_iff a b)

/-- Modelled from the spec: the test `is_app`. -/
def is_app : expr → Bool
  | .app _ _ => true
  | _ => false

/-- Modelled from the spec: `is_uninterp_const(n)`, an application with no arguments whose declaration belongs to no
theory. -/
def is_uninterp_const : expr → Bool
  | .app d args => args.isEmpty && decide (d.family_id = null_family_id)
  | _ => false

/-- Modelled from the spec: the sort of the Booleans, the sort of every quantifier. -/
def bool_sort : sort := ⟨0, basic_family_id⟩

/-- Modelled from the spec: `ast_manager::get_sort`, the sort of an expression. -/
def get_sort : expr → sort
  | .app d _ => d.range
  | .var _ s => s
  | .quantifier _ _ => bool_sort

/-- Modelled from the spec: `ast_manager::is_uninterp`, whose definition is in the manager's
header. A sort is uninterpreted when it has no built-in theory: its family is the null family
or the family of user sorts. -/
def is_uninterp (s : sort) : Bool :=
  decide (s.family_id = null_family_id) || decide (s.family_id = user_sort_family_id)

/-- Modelled from the spec: `ast_manager::mk_model_value`, the `idx`-th element of the
universe of `s`. -/
def mk_model_value (idx : Nat) (s : sort) : expr :=
  .app ⟨idx, model_value_family_id, [], s⟩ []

mutual
/-- Number of nodes of the expression tree. -/
def expr.size : expr → Nat
  | .app _ args => 1 + expr.sizeList args
  | .var _ _ => 1
  | .quantifier _ b => 1 + expr.size b
def expr.sizeList : List expr → Nat
  | [] => 0
  | a :: as => expr.size a + expr.sizeList as
end

/-! ## Identity-keyed tables -/

/-- Modelled from the spec: the hash set `obj_hashtable<T>`, keyed by node identity: a list
without duplicates. -/
structure obj_hashtable (α : Type) [DecidableEq α] where
  elems : List α
  nodup : elems.Nodup

namespace obj_hashtable
variable {α : Type} [DecidableEq α]

def empty : obj_hashtable α := ⟨[], List.nodup_nil⟩

def contains (s : obj_hashtable α) (a : α) : Bool := decide (a ∈ s.elems)

def insert (s : obj_hashtable α) (a : α) : obj_hashtable α :=
  ⟨List.insert a s.elems, s.nodup.insert⟩

def size (s : obj_hashtable α) : Nat := s.elems.length

end obj_hashtable

abbrev func_decl_set := obj_hashtable func_decl

/-- First value stored under `k` in a list of pairs. -/
def lookupK {K V : Type} [DecidableEq K] (k : K) : List (K × V) → Option V
  | [] => none
  | (a, b) :: l => if a = k then some b else lookupK k l

/-- Overwrite in place the value of every pair whose key is `k`. -/
def replaceK {K V : Type} [DecidableEq K] (k : K) (v : V) : List (K × V) → List (K × V)
  | [] => []
  | (a, b) :: l => if a = k then (a, v) :: replaceK k v l else (a, b) :: replaceK k v l

theorem keys_replaceK {K V : Type} [DecidableEq K] (k : K) (v : V) (l : List (K × V)) :
    (replaceK k v l).map Prod.fst = l.map Prod.fst := by
  induction l with
  | nil => rfl
  | cons e l ih =>
    obtain ⟨a, b⟩ := e
    by_cases h : a = k <;> simp [replaceK, h, ih]

theorem keys_filter_nodup {K V : Type} [DecidableEq K] (p : K × V → Bool) (l : List (K × V))
    (h : (l.map Prod.fst).Nodup) : ((l.filter p).map Prod.fst).Nodup :=
  List.Nodup.sublist (List.Sublist.map _ (List.filter_sublist l)) h

/-- Modelled from the spec: the hash map `obj_map<K, V>`, keyed by node identity: an
association list without duplicate keys. -/
structure obj_map (K V : Type) [DecidableEq K] where
  entries : List (K × V)
  nodup : (entries.map Prod.fst).Nodup

namespace obj_map
variable {K V : Type} [DecidableEq K]

def empty : obj_map K V := ⟨[], List.nodup_nil⟩

def keys (m : obj_map K V) : List K := m.entries.map Prod.fst

def find (m : obj_map K V) (k : K) : Option V := lookupK k m.entries

def contains (m : obj_map K V) (k : K) : Bool := (m.find k).isSome

/-- `insert(k, v)`: overwrite the value of `k` if `k` is a key, add the pair otherwise. -/
def insert (m : obj_map K V) (k : K) (v : V) : obj_map K V :=
  if h : k ∈ m.entries.map Prod.fst then
    ⟨replaceK k v m.entries, by rw [keys_replaceK]; exact m.nodup⟩
  else
    ⟨m.entries ++ [(k, v)], by
      rw [List.map_append, List.nodup_append]
      refine ⟨m.nodup, by simp, ?_⟩
      intro a ha hb
      simp at hb
      subst hb
      exact h ha⟩

def erase (m : obj_map K V) (k : K) : obj_map K V :=
  ⟨m.entries.filter (fun e => !decide (e.1 = k)), keys_filter_nodup _ _ m.nodup⟩

def reset (_m : obj_map K V) : obj_map K V := empty

end obj_map

/-! ## Function tables -/

/-- Modelled from the spec: an explicit entry of a function table. -/
structure func_entry where
  args : List expr
  result : expr
deriving DecidableEq

/-- Modelled from the spec: the class `func_interp`, which is defined with the model classes.
A function table is a finite list of explicit entries plus one default (`else`) value; the
table is partial while the default is not assigned. -/
structure func_interp where
  m_arity : Nat
  m_entries : List func_entry
  m_else : Option expr
deriving DecidableEq

namespace func_interp

/-- Modelled from the spec: the constructor call `alloc(func_interp, m, arity)`, a table
with no entries and no default. -/
def alloc (arity : Nat) : func_interp := ⟨arity, [], none⟩

/-- Modelled from the spec: a table is partial while its default is not assigned. -/
def is_partial (fi : func_interp) : Bool := fi.m_else.isNone

/-- Modelled from the spec: the default of the table, null while it is partial. -/
def get_else (fi : func_interp) : Option expr := fi.m_else

/-- Modelled from the spec: assign the default of the table. -/
def set_else (fi : func_interp) (e : expr) : func_interp := { fi with m_else := some e }

/-- Modelled from the spec: the loop of `get_max_occ_result`; `done` holds the results already counted, `max` the
highest count seen and `r_max` a result that reached it first. -/
def max_occ_loop : List expr → List expr → Nat → Option expr → Option expr
  | _, [], _, r_max => r_max
  | done, r :: rs, max, r_max =>
    let occs := List.count r done + 1
    if occs > max then max_occ_loop (r :: done) rs occs (some r)
    else max_occ_loop (r :: done) rs max r_max

/-- Modelled from the spec: the most-frequent-value query of a function table, the result
that occurs most often among the explicit entries, null when there is no entry. -/
def get_max_occ_result (fi : func_interp) : Option expr :=
  max_occ_loop [] (fi.m_entries.map func_entry.result) 0 none

end func_interp

/-! ## The user-sort factory -/

/-- Modelled from the spec: the values known for one sort, and the index of the next fresh
value to try. -/
structure value_set where
  m_values : List expr
  m_next : Nat

/-- Modelled from the spec: the class `user_sort_factory`, the value factory of the
uninterpreted sorts. It tracks, per sort, the known universe (`m_sort2value_set`), the sorts
in the order they were first seen (`m_sorts`), and the sorts whose universe is frozen
(`m_finite`). -/
structure user_sort_factory where
  m_sort2value_set : obj_map sort value_set
  m_sorts : List sort
  m_finite : List sort

namespace user_sort_factory

/-- Modelled from the spec: the user-sort factory as constructed, without any sort. -/
def init : user_sort_factory := ⟨obj_map.empty, [], []⟩

/-- Modelled from the spec: the value set of `s`, created (and `s` appended to `m_sorts`) when `s` is new. -/
def get_value_set (u : user_sort_factory) (s : sort) : value_set × user_sort_factory :=
  match u.m_sort2value_set.find s with
  | some set => (set, u)
  | none =>
    (⟨[], 0⟩, { u with m_sort2value_set := u.m_sort2value_set.insert s ⟨[], 0⟩,
                       m_sorts := u.m_sorts ++ [s] })

/-- Modelled from the spec: build the value number `val` of `s`; it joins the universe of `s` unless already
there. The Boolean tells whether it is new. -/
def mk_value (u : user_sort_factory) (val : Nat) (s : sort) :
    expr × Bool × user_sort_factory :=
  let (set, u1) := get_value_set u s
  let new_val := mk_model_value val s
  if new_val ∈ set.m_values then (new_val, false, u1)
  else
    (new_val, true,
      { u1 with m_sort2value_set :=
          u1.m_sort2value_set.insert s { set with m_values := set.m_values ++ [new_val] } })

/-- Modelled from the spec: whether the universe of `s` is frozen. -/
def is_finite (u : user_sort_factory) (s : sort) : Bool := decide (s ∈ u.m_finite)

/-- Modelled from the spec: some element of the universe of `s`, a known one when there is one, value number 0
otherwise. -/
def get_some_value (u : user_sort_factory) (s : sort) : expr × user_sort_factory :=
  match u.m_sort2value_set.find s with
  | some ⟨v :: _, _⟩ => (v, u)
  | _ =>
    let (r, _, u1) := mk_value u 0 s
    (r, u1)

/-- Modelled from the spec: two distinct elements of the universe of `s`; fails on a frozen universe with fewer
than two elements. -/
def get_some_values (u : user_sort_factory) (s : sort) :
    Option (expr × expr) × user_sort_factory :=
  match u.m_sort2value_set.find s with
  | some ⟨v1 :: v2 :: _, _⟩ => (some (v1, v2), u)
  | some ⟨[v1], _⟩ =>
    if is_finite u s then (none, u)
    else
      let (w0, _, u1) := mk_value u 0 s
      if v1 = w0 then
        let (w1, _, u2) := mk_value u1 1 s
        (some (v1, w1), u2)
      else (some (v1, w0), u1)
  | _ =>
    if is_finite u s then (none, u)
    else
      let (w0, _, u1) := mk_value u 0 s
      let (w1, _, u2) := mk_value u1 1 s
      (some (w0, w1), u2)

/-- Modelled from the spec: the search of `get_fresh_value` for the first value number, from `m_next` on, that is
not yet in the universe; `fuel` bounds the search by the size of the universe plus one. -/
def fresh_loop (s : sort) : Nat → Nat → user_sort_factory → expr × Nat × user_sort_factory
  | 0, next, u => (mk_model_value next s, next + 1, (mk_value u next s).2.2)
  | fuel + 1, next, u =>
    let (r, is_new, u1) := mk_value u next s
    if is_new then (r, next + 1, u1) else fresh_loop s fuel (next + 1) u1

/-- Modelled from the spec: a value of `s` that was never seen before; null when the universe of `s` is frozen. -/
def get_fresh_value (u : user_sort_factory) (s : sort) : Option expr × user_sort_factory :=
  if is_finite u s then (none, u)
  else
    let (set, u1) := get_value_set u s
    let (r, next, u2) := fresh_loop s set.m_values.length set.m_next u1
    match u2.m_sort2value_set.find s with
    | some set2 =>
      (some r, { u2 with m_sort2value_set :=
                   u2.m_sort2value_set.insert s { set2 with m_next := next } })
    | none => (some r, u2)

/-- Modelled from the spec: record an externally observed value in the universe of its sort, unless that universe
is frozen. -/
def register_value (u : user_sort_factory) (n : expr) : user_sort_factory :=
  let s := get_sort n
  if is_finite u s then u
  else
    let (set, u1) := get_value_set u s
    if n ∈ set.m_values then u1
    else { u1 with m_sort2value_set :=
             u1.m_sort2value_set.insert s { set with m_values := set.m_values ++ [n] } }

/-- Modelled from the spec: close the universe of `s`; an empty universe first receives one element. -/
def freeze_universe (u : user_sort_factory) (s : sort) : user_sort_factory :=
  if is_finite u s then u
  else
    let u1 :=
      match u.m_sort2value_set.find s with
      | some ⟨_ :: _, _⟩ => u
      | _ => (get_some_value u s).2
    { u1 with m_finite := u1.m_finite ++ [s] }

/-- Modelled from the spec: the values known to exist in `s`. -/
def get_known_universe (u : user_sort_factory) (s : sort) : List expr :=
  match u.m_sort2value_set.find s with
  | some set => set.m_values
  | none => []

/-- Modelled from the spec: the number of sorts that the factory has seen. -/
def get_num_sorts (u : user_sort_factory) : Nat := u.m_sorts.length

/-- Modelled from the spec: the `idx`-th sort that the factory has seen. -/
def get_sort (u : user_sort_factory) (idx : Nat) : Option sort := u.m_sorts.get? idx

end user_sort_factory

/-! ## Value factories -/

/-- A function table that a value factory registers in the model while it builds a value
(the array factory registers the table behind each array value it makes). -/
abbrev registration := func_decl × func_interp

/-- Modelled from the spec: the interface `value_factory` of a theory plugin, over the private state `P` of the
plugins. Next to its result, a method returns the function tables it has registered in the
model on the way. -/
structure value_factory (P : Type) where
  get_some_value : sort → P → expr × P × List registration
  get_some_values : sort → P → Option (expr × expr) × P × List registration
  get_fresh_value : sort → P → Option expr × P × List registration
  register_value : expr → P → P

/-- An entry of the plugin registry: the user-sort factory (held by the builder, registered
under its own family id as well) or a theory plugin. -/
inductive factory_ref (P : Type) where
  | user_sort : factory_ref P
  | plugin (f : value_factory P) : factory_ref P

/-! ## The declaration registry `model_core` -/

/-- Modelled from the spec: the base class `model_core`, the store of decl to constant value
or function table, with the lists of the registered declarations in registration order. -/
structure model_core where
  m_interp : obj_map func_decl expr
  m_finterp : obj_map func_decl func_interp
  m_decls : List func_decl
  m_const_decls : List func_decl
  m_func_decls : List func_decl

namespace model_core

/-- Modelled from the spec: the empty registry. -/
def init : model_core := ⟨obj_map.empty, obj_map.empty, [], [], []⟩

/-- Modelled from the spec: the constant interpretation of `d`, null when there is none. -/
def get_const_interp (m : model_core) (d : func_decl) : Option expr := m.m_interp.find d

/-- Modelled from the spec: the function table of `d`, null when there is none. -/
def get_func_interp (m : model_core) (d : func_decl) : Option func_interp := m.m_finterp.find d

/-- Modelled from the spec: whether `d` has a constant interpretation or a function
table. -/
def has_interpretation (m : model_core) (d : func_decl) : Bool :=
  m.m_interp.contains d || m.m_finterp.contains d

/-- Modelled from the spec: `model_core::register_decl(d, v)` for a constant. A new
declaration is appended to the declaration lists; a registered one has its value
replaced. -/
def register_decl (m : model_core) (d : func_decl) (v : expr) : model_core :=
  if m.m_interp.contains d then { m with m_interp := m.m_interp.insert d v }
  else
    { m with m_interp := m.m_interp.insert d v,
             m_decls := m.m_decls ++ [d],
             m_const_decls := m.m_const_decls ++ [d] }

/-- Modelled from the spec: `model_core::register_decl(d, fi)` for a function table. A new
declaration is appended to the declaration lists; a registered one has its table
replaced. -/
def register_decl_fi (m : model_core) (d : func_decl) (fi : func_interp) : model_core :=
  if m.m_finterp.contains d then { m with m_finterp := m.m_finterp.insert d fi }
  else
    { m with m_finterp := m.m_finterp.insert d fi,
             m_decls := m.m_decls ++ [d],
             m_func_decls := m.m_func_decls ++ [d] }

end model_core

/-! ## The builder state -/

/-- Modelled from the spec: the rewriter `m_rewrite`, the external simplifying constructor
of applications. -/
structure th_rewriter where
  mk_app : func_decl → List expr → expr

/-- Modelled from the spec: the fields of `proto_model`, which its header declares and
`proto_model.cpp` uses. `m_plugins` is the private state of the theory plugins
registered in `m_factories`. -/
structure proto_model (P : Type) extends model_core where
  m_aux_decls : func_decl_set
  m_factories : family_id → Option (factory_ref P)
  m_plugins : P
  m_user_sort_factory : user_sort_factory
  m_rewrite : th_rewriter
  m_model_partial : Bool

/-- Modelled from the spec: the result of finalization, the class `model`, a declaration registry plus the universes
of the uninterpreted sorts. -/
structure model extends model_core where
  m_usorts : List (sort × List expr)

namespace proto_model
variable {P : Type}

/-- Modelled from the spec: `register_factory(f)`, after which `f` is the plugin of the
family id `fid`. -/
def register_factory (pm : proto_model P) (fid : family_id) (f : factory_ref P) :
    proto_model P :=
  { pm with m_factories := fun i => if i = fid then some f else pm.m_factories i }

/-- The constructor: an empty registry, the basic factory and the user-sort factory
registered, and the configuration flag read from the parameters. -/
def mk_proto_model (rw : th_rewriter) (basic_factory : value_factory P) (p0 : P)
    (partial_models : Bool) : proto_model P :=
  let pm : proto_model P :=
    { tomodel_core := model_core.init,
      m_aux_decls := obj_hashtable.empty,
      m_factories := fun _ => none,
      m_plugins := p0,
      m_user_sort_factory := user_sort_factory.init,
      m_rewrite := rw,
      m_model_partial := partial_models }
  register_factory (register_factory pm basic_family_id (factory_ref.plugin basic_factory))
    user_sort_family_id factory_ref.user_sort

/-- Modelled from the spec: `register_decl(d, v)`, inherited from `model_core`. -/
def register_decl (pm : proto_model P) (d : func_decl) (v : expr) : proto_model P :=
  { pm with tomodel_core := pm.tomodel_core.register_decl d v }

/-- Modelled from the spec: `register_decl(d, fi)`, inherited from `model_core`. -/
def register_decl_fi (pm : proto_model P) (d : func_decl) (fi : func_interp) :
    proto_model P :=
  { pm with tomodel_core := pm.tomodel_core.register_decl_fi d fi }

/-- Modelled from the spec: the tables a value factory registers while it builds a value
("completion may itself register new function declarations") are tables of new
declarations: a registration whose declaration already has an interpretation is left
out. -/
def register_new_decls (pm : proto_model P) : List registration → proto_model P
  | [] => pm
  | (d, fi) :: rs =>
    if pm.has_interpretation d then register_new_decls pm rs
    else register_new_decls (pm.register_decl_fi d fi) rs

def register_aux_decl (pm : proto_model P) (d : func_decl) (fi : func_interp) :
    proto_model P :=
  let pm1 := pm.register_decl_fi d fi
  { pm1 with m_aux_decls := pm1.m_aux_decls.insert d }

/-- Set `new_fi` as the new interpretation of `f`. If `f_aux` is not null, the old
interpretation of `f` is assigned to `f_aux`, which is marked as auxiliary; otherwise the old
interpretation is deleted. -/
def reregister_decl (pm : proto_model P) (f : func_decl) (new_fi : func_interp)
    (f_aux : Option func_decl) : proto_model P :=
  match pm.get_func_interp f with
  | none => pm.register_decl_fi f new_fi
  | some fi =>
    let pm1 :=
      match f_aux with
      | some g =>
        let pm2 := pm.register_decl_fi g fi
        { pm2 with m_aux_decls := pm2.m_aux_decls.insert g }
      | none => pm
    { pm1 with m_finterp := pm1.m_finterp.insert f new_fi }

def get_factory (pm : proto_model P) (fid : family_id) : Option (factory_ref P) :=
  pm.m_factories fid

end proto_model

namespace proto_model
variable {P : Type}

/-! ### Value generation: dispatch on the sort -/

def user_sort_get_some_value (pm : proto_model P) (s : sort) : expr × proto_model P :=
  let (r, u) := pm.m_user_sort_factory.get_some_value s
  (r, { pm with m_user_sort_factory := u })

def user_sort_get_some_values (pm : proto_model P) (s : sort) :
    Option (expr × expr) × proto_model P :=
  let (r, u) := pm.m_user_sort_factory.get_some_values s
  (r, { pm with m_user_sort_factory := u })

def user_sort_get_fresh_value (pm : proto_model P) (s : sort) :
    Option expr × proto_model P :=
  let (r, u) := pm.m_user_sort_factory.get_fresh_value s
  (r, { pm with m_user_sort_factory := u })

def user_sort_register_value (pm : proto_model P) (n : expr) : proto_model P :=
  { pm with m_user_sort_factory := pm.m_user_sort_factory.register_value n }

def get_some_value (pm : proto_model P) (s : sort) : expr × proto_model P :=
  if is_uninterp s then user_sort_get_some_value pm s
  else
    match pm.get_factory s.family_id with
    | some (factory_ref.plugin f) =>
      let (r, p, regs) := f.get_some_value s pm.m_plugins
      (r, register_new_decls { pm with m_plugins := p } regs)
    | some factory_ref.user_sort => user_sort_get_some_value pm s
    -- there is no factory for the family id, then assume s is uninterpreted.
    | none => user_sort_get_some_value pm s

/-- The result is `none` when the call returns `false`; `v1` and `v2` are then untouched. -/
def get_some_values (pm : proto_model P) (s : sort) : Option (expr × expr) × proto_model P :=
  if is_uninterp s then user_sort_get_some_values pm s
  else
    match pm.get_factory s.family_id with
    | some (factory_ref.plugin f) =>
      let (r, p, regs) := f.get_some_values s pm.m_plugins
      (r, register_new_decls { pm with m_plugins := p } regs)
    | some factory_ref.user_sort => user_sort_get_some_values pm s
    | none => (none, pm)

def get_fresh_value (pm : proto_model P) (s : sort) : Option expr × proto_model P :=
  if is_uninterp s then user_sort_get_fresh_value pm s
  else
    match pm.get_factory s.family_id with
    | some (factory_ref.plugin f) =>
      let (r, p, regs) := f.get_fresh_value s pm.m_plugins
      (r, register_new_decls { pm with m_plugins := p } regs)
    | some factory_ref.user_sort => user_sort_get_fresh_value pm s
    -- Use user_sort_factory if the theory has no support for model construction.
    | none => user_sort_get_fresh_value pm s

def register_value (pm : proto_model P) (n : expr) : proto_model P :=
  let s := get_sort n
  if is_uninterp s then user_sort_register_value pm n
  else
    match pm.get_factory s.family_id with
    | some (factory_ref.plugin f) => { pm with m_plugins := f.register_value n pm.m_plugins }
    | some factory_ref.user_sort => user_sort_register_value pm n
    | none => pm

/-- Precondition (asserted): `d` has no interpretation. -/
def mk_some_interp_for (pm : proto_model P) (d : func_decl) : expr × proto_model P :=
  let (r, pm1) := pm.get_some_value d.get_range
  if d.get_arity = 0 then (r, pm1.register_decl d r)
  else
    let new_fi := (func_interp.alloc d.get_arity).set_else r
    (r, pm1.register_decl_fi d new_fi)

/-! ### Universes of the uninterpreted sorts -/

/-- Precondition (asserted): `s` is uninterpreted. -/
def freeze_universe (pm : proto_model P) (s : sort) : proto_model P :=
  { pm with m_user_sort_factory := pm.m_user_sort_factory.freeze_universe s }

/-- Precondition (asserted): `s` is uninterpreted. -/
def get_known_universe (pm : proto_model P) (s : sort) : List expr :=
  pm.m_user_sort_factory.get_known_universe s

/-- The known universe copied, in iteration order, into the scratch buffer. -/
def get_universe (pm : proto_model P) (s : sort) : List expr :=
  (pm.get_known_universe s).foldl (fun tmp e => tmp ++ [e]) []

def get_num_uninterpreted_sorts (pm : proto_model P) : Nat :=
  pm.m_user_sort_factory.get_num_sorts

/-- Precondition (asserted): `idx < get_num_uninterpreted_sorts()`. -/
def get_uninterpreted_sort (pm : proto_model P) (idx : Nat) : Option sort :=
  pm.m_user_sort_factory.get_sort idx

def is_finite (pm : proto_model P) (s : sort) : Bool :=
  is_uninterp s && pm.m_user_sort_factory.is_finite s

/-! ### Completion of the partial function tables -/

/-- Complete the interpretation of `f` if it is partial; a no-op when `f` has no
interpretation. -/
def complete_partial_func (pm : proto_model P) (f : func_decl) : proto_model P :=
  match pm.get_func_interp f with
  | some fi =>
    if func_interp.is_partial fi then
      match fi.get_max_occ_result with
      | some else_value => { pm with m_finterp := pm.m_finterp.insert f (fi.set_else else_value) }
      | none =>
        let (else_value, pm1) := pm.get_some_value f.get_range
        { pm1 with m_finterp := pm1.m_finterp.insert f (fi.set_else else_value) }
    else pm
  | none => pm

/-- The loop of `complete_partial_funcs`, by index, the length of `m_func_decls` read again
at every step because `get_some_value` may extend the list. The loop has no bound of its
own; `fuel` is the number of iterations allowed, and `none` tells that it ran out. -/
def complete_partial_funcs_loop : Nat → Nat → proto_model P → Option (proto_model P)
  | fuel, i, pm =>
    match pm.m_func_decls.get? i with
    | none => some pm
    | some f =>
      match fuel with
      | 0 => none
      | fuel + 1 => complete_partial_funcs_loop fuel (i + 1) (pm.complete_partial_func f)

def complete_partial_funcs (fuel : Nat) (pm : proto_model P) : Option (proto_model P) :=
  if pm.m_model_partial then some pm
  else complete_partial_funcs_loop fuel 0 pm

end proto_model

/-! ## Cleanup -/

/-- The local state of `cleanup_func_interp` (the cache, the work stack with its top at the
head, and the accumulator of auxiliary declarations found) together with the builder,
which the traversal updates when it has to fabricate the value of a constant. -/
structure cleanup_state (P : Type) where
  pm : proto_model P
  cache : obj_map expr expr
  todo : List expr
  found_aux_fs : func_decl_set

namespace proto_model
variable {P : Type}

/-- The loop over the arguments of an application: an argument that is not in the cache is
pushed on the work stack and clears `visited`; the cached image of the others is collected
in `args`. -/
def cleanup_args (cache : obj_map expr expr) :
    List expr → Bool → List expr → List expr → Bool × List expr × List expr
  | [], visited, todo, args => (visited, todo, args)
  | a :: as, visited, todo, args =>
    match cache.find a with
    | none => cleanup_args cache as false (a :: todo) args
    | some arg => cleanup_args cache as visited todo (args ++ [arg])

/-- One iteration of the `while (!todo.empty())` loop. Only an application can be an
uninterpreted constant, so the test `is_uninterp_const(a)` is made under the `AST_APP`
case. -/
def cleanup_step (st : cleanup_state P) : cleanup_state P :=
  match st.todo with
  | [] => st
  | a :: rest =>
    match a with
    | .app f t_args =>
      if is_uninterp_const a then
        match st.pm.get_const_interp f with
        | some ai => { st with todo := rest, cache := st.cache.insert a ai }
        | none =>
          let (ai, pm1) := st.pm.get_some_value f.get_range
          { st with pm := pm1.register_decl f ai, todo := rest,
                    cache := st.cache.insert a ai }
      else
        let (visited, todo1, args) := cleanup_args st.cache t_args true st.todo []
        if !visited then { st with todo := todo1 }
        else
          let found :=
            if st.pm.m_aux_decls.contains f then st.found_aux_fs.insert f
            else st.found_aux_fs
          let new_t := st.pm.m_rewrite.mk_app f args
          { st with todo := rest, cache := st.cache.insert a new_t, found_aux_fs := found }
    | _ => { st with todo := rest, cache := st.cache.insert a a }

/-- The `while (!todo.empty())` loop, run for at most `fuel` iterations. -/
def cleanup_loop : Nat → cleanup_state P → cleanup_state P
  | 0, st => st
  | fuel + 1, st =>
    match st.todo with
    | [] => st
    | _ :: _ => cleanup_loop fuel (cleanup_step st)

/-- A number of iterations that the loop never exceeds on the expression `e`. -/
def cleanup_fuel (e : expr) : Nat := 2 * e.size

/-- Replace the uninterpreted constants occurring in `fi->get_else()` by their
interpretations; `f` is the key under which the table `fi` is stored. The result is `none`
when the loop did not finish within `cleanup_fuel` iterations or the cache has no entry for
the root (the `UNREACHABLE()` branch). -/
def cleanup_func_interp (pm : proto_model P) (f : func_decl) (fi : func_interp)
    (found_aux_fs : func_decl_set) : Option (proto_model P × func_decl_set) :=
  match fi.get_else with
  | none => some (pm, found_aux_fs)
  | some fi_else =>
    let st := cleanup_loop (cleanup_fuel fi_else)
      { pm := pm, cache := obj_map.empty, todo := [fi_else], found_aux_fs := found_aux_fs }
    match st.todo with
    | _ :: _ => none
    | [] =>
      match st.cache.find fi_else with
      | none => none
      | some a =>
        some ({ st.pm with m_finterp := st.pm.m_finterp.insert f (fi.set_else a) },
              st.found_aux_fs)

def remove_aux_decls_not_in_set (pm : proto_model P) (decls : List func_decl)
    (s : func_decl_set) : List func_decl :=
  decls.filter (fun f => !pm.m_aux_decls.contains f || s.contains f)

/-- The loop of `cleanup` over the function tables, in the iteration order of the map as
it was when the loop started. -/
def cleanup_tables :
    List func_decl → proto_model P → func_decl_set → Option (proto_model P × func_decl_set)
  | [], pm, found_aux_fs => some (pm, found_aux_fs)
  | f :: fs, pm, found_aux_fs =>
    match pm.get_func_interp f with
    | none => cleanup_tables fs pm found_aux_fs
    | some fi =>
      match cleanup_func_interp pm f fi found_aux_fs with
      | none => none
      | some (pm1, found1) => cleanup_tables fs pm1 found1

/-- The loop of `cleanup` over `m_aux_decls` that erases the table of every auxiliary
declaration that was not found. The loop asserts that such a declaration has a table
(`SASSERT(fi != 0)`): the result is `none` when it has none. The reference counts and the
release of the table are not part of the model. -/
def erase_unused_aux (found_aux_fs : func_decl_set) :
    List func_decl → obj_map func_decl func_interp → Option (obj_map func_decl func_interp)
  | [], finterp => some finterp
  | faux :: rest, finterp =>
    if !found_aux_fs.contains faux then
      match finterp.find faux with
      | none => none
      | some _ => erase_unused_aux found_aux_fs rest (finterp.erase faux)
    else erase_unused_aux found_aux_fs rest finterp

/-- Replace the uninterpreted constants occurring in the default of every function table by
their interpretations, then remove the auxiliary declarations that are not used. The result
is `none` when a traversal does not return a result (which never happens) or when the
assertion of the removal loop fails. -/
def cleanup (pm : proto_model P) : Option (proto_model P) :=
  match cleanup_tables pm.m_finterp.keys pm obj_hashtable.empty with
  | none => none
  | some (pm1, found_aux_fs) =>
    if found_aux_fs.size != pm1.m_aux_decls.size then
      match erase_unused_aux found_aux_fs pm1.m_aux_decls.elems pm1.m_finterp with
      | none => none
      | some finterp =>
        some { pm1 with
          m_decls := remove_aux_decls_not_in_set pm1 pm1.m_decls found_aux_fs,
          m_func_decls := remove_aux_decls_not_in_set pm1 pm1.m_func_decls found_aux_fs,
          m_finterp := finterp,
          m_aux_decls := found_aux_fs }
    else some pm1

/-! ## Finalization -/

/-- Modelled from the spec: `model::register_usort`, which records the universe snapshot of
an uninterpreted sort in the result. -/
def model_register_usort (m : model) (s : sort) (elems : List expr) : model :=
  { m with m_usorts := m.m_usorts ++ [(s, elems)] }

/-- Build the result: every constant interpretation is copied, every function table is
moved (the builder's map is reset), and the universe of every sort of the user-sort factory
is copied. -/
def mk_model (pm : proto_model P) : model × proto_model P :=
  let m0 : model := { tomodel_core := model_core.init, m_usorts := [] }
  let m1 := pm.m_interp.entries.foldl
    (fun (m : model) e => { m with tomodel_core := m.tomodel_core.register_decl e.1 e.2 }) m0
  let m2 := pm.m_finterp.entries.foldl
    (fun (m : model) e => { m with tomodel_core := m.tomodel_core.register_decl_fi e.1 e.2 }) m1
  let pm1 : proto_model P := { pm with m_finterp := pm.m_finterp.reset }
  let sz := pm1.get_num_uninterpreted_sorts
  let m3 := (List.range sz).foldl
    (fun (m : model) i =>
      match pm1.get_uninterpreted_sort i with
      | some s => model_register_usort m s (pm1.get_universe s)
      | none => m) m2
  (m3, pm1)

end proto_model

/-! ## Reading an expression -/

mutual
/-- The declarations that head the application nodes of `e` that `cleanup_func_interp`
rebuilds, and whose declaration it tests for membership in the auxiliary set: the
application nodes outside any quantifier (the traversal does not enter the body of a
quantifier) that are not uninterpreted constants. -/
def expr.outer_app_decls : expr → List func_decl
  | .app d args =>
    if is_uninterp_const (.app d args) then [] else d :: expr.outer_app_decls_list args
  | .var _ _ => []
  | .quantifier _ _ => []
def expr.outer_app_decls_list : List expr → List func_decl
  | [] => []
  | a :: as => expr.outer_app_decls a ++ expr.outer_app_decls_list as
end

mutual
/-- The declarations that head any application node anywhere in `e`: applications without
arguments and nodes in the body of a quantifier included. -/
def expr.decls : expr → List func_decl
  | .app d args => d :: expr.decls_list args
  | .var _ _ => []
  | .quantifier _ b => expr.decls b
def expr.decls_list : List expr → List func_decl
  | [] => []
  | a :: as => expr.decls a ++ expr.decls_list as
end

/-- The sub-terms of `root`: the root, every argument of an application that is a sub-term,
and the body of every quantifier that is a sub-term. -/
inductive subterm (root : expr) : expr → Prop
  | root : subterm root root
  | arg (f : func_decl) (args : List expr) (x : expr) :
      subterm root (.app f args) → x ∈ args → subterm root x
  | body (i : Nat) (b : expr) : subterm root (.quantifier i b) → subterm root b

/-- The sub-terms of `root` outside any quantifier, which are the nodes that the traversal of
`cleanup_func_interp` can reach: the root, and every argument of an application node that
is one of them. A quantifier can be one of them; its body is not. -/
inductive outer_node (root : expr) : expr → Prop
  | root : outer_node root root
  | arg (f : func_decl) (args : List expr) (x : expr) :
      outer_node root (.app f args) → x ∈ args → outer_node root x

mutual
/-- The bottom-up rebuild of an expression with the simplifying constructor, constants,
variables and quantifiers left as they are found: what the traversal computes on an
expression without uninterpreted constants outside its quantifiers. -/
def expr.rebuild (rw : th_rewriter) : expr → expr
  | .app f args => rw.mk_app f (expr.rebuild_list rw args)
  | .var i s => .var i s
  | .quantifier i b => .quantifier i b
def expr.rebuild_list (rw : th_rewriter) : List expr → List expr
  | [] => []
  | a :: as => expr.rebuild rw a :: expr.rebuild_list rw as
end

mutual
/-- No application node of the expression outside its quantifiers is an uninterpreted
constant. -/
def expr.outer_const_free : expr → Bool
  | .app f args => !is_uninterp_const (.app f args) && expr.outer_const_free_list args
  | .var _ _ => true
  | .quantifier _ _ => true
def expr.outer_const_free_list : List expr → Bool
  | [] => true
  | a :: as => expr.outer_const_free a && expr.outer_const_free_list as
end

mutual
/-- The declarations of the uninterpreted constants of `e` outside any quantifier: the
leaves that the traversal resolves through the constant map. -/
def expr.outer_consts : expr → List func_decl
  | .app d args => if is_uninterp_const (.app d args) then [d] else expr.outer_consts_list args
  | .var _ _ => []
  | .quantifier _ _ => []
def expr.outer_consts_list : List expr → List func_decl
  | [] => []
  | a :: as => expr.outer_consts a ++ expr.outer_consts_list as
end

mutual
/-- The naive recursive rewrite `R` of an expression in a builder: an uninterpreted constant
becomes its constant interpretation (it is left as it is when it has none), any other
application `f(a1, ..., an)` becomes `mk_app(f, R(a1), ..., R(an))`, and any other node, a
variable or a quantifier, is left as it is, body included. -/
def proto_model.naive_rewrite {P : Type} (pm : proto_model P) : expr → expr
  | .app f args =>
    if is_uninterp_const (.app f args) then
      match pm.get_const_interp f with
      | some v => v
      | none => .app f args
    else pm.m_rewrite.mk_app f (proto_model.naive_rewrite_list pm args)
  | .var i s => .var i s
  | .quantifier i b => .quantifier i b
def proto_model.naive_rewrite_list {P : Type} (pm : proto_model P) : List expr → List expr
  | [] => []
  | a :: as => proto_model.naive_rewrite pm a :: proto_model.naive_rewrite_list pm as
end

/-- Every uninterpreted constant of `e` outside any quantifier has a constant interpretation
in the builder. -/
def proto_model.resolved {P : Type} (pm : proto_model P) (e : expr) : Prop :=
  ∀ c ∈ e.outer_consts, (pm.get_const_interp c).isSome = true

instance proto_model.resolved_decidable {P : Type} (pm : proto_model P) (e : expr) :
    Decidable (pm.resolved e) :=
  inferInstanceAs (Decidable (∀ c ∈ e.outer_consts, (pm.get_const_interp c).isSome = true))


/-- A normal form of the rewriter: an expression without uninterpreted constants outside its
quantifiers that the rewriter rebuilds to itself. -/
def normal_form (rw : th_rewriter) (v : expr) : Prop :=
  v.outer_const_free = true ∧ v.rebuild rw = v

instance normal_form_decidable (rw : th_rewriter) (v : expr) : Decidable (normal_form rw v) :=
  inferInstanceAs (Decidable (v.outer_const_free = true ∧ v.rebuild rw = v))

/-- The default branches of the function tables of the builder, in the order of the map. -/
def proto_model.defaults {P : Type} (pm : proto_model P) : List expr :=
  pm.m_finterp.entries.filterMap (fun x => x.2.get_else)

/-- The default branch of the table of `d`, when `d` has a table that is not partial. -/
def proto_model.get_else {P : Type} (pm : proto_model P) (d : func_decl) : Option expr :=
  match pm.get_func_interp d with
  | some fi => fi.get_else
  | none => none

/-! ## The rebuilds of one traversal -/

namespace proto_model
variable {P : Type}

/-- The node that the next iteration of the loop rebuilds with `mk_app`, if any: the node on
top of the stack when it is an application, not an uninterpreted constant, with all its
arguments in the cache. -/
def rebuilt_next (st : cleanup_state P) : List expr :=
  match st.todo with
  | .app f t_args :: _ =>
    if !is_uninterp_const (.app f t_args) && t_args.all (fun a => st.cache.contains a) then
      [.app f t_args]
    else []
  | _ => []

/-- The nodes rebuilt by the loop, one entry per invocation of `mk_app`, in the order of the
invocations. -/
def cleanup_trace : Nat → cleanup_state P → List expr
  | 0, _ => []
  | fuel + 1, st =>
    match st.todo with
    | [] => []
    | _ :: _ => rebuilt_next st ++ cleanup_trace fuel (cleanup_step st)

end proto_model

/-! ## A measure of the work left -/

namespace proto_model
variable {P : Type}

/-- The weight of a stack entry, given the cache and the entries above it: 1 when the
iteration that finds it on top pops it or will pop it once the entries above are gone (it is
no application, or an uninterpreted constant, or each of its arguments is cached or waiting
above it), and twice its size otherwise. -/
def entry_weight (cache : obj_map expr expr) (above : List expr) : expr → Nat
  | .app f args =>
    if is_uninterp_const (.app f args) ||
        args.all (fun y => cache.contains y || decide (y ∈ above)) then 1
    else 2 * (expr.app f args).size
  | _ => 1

/-- The weight of the stack `todo` (top first) below the entries `above`. -/
def stack_weight (cache : obj_map expr expr) : List expr → List expr → Nat
  | _, [] => 0
  | above, x :: rest => entry_weight cache above x + stack_weight cache (x :: above) rest

/-- The measure of a traversal state: every iteration of the loop makes it smaller. -/
def cleanup_measure (st : cleanup_state P) : Nat := stack_weight st.cache [] st.todo

end proto_model


/-! ## Predicates on states

The properties of builder states and of traversal states that the theorems below are
stated with. -/

/-- The builder `pm2` is `pm1` with, possibly, more declarations registered and other
factory states: the auxiliary set, the rewriter, the plugin registry and the configuration
flag are the same, and every interpretation of `pm1` is still there. -/
structure pm_frame {P : Type} (pm1 pm2 : proto_model P) : Prop where
  aux : pm2.m_aux_decls = pm1.m_aux_decls
  rewriter : pm2.m_rewrite = pm1.m_rewrite
  flag : pm2.m_model_partial = pm1.m_model_partial
  factories : pm2.m_factories = pm1.m_factories
  finterp : ∀ d fi, pm1.m_finterp.find d = some fi → pm2.m_finterp.find d = some fi
  interp : ∀ d v, pm1.m_interp.find d = some v → pm2.m_interp.find d = some v
  func_decls : pm1.m_func_decls <+: pm2.m_func_decls
  tracked : (∀ d ∈ pm1.m_func_decls, pm1.m_finterp.contains d = true) →
    ∀ d ∈ pm2.m_func_decls, pm2.m_finterp.contains d = true

namespace proto_model
variable {P : Type}

/-- A node is ready when the step that finds it on top of the stack resolves it: it is not
an application, or it is an uninterpreted constant, or all its arguments are cached. -/
def ready (cache : obj_map expr expr) : expr → Bool
  | .app f args => is_uninterp_const (.app f args) || args.all (fun a => cache.contains a)
  | _ => true

/-- A node is visited when, from any state with the node on top of the stack, the loop
pops it after at most twice its size iterations, with the node in the cache and no cache
entry lost. -/
def visits (P : Type) (a : expr) : Prop :=
  ∀ (st : cleanup_state P) (rest : List expr), st.todo = a :: rest →
    ∃ k, k ≤ 2 * a.size ∧ (Nat.iterate cleanup_step k st).todo = rest ∧
      a ∈ (Nat.iterate cleanup_step k st).cache.keys ∧
      ∀ x ∈ st.cache.keys, x ∈ (Nat.iterate cleanup_step k st).cache.keys

/-- The facts that every iteration of the loop keeps, for the traversal of `root` started in
the builder `pm0` with the accumulator `found0`. -/
structure cleanup_inv (pm0 : proto_model P) (root : expr) (found0 : func_decl_set)
    (st : cleanup_state P) : Prop where
  todo_sub : ∀ x ∈ st.todo, outer_node root x
  frame : pm_frame pm0 st.pm
  found_sound : ∀ d ∈ st.found_aux_fs.elems,
    d ∈ found0.elems ∨ (d ∈ pm0.m_aux_decls.elems ∧ d ∈ root.outer_app_decls)
  found_mono : ∀ d ∈ found0.elems, d ∈ st.found_aux_fs.elems
  found_complete : ∀ n ∈ st.cache.keys, ∀ d ∈ n.outer_app_decls,
    d ∈ pm0.m_aux_decls.elems → d ∈ st.found_aux_fs.elems

/-- Every tracked function declaration has a function table. -/
def tracked (pm : proto_model P) : Prop :=
  ∀ d ∈ pm.m_func_decls, pm.m_finterp.contains d = true

end proto_model

namespace proto_model
variable {P : Type}

/-- Every auxiliary declaration has a function table. -/
def aux_registered (pm : proto_model P) : Prop :=
  ∀ d ∈ pm.m_aux_decls.elems, pm.m_finterp.contains d = true

instance aux_registered_decidable (pm : proto_model P) : Decidable pm.aux_registered :=
  inferInstanceAs (Decidable (∀ d ∈ pm.m_aux_decls.elems, pm.m_finterp.contains d = true))

/-- The builder states reached from `pm0` by registration, reregistration, fabrication of an
interpretation, completion of the partial tables and cleanup: every operation that changes
the registry, finalization left out. -/
inductive reachable_before_finalization (pm0 : proto_model P) : proto_model P → Prop
  | init : reachable_before_finalization pm0 pm0
  | register_aux_decl (pm : proto_model P) (d : func_decl) (fi : func_interp) :
      reachable_before_finalization pm0 pm →
      reachable_before_finalization pm0 (pm.register_aux_decl d fi)
  | reregister_decl (pm : proto_model P) (f : func_decl) (new_fi : func_interp)
      (f_aux : Option func_decl) :
      reachable_before_finalization pm0 pm →
      reachable_before_finalization pm0 (pm.reregister_decl f new_fi f_aux)
  | mk_some_interp_for (pm : proto_model P) (d : func_decl) :
      reachable_before_finalization pm0 pm →
      reachable_before_finalization pm0 (pm.mk_some_interp_for d).2
  | complete_partial_funcs (pm pm2 : proto_model P) (fuel : Nat) :
      reachable_before_finalization pm0 pm → pm.complete_partial_funcs fuel = some pm2 →
      reachable_before_finalization pm0 pm2
  | cleanup (pm pm2 : proto_model P) :
      reachable_before_finalization pm0 pm → pm.cleanup = some pm2 →
      reachable_before_finalization pm0 pm2

end proto_model

namespace proto_model
variable {P : Type}

/-- Every cached image is the naive rewrite of its node in the current builder, and the
current builder has an interpretation for every uninterpreted constant of the node. -/
def rewrite_inv (st : cleanup_state P) : Prop :=
  ∀ n v, st.cache.find n = some v → v = naive_rewrite st.pm n ∧ resolved st.pm n

/-- The builder `pm2` has the rewriter and every constant interpretation of `pm1`. -/
def interp_ext (pm1 pm2 : proto_model P) : Prop :=
  pm2.m_rewrite = pm1.m_rewrite ∧
  ∀ d v, pm1.get_const_interp d = some v → pm2.get_const_interp d = some v

end proto_model


/-! ## The kinds of the registered declarations -/

/-- The keys of the constant map have arity zero and the keys of the function-table map have
a positive arity. -/
def model_core.well_kinded (m : model_core) : Prop :=
  (∀ d ∈ m.m_interp.keys, d.get_arity = 0) ∧ (∀ d ∈ m.m_finterp.keys, 0 < d.get_arity)

instance model_core.well_kinded_decidable (m : model_core) : Decidable m.well_kinded :=
  inferInstanceAs (Decidable
    ((∀ d ∈ m.m_interp.keys, d.get_arity = 0) ∧ (∀ d ∈ m.m_finterp.keys, 0 < d.get_arity)))

/-- No declaration is a key of both the constant map and the function-table map. -/
def model_core.disjoint_maps (m : model_core) : Prop :=
  ∀ d, ¬ (m.m_interp.contains d = true ∧ m.m_finterp.contains d = true)

namespace proto_model
variable {P : Type}

/-- The declarations for which a registered plugin registers a table, when it is asked for
some value, have a positive arity. -/
def registers_functions (pm : proto_model P) : Prop :=
  ∀ fid f, pm.get_factory fid = some (factory_ref.plugin f) →
    ∀ s p, ∀ r ∈ (f.get_some_value s p).2.2, 0 < r.1.get_arity

/-- The declarations of the uninterpreted constants of the default of the table of `d`. -/
def default_consts (pm : proto_model P) (d : func_decl) : List func_decl :=
  match pm.get_else d with
  | some e => e.outer_consts
  | none => []

/-- The uninterpreted constants of the defaults are well formed: an application without
arguments is an application of a declaration of arity zero. -/
def const_arities (pm : proto_model P) : Prop :=
  ∀ d ∈ pm.m_finterp.keys, ∀ c ∈ pm.default_consts d, c.get_arity = 0

instance const_arities_decidable (pm : proto_model P) : Decidable pm.const_arities :=
  inferInstanceAs (Decidable
    (∀ d ∈ pm.m_finterp.keys, ∀ c ∈ pm.default_consts d, c.get_arity = 0))

end proto_model


/-! ## Example data

A small signature and a builder with no theory plugin beside the basic factory, used to
evaluate the operations on concrete inputs. -/

namespace Example
open proto_model

def arith_family_id : family_id := 5

/-- A family id for which no plugin is registered. -/
def dummy_family_id : family_id := 7

def int_sort : sort := ⟨1, arith_family_id⟩

/-- An uninterpreted sort. -/
def sort_U : sort := ⟨2, null_family_id⟩

/-- An interpreted sort whose family has no plugin. -/
def sort_D : sort := ⟨3, dummy_family_id⟩

def mk_numeral (n : Nat) : expr := .app ⟨n, arith_family_id, [], int_sort⟩ []

/-- A value of the sort `sort_D`. -/
def value_D : expr := .app ⟨0, dummy_family_id, [], sort_D⟩ []

def var_x : expr := .var 0 int_sort

def decl_f : func_decl := ⟨10, null_family_id, [int_sort], int_sort⟩

def decl_g : func_decl := ⟨11, null_family_id, [int_sort], int_sort⟩

def decl_h : func_decl := ⟨12, null_family_id, [int_sort], int_sort⟩

/-- Uninterpreted constants of sort `int_sort`. -/
def decl_c : func_decl := ⟨20, null_family_id, [], int_sort⟩

def decl_d : func_decl := ⟨21, null_family_id, [], int_sort⟩

/-- The rewriter that rebuilds the application as it is. -/
def plain_rewriter : th_rewriter := ⟨expr.app⟩

def mk_false : expr := .app ⟨0, basic_family_id, [], bool_sort⟩ []

def mk_true : expr := .app ⟨1, basic_family_id, [], bool_sort⟩ []

/-- A basic factory without state of its own: `false` is some value, `false` and `true` are
two values, and there is no fresh value. -/
def simple_basic_factory (P : Type) : value_factory P :=
  { get_some_value := fun _ p => (mk_false, p, []),
    get_some_values := fun _ p => (some (mk_false, mk_true), p, []),
    get_fresh_value := fun _ p => (none, p, []),
    register_value := fun _ p => p }

/-- The freshly constructed builder, with `partial_models = false`. -/
def fresh : proto_model Unit := mk_proto_model plain_rewriter (simple_basic_factory Unit) () false

/-- The total table of arity 1 with no entry and default `e`. -/
def total_fi (e : expr) : func_interp := (func_interp.alloc 1).set_else e

def table_1 : func_interp := total_fi (mk_numeral 1)

def table_2 : func_interp := total_fi (mk_numeral 2)

/-- The builder in which `decl_f` is interpreted by `table_1`. -/
def pm_f : proto_model Unit := fresh.register_decl_fi decl_f table_1

/-- The table of the scenario: entries `0 -> 1`, `0 -> 1`, `2 -> 3` and no default. -/
def scenario_table : func_interp :=
  { m_arity := 1,
    m_entries := [⟨[mk_numeral 0], mk_numeral 1⟩, ⟨[mk_numeral 0], mk_numeral 1⟩,
                  ⟨[mk_numeral 2], mk_numeral 3⟩],
    m_else := none }

/-- The builder of the scenario: the constant `decl_c` is 5 and `decl_f` has the table of
the scenario. -/
def pm_scenario : proto_model Unit :=
  (fresh.register_decl decl_c (mk_numeral 5)).register_decl_fi decl_f scenario_table

/-- The builder with two auxiliary declarations: `decl_g`, whose table has the default `0`,
and `decl_h`, whose table has the default `decl_g(x)`. Nothing mentions `decl_h`. -/
def pm_chain : proto_model Unit :=
  (fresh.register_aux_decl decl_g (total_fi (mk_numeral 0))).register_aux_decl decl_h
    (total_fi (.app decl_g [var_x]))

/-- The builder after `register_aux_decl(decl_g, table_1)` and `mk_model()`. -/
def pm_finalized : proto_model Unit := (fresh.register_aux_decl decl_g table_1).mk_model.2

def array_family_id : family_id := 6

/-- An interpreted sort of the array family. -/
def sort_A : sort := ⟨4, array_family_id⟩

/-- A function into the array sort. -/
def decl_fa : func_decl := ⟨13, null_family_id, [int_sort], sort_A⟩

/-- The builder in which the constant `decl_c` is `5` and the table of `decl_f` has the
default `decl_c`. -/
def pm_const : proto_model Unit :=
  (fresh.register_decl decl_c (mk_numeral 5)).register_decl_fi decl_f
    (total_fi (.app decl_c []))

/-- A binary function. -/
def decl_h2 : func_decl := ⟨14, null_family_id, [int_sort, int_sort], int_sort⟩

/-- The node `decl_g(x)`. -/
def node_gx : expr := .app decl_g [var_x]

/-- The expression `decl_h2(decl_g(x), decl_g(x))`, in which the node `decl_g(x)` is
shared. -/
def shared_expr : expr := .app decl_h2 [node_gx, node_gx]

/-- The state in which the loop starts on `shared_expr` in the fresh builder. -/
def shared_start : cleanup_state Unit :=
  { pm := fresh, cache := obj_map.empty, todo := [shared_expr],
    found_aux_fs := obj_hashtable.empty }

/-- The expression `decl_h2(decl_c, decl_g(x))`. -/
def mixed_expr : expr := .app decl_h2 [.app decl_c [], node_gx]

/-- The builder in which the constant `decl_c` is interpreted by the constant `decl_d`,
which has no interpretation, and the table of `decl_f` has the default `decl_c`. -/
def pm_dangling : proto_model Unit :=
  (fresh.register_decl decl_c (.app decl_d [])).register_decl_fi decl_f
    (total_fi (.app decl_c []))

/-- The builder in which the constant `decl_c` is interpreted by `decl_g(x)`, `decl_g` is an
auxiliary declaration whose table has the default `0`, and the table of `decl_f` has the
default `decl_c`. -/
def pm_hidden : proto_model Unit :=
  ((fresh.register_decl decl_c node_gx).register_aux_decl decl_g
      (total_fi (mk_numeral 0))).register_decl_fi decl_f (total_fi (.app decl_c []))

/-- The builder in which the table of `decl_f` has the default `decl_c`, a constant
without interpretation. -/
def pm_fabricate : proto_model Unit :=
  fresh.register_decl_fi decl_f (total_fi (.app decl_c []))

/-- A predicate on `int_sort`. -/
def decl_p : func_decl := ⟨15, null_family_id, [int_sort], bool_sort⟩

/-- A function from `bool_sort` to `int_sort`. -/
def decl_b : func_decl := ⟨16, null_family_id, [bool_sort], int_sort⟩

/-- A quantifier whose body is `decl_p(decl_g(x))`. -/
def quant_gx : expr := .quantifier 0 (.app decl_p [node_gx])

/-- A quantifier whose body is `decl_p(decl_c)`. -/
def quant_c : expr := .quantifier 0 (.app decl_p [.app decl_c []])

/-- The term `decl_b(quant_gx)`, of sort `int_sort`. -/
def term_quant_gx : expr := .app decl_b [quant_gx]

/-- The term `decl_b(quant_c)`, of sort `int_sort`. -/
def term_quant_c : expr := .app decl_b [quant_c]

/-- The builder in which the table of `decl_f` has the default `decl_b(quant_c)`, and
`decl_c` has no interpretation. -/
def pm_quant_const : proto_model Unit :=
  fresh.register_decl_fi decl_f (total_fi term_quant_c)

/-- The builder in which `decl_g` is auxiliary, with the table `table_1`, and the table of
`decl_f` has the default `decl_b(quant_gx)`. -/
def pm_quant_aux : proto_model Unit :=
  (fresh.register_aux_decl decl_g table_1).register_decl_fi decl_f (total_fi term_quant_gx)

/-- The builder in which the constant `decl_c` is `5`, `decl_g` is auxiliary, with the table
`table_1`, and the table of `decl_f` has the default `mixed_expr`. -/
def pm_mixed : proto_model Unit :=
  ((fresh.register_decl decl_c (mk_numeral 5)).register_aux_decl decl_g
      table_1).register_decl_fi decl_f (total_fi mixed_expr)

/-- The builder in which the constant `decl_c` is `5` and the table of `decl_f` has the
default `decl_b(quant_c)`. -/
def pm_quant_table : proto_model Unit :=
  (fresh.register_decl decl_c (mk_numeral 5)).register_decl_fi decl_f (total_fi term_quant_c)

/-- The builder in which the constant `decl_c` is `5`. -/
def pm_c : proto_model Unit := fresh.register_decl decl_c (mk_numeral 5)

/-- A factory that registers a table for the constant `decl_d` whenever it is asked for
some value. -/
def constant_table_factory : value_factory Unit :=
  { get_some_value := fun _ p =>
      (.app ⟨100, array_family_id, [], sort_A⟩ [], p, [(decl_d, func_interp.alloc 0)]),
    get_some_values := fun _ p => (none, p, []),
    get_fresh_value := fun _ p => (none, p, []),
    register_value := fun _ p => p }

/-- The fresh builder with `constant_table_factory` registered for the array family. -/
def pm_constant_table : proto_model Unit :=
  fresh.register_factory array_family_id (factory_ref.plugin constant_table_factory)

/-- The builder in which the table of `decl_f`, a declaration of arity one, has the default
`decl_f()`, an application without arguments. -/
def pm_ill_formed : proto_model Unit :=
  fresh.register_decl_fi decl_f (total_fi (.app decl_f []))

/-- The builder after `get_fresh_value(sort_D)` on the fresh builder. -/
def pm_routed : proto_model Unit := (fresh.get_fresh_value sort_D).2

end Example

/-! ## Facts about the identity-keyed tables -/

namespace obj_hashtable
variable {α : Type} [DecidableEq α]

theorem set_contains_iff (s : obj_hashtable α) (a : α) : s.contains a = true ↔ a ∈ s.elems := by
  simp [contains]

theorem set_contains_eq_false_iff (s : obj_hashtable α) (a : α) :
    s.contains a = false ↔ a ∉ s.elems := by
  simp [contains]

theorem set_mem_insert (s : obj_hashtable α) (a b : α) :
    a ∈ (s.insert b).elems ↔ a = b ∨ a ∈ s.elems := by
  simp [insert, List.mem_insert_iff]

theorem set_not_mem_empty (a : α) : a ∉ (empty : obj_hashtable α).elems := by
  simp [empty]

/-- A subset of the same size is the whole set. -/
theorem set_subset_of_size_eq (s t : obj_hashtable α) (hst : ∀ a ∈ s.elems, a ∈ t.elems)
    (hsz : s.size = t.size) : ∀ a ∈ t.elems, a ∈ s.elems := by
  have hsub : s.elems ⊆ t.elems := hst
  have hle : t.elems.length ≤ s.elems.length := by
    simp only [size] at hsz; omega
  have := (List.subperm_of_subset s.nodup hsub)
  have hperm : s.elems.Perm t.elems := this.perm_of_length_le hle
  intro a ha
  exact hperm.symm.subset ha

end obj_hashtable

theorem lookupK_eq_none_iff {K V : Type} [DecidableEq K] (k : K) (l : List (K × V)) :
    lookupK k l = none ↔ k ∉ l.map Prod.fst := by
  induction l with
  | nil => simp [lookupK]
  | cons e l ih =>
    obtain ⟨a, b⟩ := e
    by_cases h : a = k
    · simp [lookupK, h]
    · simp [lookupK, h, ih, Ne.symm h]

theorem lookupK_replaceK_self {K V : Type} [DecidableEq K] (k : K) (v : V) (l : List (K × V))
    (h : k ∈ l.map Prod.fst) : lookupK k (replaceK k v l) = some v := by
  induction l with
  | nil => simp at h
  | cons e l ih =>
    obtain ⟨a, b⟩ := e
    by_cases hak : a = k
    · simp [lookupK, replaceK, hak]
    · have : k ∈ l.map Prod.fst := by
        simp at h
        rcases h with h | h
        · exact absurd h.symm hak
        · simpa using h
      simp [lookupK, replaceK, hak, ih this]

theorem lookupK_replaceK_ne {K V : Type} [DecidableEq K] (k k' : K) (v : V) (l : List (K × V))
    (h : k' ≠ k) : lookupK k' (replaceK k v l) = lookupK k' l := by
  induction l with
  | nil => rfl
  | cons e l ih =>
    obtain ⟨a, b⟩ := e
    simp only [replaceK]
    split_ifs with h1
    · have h2 : ¬ a = k' := fun h3 => h (h3.symm.trans h1)
      simp only [lookupK, if_neg h2, ih]
    · simp only [lookupK, ih]

theorem lookupK_append {K V : Type} [DecidableEq K] (k : K) (l1 l2 : List (K × V)) :
    lookupK k (l1 ++ l2) = (lookupK k l1).orElse (fun _ => lookupK k l2) := by
  induction l1 with
  | nil => simp [lookupK]
  | cons e l ih =>
    obtain ⟨a, b⟩ := e
    by_cases h : a = k <;> simp [lookupK, h, ih]

theorem lookupK_filter_ne {K V : Type} [DecidableEq K] (k k' : K) (l : List (K × V))
    (h : k' ≠ k) : lookupK k' (l.filter (fun e => !decide (e.1 = k))) = lookupK k' l := by
  induction l with
  | nil => rfl
  | cons e l ih =>
    obtain ⟨a, b⟩ := e
    by_cases h1 : a = k
    · have h2 : ¬ a = k' := fun h3 => h (h3.symm.trans h1)
      rw [List.filter_cons_of_neg (by simp [h1])]
      simp only [lookupK, if_neg h2, ih]
    · rw [List.filter_cons_of_pos (by simp [h1])]
      simp only [lookupK, ih]

theorem lookupK_filter_self {K V : Type} [DecidableEq K] (k : K) (l : List (K × V)) :
    lookupK k (l.filter (fun e => !decide (e.1 = k))) = none := by
  rw [lookupK_eq_none_iff]
  simp [List.mem_filter]

namespace obj_map
variable {K V : Type} [DecidableEq K]

theorem find_empty (k : K) : (empty : obj_map K V).find k = none := rfl

theorem find_eq_none_iff (m : obj_map K V) (k : K) : m.find k = none ↔ k ∉ m.keys :=
  lookupK_eq_none_iff k m.entries

theorem mem_keys_iff (m : obj_map K V) (k : K) : k ∈ m.keys ↔ ∃ v, m.find k = some v := by
  constructor
  · intro h
    cases hf : m.find k with
    | none => exact absurd h ((find_eq_none_iff m k).1 hf)
    | some v => exact ⟨v, rfl⟩
  · rintro ⟨v, hv⟩
    by_contra hk
    rw [(find_eq_none_iff m k).2 hk] at hv
    cases hv

theorem contains_iff (m : obj_map K V) (k : K) : m.contains k = true ↔ k ∈ m.keys := by
  rw [mem_keys_iff]
  cases h : m.find k <;> simp [contains, h]

theorem contains_eq_false_iff (m : obj_map K V) (k : K) :
    m.contains k = false ↔ m.find k = none := by
  cases h : m.find k <;> simp [contains, h]

theorem find_insert_self (m : obj_map K V) (k : K) (v : V) : (m.insert k v).find k = some v := by
  unfold insert find
  split
  · rename_i h; exact lookupK_replaceK_self k v m.entries h
  · rename_i h
    simp only [lookupK_append, (lookupK_eq_none_iff k m.entries).2 h]
    simp [lookupK]

theorem find_insert_ne (m : obj_map K V) (k k' : K) (v : V) (h : k' ≠ k) :
    (m.insert k v).find k' = m.find k' := by
  unfold insert find
  split
  · exact lookupK_replaceK_ne k k' v m.entries h
  · simp only [lookupK_append]
    cases lookupK k' m.entries <;> simp [lookupK, Ne.symm h]

theorem keys_insert_of_mem (m : obj_map K V) (k : K) (v : V) (h : k ∈ m.keys) :
    (m.insert k v).keys = m.keys := by
  have h2 : k ∈ m.entries.map Prod.fst := h
  unfold insert keys
  rw [dif_pos h2]
  exact keys_replaceK k v m.entries

theorem mem_keys_insert (m : obj_map K V) (k k' : K) (v : V) :
    k' ∈ (m.insert k v).keys ↔ k' = k ∨ k' ∈ m.keys := by
  by_cases h : k' = k
  · subst h
    simp only [true_or, iff_true]
    exact (mem_keys_iff _ _).2 ⟨v, find_insert_self m k' v⟩
  · simp only [h, false_or]
    rw [mem_keys_iff, mem_keys_iff, find_insert_ne m k k' v h]

theorem find_erase_self (m : obj_map K V) (k : K) : (m.erase k).find k = none :=
  lookupK_filter_self k m.entries

theorem find_erase_ne (m : obj_map K V) (k k' : K) (h : k' ≠ k) :
    (m.erase k).find k' = m.find k' :=
  lookupK_filter_ne k k' m.entries h

theorem find_reset (m : obj_map K V) (k : K) : (m.reset).find k = none := rfl

end obj_map

/-! ## Sizes of expressions -/

theorem sizeList_append (l1 l2 : List expr) :
    expr.sizeList (l1 ++ l2) = expr.sizeList l1 + expr.sizeList l2 := by
  induction l1 with
  | nil => simp [expr.sizeList]
  | cons a l ih => simp [expr.sizeList, ih, Nat.add_assoc]

theorem sizeList_reverse (l : List expr) : expr.sizeList l.reverse = expr.sizeList l := by
  induction l with
  | nil => rfl
  | cons a l ih => simp [expr.sizeList, sizeList_append, ih, Nat.add_comm]

theorem sizeList_filter_le (p : expr → Bool) (l : List expr) :
    expr.sizeList (l.filter p) ≤ expr.sizeList l := by
  induction l with
  | nil => simp [expr.sizeList]
  | cons a l ih =>
    by_cases h : p a = true
    · rw [List.filter_cons_of_pos h]; simp only [expr.sizeList]; omega
    · rw [List.filter_cons_of_neg h]; simp only [expr.sizeList]; omega

theorem size_le_sizeList_of_mem (x : expr) (l : List expr) (h : x ∈ l) :
    expr.size x ≤ expr.sizeList l := by
  induction l with
  | nil => cases h
  | cons a l ih =>
    simp only [expr.sizeList]
    rcases List.mem_cons.1 h with h | h
    · subst h; omega
    · have := ih h; omega

theorem size_pos (a : expr) : 1 ≤ a.size := by
  cases a <;> simp [expr.size]

theorem size_lt_of_mem_args (f : func_decl) (args : List expr) (x : expr) (h : x ∈ args) :
    x.size < (expr.app f args).size := by
  have := size_le_sizeList_of_mem x args h
  simp only [expr.size]; omega

/-! ## The work-stack loop of `cleanup_func_interp` -/

namespace proto_model
variable {P : Type}

/-- The effect of the loop over the arguments, in closed form. -/
theorem cleanup_args_eq (cache : obj_map expr expr) (l : List expr) (v : Bool)
    (todo args : List expr) :
    cleanup_args cache l v todo args =
      (v && l.all (fun a => cache.contains a),
       (l.filter (fun a => !cache.contains a)).reverse ++ todo,
       args ++ l.filterMap (fun a => cache.find a)) := by
  induction l generalizing v todo args with
  | nil => simp [cleanup_args]
  | cons a l ih =>
    cases h : cache.find a with
    | none =>
      have hc : cache.contains a = false := by simp [obj_map.contains, h]
      simp [cleanup_args, h, ih, hc]
    | some b =>
      have hc : cache.contains a = true := by simp [obj_map.contains, h]
      simp [cleanup_args, h, ih, hc]

theorem cleanup_step_const_some (st : cleanup_state P) (f : func_decl) (args rest : List expr)
    (ai : expr) (h : st.todo = .app f args :: rest)
    (hc : is_uninterp_const (.app f args) = true) (hi : st.pm.get_const_interp f = some ai) :
    cleanup_step st = { st with todo := rest, cache := st.cache.insert (.app f args) ai } := by
  have hi0 : model_core.get_const_interp st.pm.tomodel_core f = some ai := hi
  unfold cleanup_step
  rw [h]
  simp only [hc, if_true, hi0]

theorem cleanup_step_const_none (st : cleanup_state P) (f : func_decl) (args rest : List expr)
    (h : st.todo = .app f args :: rest)
    (hc : is_uninterp_const (.app f args) = true) (hi : st.pm.get_const_interp f = none) :
    cleanup_step st =
      { st with pm := (st.pm.get_some_value f.get_range).2.register_decl f
                        (st.pm.get_some_value f.get_range).1,
                todo := rest,
                cache := st.cache.insert (.app f args) (st.pm.get_some_value f.get_range).1 } := by
  have hi0 : model_core.get_const_interp st.pm.tomodel_core f = none := hi
  unfold cleanup_step
  rw [h]
  simp only [hc, if_true, hi0]

theorem cleanup_step_app_ready (st : cleanup_state P) (f : func_decl) (args rest : List expr)
    (h : st.todo = .app f args :: rest)
    (hc : is_uninterp_const (.app f args) = false)
    (hall : args.all (fun a => st.cache.contains a) = true) :
    cleanup_step st =
      { st with todo := rest,
                cache := st.cache.insert (.app f args)
                  (st.pm.m_rewrite.mk_app f (args.filterMap (fun a => st.cache.find a))),
                found_aux_fs :=
                  if st.pm.m_aux_decls.contains f then st.found_aux_fs.insert f
                  else st.found_aux_fs } := by
  unfold cleanup_step
  rw [h]
  simp only [hc, cleanup_args_eq, Bool.true_and, hall]
  simp

theorem cleanup_step_app_push (st : cleanup_state P) (f : func_decl) (args rest : List expr)
    (h : st.todo = .app f args :: rest)
    (hc : is_uninterp_const (.app f args) = false)
    (hall : args.all (fun a => st.cache.contains a) = false) :
    cleanup_step st =
      { st with todo :=
          (args.filter (fun a => !st.cache.contains a)).reverse ++ .app f args :: rest } := by
  unfold cleanup_step
  rw [h]
  simp only [hc, cleanup_args_eq, Bool.true_and, hall]
  simp

theorem cleanup_step_var (st : cleanup_state P) (i : Nat) (s : sort) (rest : List expr)
    (h : st.todo = .var i s :: rest) :
    cleanup_step st = { st with todo := rest, cache := st.cache.insert (.var i s) (.var i s) } := by
  unfold cleanup_step
  rw [h]

theorem cleanup_step_quantifier (st : cleanup_state P) (i : Nat) (b : expr)
    (rest : List expr) (h : st.todo = .quantifier i b :: rest) :
    cleanup_step st =
      { st with todo := rest, cache := st.cache.insert (.quantifier i b) (.quantifier i b) } := by
  unfold cleanup_step
  rw [h]

theorem cleanup_step_ready (st : cleanup_state P) (a : expr) (rest : List expr)
    (h : st.todo = a :: rest) (hr : ready st.cache a = true) :
    (cleanup_step st).todo = rest ∧ a ∈ (cleanup_step st).cache.keys ∧
    (∀ x ∈ st.cache.keys, x ∈ (cleanup_step st).cache.keys) := by
  have key : ∀ v, a ∈ (st.cache.insert a v).keys ∧
      ∀ x ∈ st.cache.keys, x ∈ (st.cache.insert a v).keys := fun v =>
    ⟨(obj_map.mem_keys_insert _ _ _ _).2 (Or.inl rfl),
     fun x hx => (obj_map.mem_keys_insert _ _ _ _).2 (Or.inr hx)⟩
  cases a with
  | app f args =>
    cases hc : is_uninterp_const (.app f args) with
    | true =>
      cases hi : st.pm.get_const_interp f with
      | some ai => rw [cleanup_step_const_some st f args rest ai h hc hi]; exact ⟨rfl, key _⟩
      | none => rw [cleanup_step_const_none st f args rest h hc hi]; exact ⟨rfl, key _⟩
    | false =>
      have hall : args.all (fun a => st.cache.contains a) = true := by
        simpa [ready, hc] using hr
      rw [cleanup_step_app_ready st f args rest h hc hall]; exact ⟨rfl, key _⟩
  | var i s => rw [cleanup_step_var st i s rest h]; exact ⟨rfl, key _⟩
  | quantifier i b => rw [cleanup_step_quantifier st i b rest h]; exact ⟨rfl, key _⟩

theorem cleanup_step_not_ready (st : cleanup_state P) (a : expr) (rest : List expr)
    (h : st.todo = a :: rest) (hr : ready st.cache a = false) :
    ∃ f args, a = .app f args ∧
      cleanup_step st = { st with todo :=
        (args.filter (fun a => !st.cache.contains a)).reverse ++ a :: rest } := by
  cases a with
  | app f args =>
    refine ⟨f, args, rfl, ?_⟩
    have hc : is_uninterp_const (.app f args) = false := by
      simp only [ready, Bool.or_eq_false_iff] at hr; exact hr.1
    have hall : args.all (fun a => st.cache.contains a) = false := by
      simp only [ready, Bool.or_eq_false_iff] at hr; exact hr.2
    exact cleanup_step_app_push st f args rest h hc hall
  | var i s => simp [ready] at hr
  | quantifier i b => simp [ready] at hr

theorem cleanup_step_nil (st : cleanup_state P) (h : st.todo = []) : cleanup_step st = st := by
  unfold cleanup_step; rw [h]

theorem iterate_cleanup_step_nil (k : Nat) (st : cleanup_state P) (h : st.todo = []) :
    Nat.iterate cleanup_step k st = st := by
  induction k with
  | zero => rfl
  | succ k ih => rw [Function.iterate_succ_apply, cleanup_step_nil st h, ih]

theorem cleanup_loop_eq_iterate (k : Nat) (st : cleanup_state P) :
    cleanup_loop k st = Nat.iterate cleanup_step k st := by
  induction k generalizing st with
  | zero => rfl
  | succ k ih =>
    rw [Function.iterate_succ_apply]
    cases h : st.todo with
    | nil =>
      rw [cleanup_step_nil st h, iterate_cleanup_step_nil k st h]
      simp [cleanup_loop, h]
    | cons a rest =>
      simp only [cleanup_loop, h]
      exact ih _

theorem visits_list (l : List expr) (hl : ∀ x ∈ l, visits P x) :
    ∀ (st : cleanup_state P) (rest : List expr), st.todo = l ++ rest →
      ∃ k, k ≤ 2 * expr.sizeList l ∧ (Nat.iterate cleanup_step k st).todo = rest ∧
        (∀ x ∈ l, x ∈ (Nat.iterate cleanup_step k st).cache.keys) ∧
        ∀ x ∈ st.cache.keys, x ∈ (Nat.iterate cleanup_step k st).cache.keys := by
  induction l with
  | nil =>
    intro st rest h
    exact ⟨0, by simp [expr.sizeList], by simpa using h, by simp, fun x hx => hx⟩
  | cons a l ih =>
    intro st rest h
    obtain ⟨k1, hk1, ht1, ha1, hm1⟩ := hl a (List.mem_cons_self _ _) st (l ++ rest) h
    obtain ⟨k2, hk2, ht2, hl2, hm2⟩ :=
      ih (fun x hx => hl x (List.mem_cons_of_mem _ hx)) (Nat.iterate cleanup_step k1 st) rest ht1
    refine ⟨k2 + k1, ?_, ?_, ?_, ?_⟩
    · simp only [expr.sizeList]; omega
    · rw [Function.iterate_add_apply]; exact ht2
    · intro x hx
      rw [Function.iterate_add_apply]
      rcases List.mem_cons.1 hx with hx | hx
      · subst hx; exact hm2 _ ha1
      · exact hl2 x hx
    · intro x hx
      rw [Function.iterate_add_apply]
      exact hm2 _ (hm1 _ hx)

/-- Every node is visited: the loop pops it within twice its size iterations. -/
theorem visits_all_aux (n : Nat) : ∀ a : expr, a.size ≤ n → visits P a := by
  induction n with
  | zero => intro a h; have := size_pos a; omega
  | succ n ih =>
    intro a hn st rest h
    cases hr : ready st.cache a with
    | true =>
      obtain ⟨h1, h2, h3⟩ := cleanup_step_ready st a rest h hr
      exact ⟨1, by have := size_pos a; omega, h1, h2, h3⟩
    | false =>
      obtain ⟨f, args, ha, hstep⟩ := cleanup_step_not_ready st a rest h hr
      subst ha
      have hvis : ∀ x ∈ (args.filter (fun a => !st.cache.contains a)).reverse, visits P x := by
        intro x hx
        have hx2 : x ∈ args := (List.mem_filter.1 (List.mem_reverse.1 hx)).1
        exact ih x (by have := size_lt_of_mem_args f args x hx2; omega)
      obtain ⟨k1, hk1, ht1, hl1, hm1⟩ :=
        visits_list _ hvis (cleanup_step st) (.app f args :: rest) (by rw [hstep])
      have hcache : (cleanup_step st).cache = st.cache := by rw [hstep]
      have hready : ready (Nat.iterate cleanup_step k1 (cleanup_step st)).cache (.app f args)
          = true := by
        simp only [ready, Bool.or_eq_true, List.all_eq_true]
        right
        intro x hx
        rw [obj_map.contains_iff]
        cases hc : st.cache.contains x with
        | true =>
          apply hm1; rw [hcache]; exact (obj_map.contains_iff _ _).1 hc
        | false =>
          apply hl1
          exact List.mem_reverse.2 (List.mem_filter.2 ⟨hx, by simp [hc]⟩)
      obtain ⟨h1, h2, h3⟩ := cleanup_step_ready _ _ rest ht1 hready
      refine ⟨k1 + 1 + 1, ?_, ?_, ?_, ?_⟩
      · have := sizeList_filter_le (fun a => !st.cache.contains a) args
        rw [sizeList_reverse] at hk1
        simp only [expr.size]; omega
      · rw [Function.iterate_succ_apply', Function.iterate_succ_apply]; exact h1
      · rw [Function.iterate_succ_apply', Function.iterate_succ_apply]; exact h2
      · intro x hx
        rw [Function.iterate_succ_apply', Function.iterate_succ_apply]
        apply h3; apply hm1; rw [hcache]; exact hx

theorem visits_all (a : expr) : visits P a := visits_all_aux a.size a (Nat.le_refl _)

/-- The loop started on the root alone ends, within its fuel, with an empty stack and the
root in the cache. -/
theorem cleanup_loop_terminates (pm : proto_model P) (e : expr) (found : func_decl_set) :
    ∃ k, k ≤ cleanup_fuel e ∧
      cleanup_loop (cleanup_fuel e)
          { pm := pm, cache := obj_map.empty, todo := [e], found_aux_fs := found } =
        Nat.iterate cleanup_step k
          { pm := pm, cache := obj_map.empty, todo := [e], found_aux_fs := found } ∧
      (Nat.iterate cleanup_step k
          { pm := pm, cache := obj_map.empty, todo := [e], found_aux_fs := found }).todo = [] ∧
      e ∈ (Nat.iterate cleanup_step k
          { pm := pm, cache := obj_map.empty, todo := [e], found_aux_fs := found }).cache.keys := by
  obtain ⟨k, hk, ht, hc, _⟩ := visits_all e
    ({ pm := pm, cache := obj_map.empty, todo := [e], found_aux_fs := found } : cleanup_state P)
    [] rfl
  refine ⟨k, by unfold cleanup_fuel; exact hk, ?_, ht, hc⟩
  rw [cleanup_loop_eq_iterate]
  obtain ⟨m, hm⟩ := Nat.exists_eq_add_of_le hk
  have hf : cleanup_fuel e = m + k := by unfold cleanup_fuel; omega
  rw [hf, Function.iterate_add_apply, iterate_cleanup_step_nil m _ ht]

end proto_model

/-! ## Facts about the registry operations -/

namespace model_core

theorem register_decl_m_interp (m : model_core) (d : func_decl) (v : expr) :
    (m.register_decl d v).m_interp = m.m_interp.insert d v := by
  unfold register_decl; split <;> rfl

theorem register_decl_m_finterp (m : model_core) (d : func_decl) (v : expr) :
    (m.register_decl d v).m_finterp = m.m_finterp := by
  unfold register_decl; split <;> rfl

theorem register_decl_fi_m_finterp (m : model_core) (d : func_decl) (fi : func_interp) :
    (m.register_decl_fi d fi).m_finterp = m.m_finterp.insert d fi := by
  unfold register_decl_fi; split <;> rfl

theorem register_decl_fi_m_interp (m : model_core) (d : func_decl) (fi : func_interp) :
    (m.register_decl_fi d fi).m_interp = m.m_interp := by
  unfold register_decl_fi; split <;> rfl

end model_core

namespace proto_model
variable {P : Type}

theorem pm_register_decl_fi_m_finterp (pm : proto_model P) (d : func_decl) (fi : func_interp) :
    (pm.register_decl_fi d fi).m_finterp = pm.m_finterp.insert d fi :=
  model_core.register_decl_fi_m_finterp pm.tomodel_core d fi

theorem pm_register_decl_fi_m_aux_decls (pm : proto_model P) (d : func_decl) (fi : func_interp) :
    (pm.register_decl_fi d fi).m_aux_decls = pm.m_aux_decls := rfl

end proto_model

/-! ## What the operations leave in place -/

namespace pm_frame
variable {P : Type}

theorem frame_refl (pm : proto_model P) : pm_frame pm pm :=
  ⟨rfl, rfl, rfl, rfl, fun _ _ h => h, fun _ _ h => h, List.prefix_refl _, fun h => h⟩

theorem frame_trans {pm1 pm2 pm3 : proto_model P} (h12 : pm_frame pm1 pm2) (h23 : pm_frame pm2 pm3) :
    pm_frame pm1 pm3 :=
  ⟨h23.aux.trans h12.aux, h23.rewriter.trans h12.rewriter, h23.flag.trans h12.flag,
   h23.factories.trans h12.factories,
   fun d fi h => h23.finterp d fi (h12.finterp d fi h),
   fun d v h => h23.interp d v (h12.interp d v h),
   h12.func_decls.trans h23.func_decls,
   fun h => h23.tracked (h12.tracked h)⟩

end pm_frame

namespace proto_model
variable {P : Type}

theorem register_decl_fi_new_frame (pm : proto_model P) (d : func_decl) (fi : func_interp)
    (h : pm.m_finterp.contains d = false) : pm_frame pm (pm.register_decl_fi d fi) := by
  have hnone : pm.m_finterp.find d = none := (obj_map.contains_eq_false_iff _ _).1 h
  have hfin : (pm.register_decl_fi d fi).m_finterp = pm.m_finterp.insert d fi :=
    model_core.register_decl_fi_m_finterp pm.tomodel_core d fi
  have hfd : (pm.register_decl_fi d fi).m_func_decls = pm.m_func_decls ++ [d] := by
    show (model_core.register_decl_fi pm.tomodel_core d fi).m_func_decls = _
    unfold model_core.register_decl_fi
    rw [if_neg (by simp [h])]
  refine ⟨rfl, rfl, rfl, rfl, ?_, ?_, ?_, ?_⟩
  · intro d2 fi2 h2
    rw [hfin, obj_map.find_insert_ne]
    · exact h2
    · intro he; subst he; rw [hnone] at h2; cases h2
  · intro d2 v h2
    show obj_map.find (model_core.register_decl_fi pm.tomodel_core d fi).m_interp d2 = some v
    rw [model_core.register_decl_fi_m_interp]; exact h2
  · rw [hfd]; exact List.prefix_append _ _
  · intro ht d2 hd2
    rw [hfd] at hd2
    rw [hfin, obj_map.contains_iff, obj_map.mem_keys_insert]
    rcases List.mem_append.1 hd2 with h3 | h3
    · right; exact (obj_map.contains_iff _ _).1 (ht d2 h3)
    · left; simpa using h3

theorem register_new_decls_frame (regs : List registration) (pm : proto_model P) :
    pm_frame pm (pm.register_new_decls regs) := by
  induction regs generalizing pm with
  | nil => exact pm_frame.frame_refl pm
  | cons r regs ih =>
    obtain ⟨d, fi⟩ := r
    unfold register_new_decls
    split_ifs with h
    · exact ih pm
    · have hc : pm.m_finterp.contains d = false := by
        have : model_core.has_interpretation pm.tomodel_core d = false := by
          simpa using h
        simp only [model_core.has_interpretation, Bool.or_eq_false_iff] at this
        exact this.2
      exact (register_decl_fi_new_frame pm d fi hc).frame_trans (ih _)

theorem set_plugins_frame (pm : proto_model P) (p : P) :
    pm_frame pm { pm with m_plugins := p } :=
  ⟨rfl, rfl, rfl, rfl, fun _ _ h => h, fun _ _ h => h, List.prefix_refl _, fun h => h⟩

theorem set_user_sort_factory_frame (pm : proto_model P) (u : user_sort_factory) :
    pm_frame pm { pm with m_user_sort_factory := u } :=
  ⟨rfl, rfl, rfl, rfl, fun _ _ h => h, fun _ _ h => h, List.prefix_refl _, fun h => h⟩

theorem get_some_value_frame (pm : proto_model P) (s : sort) :
    pm_frame pm (pm.get_some_value s).2 := by
  unfold get_some_value
  split
  · exact set_user_sort_factory_frame pm _
  · split
    · exact (set_plugins_frame pm _).frame_trans (register_new_decls_frame _ _)
    · exact set_user_sort_factory_frame pm _
    · exact set_user_sort_factory_frame pm _

theorem register_decl_new_frame (pm : proto_model P) (d : func_decl) (v : expr)
    (h : pm.get_const_interp d = none) : pm_frame pm (pm.register_decl d v) := by
  have hnone : pm.m_interp.find d = none := h
  refine ⟨rfl, rfl, rfl, rfl, ?_, ?_, ?_, ?_⟩
  · intro d2 fi2 h2
    show obj_map.find (model_core.register_decl pm.tomodel_core d v).m_finterp d2 = some fi2
    rw [model_core.register_decl_m_finterp]; exact h2
  · intro d2 v2 h2
    show obj_map.find (model_core.register_decl pm.tomodel_core d v).m_interp d2 = some v2
    rw [model_core.register_decl_m_interp, obj_map.find_insert_ne]
    · exact h2
    · intro he; subst he; rw [hnone] at h2; cases h2
  · have : (pm.register_decl d v).m_func_decls = pm.m_func_decls := by
      show (model_core.register_decl pm.tomodel_core d v).m_func_decls = _
      unfold model_core.register_decl; split <;> rfl
    rw [this]
  · intro ht d2 hd2
    have h1 : (pm.register_decl d v).m_func_decls = pm.m_func_decls := by
      show (model_core.register_decl pm.tomodel_core d v).m_func_decls = _
      unfold model_core.register_decl; split <;> rfl
    have h2 : (pm.register_decl d v).m_finterp = pm.m_finterp :=
      model_core.register_decl_m_finterp pm.tomodel_core d v
    rw [h1] at hd2; rw [h2]; exact ht d2 hd2

end proto_model

/-! ## The auxiliary declarations found by the traversal -/

theorem mem_outer_app_decls_list (d : func_decl) (l : List expr) :
    d ∈ expr.outer_app_decls_list l ↔ ∃ x ∈ l, d ∈ x.outer_app_decls := by
  induction l with
  | nil => simp [expr.outer_app_decls_list]
  | cons a l ih => simp [expr.outer_app_decls_list, ih]

theorem outer_app_decls_app (f : func_decl) (args : List expr)
    (h : is_uninterp_const (.app f args) = false) :
    (expr.app f args).outer_app_decls = f :: expr.outer_app_decls_list args := by
  rw [expr.outer_app_decls]; simp [h]

theorem outer_app_decls_const (f : func_decl) (args : List expr)
    (h : is_uninterp_const (.app f args) = true) : (expr.app f args).outer_app_decls = [] := by
  rw [expr.outer_app_decls]; simp [h]

theorem is_uninterp_const_of_mem_args (f : func_decl) (args : List expr) (x : expr)
    (hx : x ∈ args) : is_uninterp_const (.app f args) = false := by
  cases args with
  | nil => cases hx
  | cons a l => simp [is_uninterp_const]

theorem outer_app_decls_of_outer_node (root x : expr) (h : outer_node root x) :
    ∀ d ∈ x.outer_app_decls, d ∈ root.outer_app_decls := by
  induction h with
  | root => exact fun d hd => hd
  | arg f args x _ hx ih =>
    intro d hd
    apply ih
    rw [outer_app_decls_app f args (is_uninterp_const_of_mem_args f args x hx)]
    exact List.mem_cons_of_mem _ ((mem_outer_app_decls_list d args).2 ⟨x, hx, hd⟩)

namespace proto_model
variable {P : Type}

theorem register_new_decls_m_interp (regs : List registration) (pm : proto_model P) :
    (pm.register_new_decls regs).m_interp = pm.m_interp := by
  induction regs generalizing pm with
  | nil => rfl
  | cons r regs ih =>
    obtain ⟨d, fi⟩ := r
    unfold register_new_decls
    split_ifs
    · exact ih pm
    · rw [ih]; exact model_core.register_decl_fi_m_interp pm.tomodel_core d fi

theorem get_some_value_m_interp (pm : proto_model P) (s : sort) :
    (pm.get_some_value s).2.m_interp = pm.m_interp := by
  unfold get_some_value
  split
  · rfl
  · split
    · exact register_new_decls_m_interp _ _
    · rfl
    · rfl

theorem cleanup_inv_init (pm0 : proto_model P) (root : expr) (found0 : func_decl_set) :
    cleanup_inv pm0 root found0
      { pm := pm0, cache := obj_map.empty, todo := [root], found_aux_fs := found0 } :=
  ⟨fun x hx => by
      have : x = root := by simpa using hx
      subst this; exact outer_node.root,
   pm_frame.frame_refl pm0, fun d hd => Or.inl hd, fun d hd => hd,
   fun n hn => by cases hn⟩

theorem cleanup_inv_step (pm0 : proto_model P) (root : expr) (found0 : func_decl_set)
    (st : cleanup_state P) (h : cleanup_inv pm0 root found0 st) :
    cleanup_inv pm0 root found0 (cleanup_step st) := by
  cases ht : st.todo with
  | nil => rw [cleanup_step_nil st ht]; exact h
  | cons a rest =>
    have hrest : ∀ x ∈ rest, outer_node root x := fun x hx =>
      h.todo_sub x (by rw [ht]; exact List.mem_cons_of_mem _ hx)
    have ha : outer_node root a := h.todo_sub a (by rw [ht]; exact List.mem_cons_self _ _)
    -- a leaf or a constant enters the cache: it heads no rebuilt application
    have leaf : ∀ (pm1 : proto_model P) (v : expr), pm_frame pm0 pm1 → a.outer_app_decls = [] →
        cleanup_inv pm0 root found0
          { st with pm := pm1, todo := rest, cache := st.cache.insert a v } := by
      intro pm1 v hf hnil
      refine ⟨hrest, hf, h.found_sound, h.found_mono, ?_⟩
      intro n hn d hd
      rcases (obj_map.mem_keys_insert _ _ _ _).1 hn with hn | hn
      · subst hn; rw [hnil] at hd; cases hd
      · exact h.found_complete n hn d hd
    cases a with
    | var i s =>
      rw [cleanup_step_var st i s rest ht]
      exact leaf st.pm _ h.frame (by rw [expr.outer_app_decls])
    | quantifier i b =>
      rw [cleanup_step_quantifier st i b rest ht]
      exact leaf st.pm _ h.frame (by rw [expr.outer_app_decls])
    | app f args =>
      cases hc : is_uninterp_const (.app f args) with
      | true =>
        cases hi : st.pm.get_const_interp f with
        | some ai =>
          rw [cleanup_step_const_some st f args rest ai ht hc hi]
          exact leaf st.pm _ h.frame (outer_app_decls_const f args hc)
        | none =>
          rw [cleanup_step_const_none st f args rest ht hc hi]
          refine leaf _ _ ?_ (outer_app_decls_const f args hc)
          refine h.frame.frame_trans ((get_some_value_frame st.pm f.get_range).frame_trans ?_)
          apply register_decl_new_frame
          show obj_map.find (st.pm.get_some_value f.get_range).2.m_interp f = none
          rw [get_some_value_m_interp]; exact hi
      | false =>
        cases hall : args.all (fun a => st.cache.contains a) with
        | false =>
          rw [cleanup_step_app_push st f args rest ht hc hall]
          refine ⟨?_, h.frame, h.found_sound, h.found_mono, h.found_complete⟩
          intro x hx
          rcases List.mem_append.1 hx with hx | hx
          · have hx2 : x ∈ args := (List.mem_filter.1 (List.mem_reverse.1 hx)).1
            exact outer_node.arg f args x ha hx2
          · rcases List.mem_cons.1 hx with hx | hx
            · subst hx; exact ha
            · exact hrest x hx
        | true =>
          rw [cleanup_step_app_ready st f args rest ht hc hall]
          have hsub : ∀ d ∈ st.found_aux_fs.elems,
              d ∈ (if st.pm.m_aux_decls.contains f then st.found_aux_fs.insert f
                    else st.found_aux_fs).elems := by
            intro d hd
            split_ifs
            · exact (obj_hashtable.set_mem_insert _ _ _).2 (Or.inr hd)
            · exact hd
          refine ⟨hrest, h.frame, ?_, fun d hd => hsub d (h.found_mono d hd), ?_⟩
          · intro d hd
            dsimp only at hd
            split_ifs at hd with hcf
            · rcases (obj_hashtable.set_mem_insert _ _ _).1 hd with hd | hd
              · subst hd
                right
                refine ⟨?_, ?_⟩
                · rw [← h.frame.aux]; exact (obj_hashtable.set_contains_iff _ _).1 hcf
                · apply outer_app_decls_of_outer_node root _ ha
                  rw [outer_app_decls_app d args hc]; exact List.mem_cons_self _ _
              · exact h.found_sound d hd
            · exact h.found_sound d hd
          · intro n hn d hd haux
            dsimp only at hn ⊢
            rcases (obj_map.mem_keys_insert _ _ _ _).1 hn with hn | hn
            · subst hn
              rw [outer_app_decls_app f args hc] at hd
              rcases List.mem_cons.1 hd with hd | hd
              · subst hd
                have hcf : st.pm.m_aux_decls.contains d = true := by
                  rw [obj_hashtable.set_contains_iff, h.frame.aux]; exact haux
                rw [if_pos hcf]
                exact (obj_hashtable.set_mem_insert _ _ _).2 (Or.inl rfl)
              · obtain ⟨x, hx, hdx⟩ := (mem_outer_app_decls_list d args).1 hd
                apply hsub
                refine h.found_complete x ?_ d hdx haux
                have := List.all_eq_true.1 hall x hx
                exact (obj_map.contains_iff _ _).1 this
            · exact hsub d (h.found_complete n hn d hd haux)

theorem cleanup_inv_iterate (pm0 : proto_model P) (root : expr) (found0 : func_decl_set)
    (k : Nat) (st : cleanup_state P) (h : cleanup_inv pm0 root found0 st) :
    cleanup_inv pm0 root found0 (Nat.iterate cleanup_step k st) := by
  induction k with
  | zero => exact h
  | succ k ih => rw [Function.iterate_succ_apply']; exact cleanup_inv_step _ _ _ _ ih

end proto_model

namespace proto_model
variable {P : Type}

/-- `cleanup_func_interp` always returns: on a partial table it does nothing; otherwise the
loop ends in a state that keeps the invariant and has the root in its cache, and the cached
image of the root becomes the default of the table. -/
theorem cleanup_func_interp_some (pm : proto_model P) (f : func_decl) (fi : func_interp)
    (found : func_decl_set) :
    (fi.get_else = none → cleanup_func_interp pm f fi found = some (pm, found)) ∧
    (∀ e, fi.get_else = some e → ∃ st a, cleanup_inv pm e found st ∧
      st.cache.find e = some a ∧
      cleanup_func_interp pm f fi found =
        some ({ st.pm with m_finterp := st.pm.m_finterp.insert f (fi.set_else a) },
              st.found_aux_fs)) := by
  constructor
  · intro h
    unfold cleanup_func_interp
    rw [h]
  · intro e h
    obtain ⟨k, _, hloop, htodo, hkey⟩ := cleanup_loop_terminates pm e found
    obtain ⟨a, ha⟩ := (obj_map.mem_keys_iff _ _).1 hkey
    refine ⟨_, a, cleanup_inv_iterate pm e found k _ (cleanup_inv_init pm e found), ha, ?_⟩
    unfold cleanup_func_interp
    rw [h]
    simp only [hloop, htodo, ha]

theorem cleanup_func_interp_found (pm : proto_model P) (f : func_decl) (fi : func_interp)
    (found : func_decl_set) :
    ∃ pm1 found1, cleanup_func_interp pm f fi found = some (pm1, found1) ∧
      pm1.m_aux_decls = pm.m_aux_decls ∧
      (∀ d, d ∈ found1.elems ↔ d ∈ found.elems ∨
        (d ∈ pm.m_aux_decls.elems ∧ ∃ e, fi.get_else = some e ∧ d ∈ e.outer_app_decls)) ∧
      (∀ d fi2, d ≠ f → pm.m_finterp.find d = some fi2 → pm1.m_finterp.find d = some fi2) := by
  obtain ⟨hnone, hsome⟩ := cleanup_func_interp_some pm f fi found
  cases he : fi.get_else with
  | none =>
    refine ⟨pm, found, hnone he, rfl, ?_, fun d fi2 _ h => h⟩
    intro d
    constructor
    · exact fun h => Or.inl h
    · rintro (h | ⟨_, e, h, _⟩)
      · exact h
      · cases h
  | some e =>
    obtain ⟨st, a, hinv, ha, heq⟩ := hsome e he
    refine ⟨_, _, heq, hinv.frame.aux, ?_, ?_⟩
    · intro d
      constructor
      · intro hd
        rcases hinv.found_sound d hd with h | ⟨h1, h2⟩
        · exact Or.inl h
        · exact Or.inr ⟨h1, e, rfl, h2⟩
      · rintro (h | ⟨h1, e2, h2, h3⟩)
        · exact hinv.found_mono d h
        · cases h2
          exact hinv.found_complete e ((obj_map.mem_keys_iff _ _).2 ⟨a, ha⟩) d h3 h1
    · intro d fi2 hne hd
      show obj_map.find (obj_map.insert st.pm.m_finterp f (fi.set_else a)) d = some fi2
      rw [obj_map.find_insert_ne _ _ _ _ hne]
      exact hinv.frame.finterp d fi2 hd

theorem get_else_eq_of_find_eq (pm1 pm2 : proto_model P) (d : func_decl)
    (h : pm1.m_finterp.find d = pm2.m_finterp.find d) : pm1.get_else d = pm2.get_else d := by
  unfold get_else
  show (match obj_map.find pm1.m_finterp d with | some fi => fi.get_else | none => none) =
    (match obj_map.find pm2.m_finterp d with | some fi => fi.get_else | none => none)
  rw [h]

/-- The loop over the tables always returns; it leaves the auxiliary set as it is and adds
to the accumulator exactly the auxiliary declarations that head a rebuilt application node
in the default of one of the tables, as these defaults are before the loop. -/
theorem cleanup_tables_found (ks : List func_decl) :
    ∀ (pm : proto_model P) (found : func_decl_set), ks.Nodup →
      (∀ k ∈ ks, ∃ fi, pm.m_finterp.find k = some fi) →
      ∃ pm1 found1, cleanup_tables ks pm found = some (pm1, found1) ∧
        pm1.m_aux_decls = pm.m_aux_decls ∧
        (∀ d, d ∈ found1.elems ↔ d ∈ found.elems ∨
          (d ∈ pm.m_aux_decls.elems ∧
            ∃ k ∈ ks, ∃ e, pm.get_else k = some e ∧ d ∈ e.outer_app_decls)) := by
  induction ks with
  | nil =>
    intro pm found _ _
    exact ⟨pm, found, rfl, rfl, fun d => by simp⟩
  | cons k ks ih =>
    intro pm found hnd hks
    obtain ⟨fi, hfi⟩ := hks k (List.mem_cons_self _ _)
    obtain ⟨pm1, found1, h1, haux1, hfound1, hkeep1⟩ := cleanup_func_interp_found pm k fi found
    have hk : k ∉ ks := (List.nodup_cons.1 hnd).1
    have hfind : ∀ k2 ∈ ks, pm1.m_finterp.find k2 = pm.m_finterp.find k2 := by
      intro k2 hk2
      obtain ⟨fi2, hfi2⟩ := hks k2 (List.mem_cons_of_mem _ hk2)
      rw [hfi2]
      exact hkeep1 k2 fi2 (fun he => hk (he ▸ hk2)) hfi2
    obtain ⟨pm2, found2, h2, haux2, hfound2⟩ := ih pm1 found1 (List.nodup_cons.1 hnd).2
      (fun k2 hk2 => by
        obtain ⟨fi2, hfi2⟩ := hks k2 (List.mem_cons_of_mem _ hk2)
        exact ⟨fi2, (hfind k2 hk2).trans hfi2⟩)
    have hfi0 : model_core.get_func_interp pm.tomodel_core k = some fi := hfi
    refine ⟨pm2, found2, ?_, haux2.trans haux1, ?_⟩
    · simp only [cleanup_tables, hfi0, h1, h2]
    · have hke : pm.get_else k = fi.get_else := by
        unfold get_else
        rw [show pm.get_func_interp k = some fi from hfi]
      intro d
      rw [hfound2, hfound1, haux1]
      constructor
      · rintro ((h | ⟨ha, e, he, hd⟩) | ⟨ha, k2, hk2, e, he, hd⟩)
        · exact Or.inl h
        · exact Or.inr ⟨ha, k, List.mem_cons_self _ _, e, hke.trans he, hd⟩
        · refine Or.inr ⟨ha, k2, List.mem_cons_of_mem _ hk2, e, ?_, hd⟩
          rw [← get_else_eq_of_find_eq pm1 pm k2 (hfind k2 hk2)]; exact he
      · rintro (h | ⟨ha, k2, hk2, e, he, hd⟩)
        · exact Or.inl (Or.inl h)
        · rcases List.mem_cons.1 hk2 with hk2 | hk2
          · subst hk2
            exact Or.inl (Or.inr ⟨ha, e, hke.symm.trans he, hd⟩)
          · refine Or.inr ⟨ha, k2, hk2, e, ?_, hd⟩
            rw [get_else_eq_of_find_eq pm1 pm k2 (hfind k2 hk2)]; exact he

theorem find_erase_unused_aux (found : func_decl_set) (l : List func_decl) :
    ∀ (m m1 : obj_map func_decl func_interp), erase_unused_aux found l m = some m1 →
      ∀ d, m1.find d = if d ∈ l ∧ found.contains d = false then none else m.find d := by
  induction l with
  | nil =>
    intro m m1 h d
    simp only [erase_unused_aux] at h
    cases h
    simp
  | cons a l ih =>
    intro m m1 h d
    unfold erase_unused_aux at h
    by_cases ha : found.contains a = true
    · simp only [ha, Bool.not_true, Bool.false_eq_true, if_false] at h
      rw [ih m m1 h d]
      by_cases hd : d = a
      · subst hd; simp [ha]
      · simp [hd]
    · have ha2 : found.contains a = false := by simpa using ha
      simp only [ha2, Bool.not_false, if_true] at h
      cases hf : m.find a with
      | none => rw [hf] at h; cases h
      | some fi =>
        rw [hf] at h
        rw [ih _ m1 h d]
        by_cases hd : d = a
        · subst hd; simp [ha2, obj_map.find_erase_self]
        · simp [hd, obj_map.find_erase_ne _ _ _ hd]

/-- The removal loop returns when every declaration of the list that was not found has a
table. -/
theorem erase_unused_aux_returns (found : func_decl_set) (l : List func_decl) :
    ∀ (m : obj_map func_decl func_interp), l.Nodup →
      (∀ d ∈ l, found.contains d = false → ∃ fi, m.find d = some fi) →
      ∃ m1, erase_unused_aux found l m = some m1 := by
  induction l with
  | nil => intro m _ _; exact ⟨m, rfl⟩
  | cons a l ih =>
    intro m hnd h
    have hal : a ∉ l := (List.nodup_cons.1 hnd).1
    unfold erase_unused_aux
    by_cases ha : found.contains a = true
    · simp only [ha, Bool.not_true, Bool.false_eq_true, if_false]
      exact ih m (List.nodup_cons.1 hnd).2 (fun d hd => h d (List.mem_cons_of_mem _ hd))
    · have ha2 : found.contains a = false := by simpa using ha
      obtain ⟨fi, hfi⟩ := h a (List.mem_cons_self _ _) ha2
      simp only [ha2, Bool.not_false, if_true, hfi]
      apply ih _ (List.nodup_cons.1 hnd).2
      intro d hd hfd
      obtain ⟨fi2, hfi2⟩ := h d (List.mem_cons_of_mem _ hd) hfd
      refine ⟨fi2, ?_⟩
      rw [obj_map.find_erase_ne _ _ _ (fun (hda : d = a) => hal (hda ▸ hd))]
      exact hfi2

/-- The removal loop stops at a declaration of the list that was not found and has no
table. -/
theorem erase_unused_aux_fails (found : func_decl_set) (l : List func_decl) :
    ∀ (m : obj_map func_decl func_interp) (d : func_decl), l.Nodup → d ∈ l →
      found.contains d = false → m.find d = none → erase_unused_aux found l m = none := by
  induction l with
  | nil => intro m d _ hd; cases hd
  | cons a l ih =>
    intro m d hnd hd hfd hm
    have hal : a ∉ l := (List.nodup_cons.1 hnd).1
    unfold erase_unused_aux
    rcases List.mem_cons.1 hd with hda | hdl
    · subst hda
      simp only [hfd, Bool.not_false, if_true, hm]
    · have hne : d ≠ a := fun hda => hal (hda ▸ hdl)
      by_cases ha : found.contains a = true
      · simp only [ha, Bool.not_true, Bool.false_eq_true, if_false]
        exact ih m d (List.nodup_cons.1 hnd).2 hdl hfd hm
      · have ha2 : found.contains a = false := by simpa using ha
        simp only [ha2, Bool.not_false, if_true]
        cases hf : m.find a with
        | none => rfl
        | some fi =>
          simp only
          apply ih _ d (List.nodup_cons.1 hnd).2 hdl hfd
          rw [obj_map.find_erase_ne _ _ _ hne]
          exact hm

/-- What the last part of `cleanup()`, after the loop over the tables, does to a builder in
which the loop has found `found`: the constant map, the rewriter and the plugins are kept,
the auxiliary set becomes `found`, the table of an auxiliary declaration that was not found
is erased, and such a declaration is dropped from the declaration lists. -/
theorem cleanup_cases (pm pm2 : proto_model P) (h : pm.cleanup = some pm2) :
    ∃ pmT found, cleanup_tables pm.m_finterp.keys pm obj_hashtable.empty = some (pmT, found) ∧
      pmT.m_aux_decls = pm.m_aux_decls ∧
      (∀ g, g ∈ found.elems ↔
        g ∈ pm.m_aux_decls.elems ∧ ∃ k e, pm.get_else k = some e ∧ g ∈ e.outer_app_decls) ∧
      pm2.m_interp = pmT.m_interp ∧ pm2.m_rewrite = pmT.m_rewrite ∧
      pm2.m_factories = pmT.m_factories ∧
      (∀ d, d ∈ pm2.m_aux_decls.elems ↔ d ∈ found.elems) ∧
      (∀ d, pm2.m_finterp.find d =
        if d ∈ pmT.m_aux_decls.elems ∧ found.contains d = false then none
        else pmT.m_finterp.find d) ∧
      (∀ d, d ∈ pm2.m_decls ↔
        d ∈ pmT.m_decls ∧ (d ∈ pmT.m_aux_decls.elems → d ∈ found.elems)) ∧
      (∀ d, d ∈ pm2.m_func_decls ↔
        d ∈ pmT.m_func_decls ∧ (d ∈ pmT.m_aux_decls.elems → d ∈ found.elems)) := by
  obtain ⟨pmT, found, hT, haux, hfound⟩ :=
    cleanup_tables_found pm.m_finterp.keys pm obj_hashtable.empty pm.m_finterp.nodup
      (fun k hk => (obj_map.mem_keys_iff _ _).1 hk)
  have hsub : ∀ d ∈ found.elems, d ∈ pmT.m_aux_decls.elems := by
    intro d hd
    rw [haux]
    rcases (hfound d).1 hd with h2 | h2
    · exact absurd h2 (obj_hashtable.set_not_mem_empty d)
    · exact h2.1
  have href : ∀ g, g ∈ found.elems ↔
      (g ∈ pm.m_aux_decls.elems ∧ ∃ k e, pm.get_else k = some e ∧ g ∈ e.outer_app_decls) := by
    intro g
    rw [hfound]
    constructor
    · rintro (h | ⟨ha, k, _, e, he, hd⟩)
      · exact absurd h (obj_hashtable.set_not_mem_empty g)
      · exact ⟨ha, k, e, he, hd⟩
    · rintro ⟨ha, d, e, he, hd⟩
      refine Or.inr ⟨ha, d, ?_, e, he, hd⟩
      rw [obj_map.mem_keys_iff]
      cases hf : pm.m_finterp.find d with
      | none =>
        have : pm.get_else d = none := by
          unfold get_else
          rw [show pm.get_func_interp d = none from hf]
        rw [this] at he; cases he
      | some fi => exact ⟨fi, rfl⟩
  refine ⟨pmT, found, hT, haux, href, ?_⟩
  unfold cleanup at h
  rw [hT] at h
  by_cases hsz : found.size = pmT.m_aux_decls.size
  · have hpm : pmT = pm2 := by simpa [hsz] using h
    subst hpm
    have hall := obj_hashtable.set_subset_of_size_eq found pmT.m_aux_decls hsub hsz
    refine ⟨rfl, rfl, rfl, fun d => ⟨hsub d |> fun _ => fun hd => hall d hd, hsub d⟩, ?_, ?_, ?_⟩
    · intro d
      rw [if_neg]
      rintro ⟨h1, h2⟩
      exact (obj_hashtable.set_contains_eq_false_iff _ _).1 h2 (hall d h1)
    · intro d
      exact ⟨fun h1 => ⟨h1, hall d⟩, fun h1 => h1.1⟩
    · intro d
      exact ⟨fun h1 => ⟨h1, hall d⟩, fun h1 => h1.1⟩
  · simp only [bne_iff_ne, ne_eq, hsz, not_false_eq_true, if_true] at h
    cases hE : erase_unused_aux found pmT.m_aux_decls.elems pmT.m_finterp with
    | none => rw [hE] at h; cases h
    | some m1 =>
      rw [hE] at h
      cases h
      refine ⟨rfl, rfl, rfl, fun d => Iff.rfl, ?_, ?_, ?_⟩
      · intro d
        exact find_erase_unused_aux found _ _ m1 hE d
      · intro d
        simp only [remove_aux_decls_not_in_set, List.mem_filter, Bool.or_eq_true,
          Bool.not_eq_true', obj_hashtable.set_contains_iff,
          obj_hashtable.set_contains_eq_false_iff]
        constructor
        · rintro ⟨h1, h2⟩
          exact ⟨h1, fun ha => h2.resolve_left (fun hn => hn ha)⟩
        · rintro ⟨h1, h2⟩
          refine ⟨h1, ?_⟩
          by_cases ha : d ∈ pmT.m_aux_decls.elems
          · exact Or.inr (h2 ha)
          · exact Or.inl ha
      · intro d
        simp only [remove_aux_decls_not_in_set, List.mem_filter, Bool.or_eq_true,
          Bool.not_eq_true', obj_hashtable.set_contains_iff,
          obj_hashtable.set_contains_eq_false_iff]
        constructor
        · rintro ⟨h1, h2⟩
          exact ⟨h1, fun ha => h2.resolve_left (fun hn => hn ha)⟩
        · rintro ⟨h1, h2⟩
          refine ⟨h1, ?_⟩
          by_cases ha : d ∈ pmT.m_aux_decls.elems
          · exact Or.inr (h2 ha)
          · exact Or.inl ha

end proto_model

/-! ## Completion of the partial tables -/

namespace proto_model
variable {P : Type}

theorem is_partial_set_else (fi : func_interp) (v : expr) :
    func_interp.is_partial (fi.set_else v) = false := rfl

end proto_model

/-! ## Expressions without uninterpreted constants -/

theorem outer_const_free_list_iff (l : List expr) :
    expr.outer_const_free_list l = true ↔ ∀ x ∈ l, x.outer_const_free = true := by
  induction l with
  | nil => simp [expr.outer_const_free_list]
  | cons a l ih => simp [expr.outer_const_free_list, ih]

theorem outer_const_free_app (f : func_decl) (args : List expr) :
    (expr.app f args).outer_const_free = true ↔
      is_uninterp_const (.app f args) = false ∧ ∀ x ∈ args, x.outer_const_free = true := by
  rw [expr.outer_const_free]
  simp [outer_const_free_list_iff]

theorem outer_const_free_of_outer_node (root x : expr) (h : outer_node root x)
    (hr : root.outer_const_free = true) : x.outer_const_free = true := by
  induction h with
  | root => exact hr
  | arg f args x _ hx ih => exact ((outer_const_free_app f args).1 ih).2 x hx

theorem is_uninterp_const_congr (f : func_decl) (args1 args2 : List expr)
    (h : args1.length = args2.length) :
    is_uninterp_const (.app f args1) = is_uninterp_const (.app f args2) := by
  cases args1 <;> cases args2 <;> simp_all [is_uninterp_const]

theorem filterMap_find_eq_map (cache : obj_map expr expr) (g : expr → expr) (l : List expr)
    (h : ∀ x ∈ l, cache.find x = some (g x)) :
    l.filterMap (fun a => cache.find a) = l.map g := by
  induction l with
  | nil => rfl
  | cons a l ih =>
    rw [List.filterMap_cons, h a (List.mem_cons_self _ _)]
    simp only [List.map_cons]
    rw [ih (fun x hx => h x (List.mem_cons_of_mem _ hx))]

theorem filterMap_find_length (cache : obj_map expr expr) (l : List expr)
    (h : l.all (fun a => cache.contains a) = true) :
    (l.filterMap (fun a => cache.find a)).length = l.length := by
  induction l with
  | nil => rfl
  | cons a l ih =>
    simp only [List.all_cons, Bool.and_eq_true] at h
    obtain ⟨v, hv⟩ := (obj_map.mem_keys_iff _ _).1 ((obj_map.contains_iff _ _).1 h.1)
    rw [List.filterMap_cons, hv]
    simp [ih h.2]

theorem mem_filterMap_find (cache : obj_map expr expr) (l : List expr) (v : expr)
    (h : v ∈ l.filterMap (fun a => cache.find a)) : ∃ x ∈ l, cache.find x = some v := by
  obtain ⟨x, hx, hv⟩ := List.mem_filterMap.1 h
  exact ⟨x, hx, hv⟩

theorem find_insert_cases {K V : Type} [DecidableEq K] (m : obj_map K V) (a n : K) (w v : V)
    (h : (m.insert a w).find n = some v) : (n = a ∧ v = w) ∨ m.find n = some v := by
  by_cases hn : n = a
  · subst hn
    rw [obj_map.find_insert_self] at h
    cases h
    exact Or.inl ⟨rfl, rfl⟩
  · rw [obj_map.find_insert_ne _ _ _ _ hn] at h
    exact Or.inr h

namespace proto_model
variable {P : Type}

end proto_model

theorem outer_node_no_args (d : func_decl) (x : expr) (h : outer_node (.app d []) x) :
    x = .app d [] := by
  induction h with
  | root => rfl
  | arg f args x _ hx ih =>
    injection ih with _ h2
    subst h2
    cases hx

/-! ## The auxiliary declarations keep their tables until finalization -/

namespace proto_model
variable {P : Type}

theorem contains_register_decl_fi (pm : proto_model P) (d d2 : func_decl) (fi : func_interp)
    (h : d2 = d ∨ pm.m_finterp.contains d2 = true) :
    (pm.register_decl_fi d fi).m_finterp.contains d2 = true := by
  rw [pm_register_decl_fi_m_finterp, obj_map.contains_iff, obj_map.mem_keys_insert]
  rcases h with h | h
  · exact Or.inl h
  · exact Or.inr ((obj_map.contains_iff _ _).1 h)

theorem contains_of_frame {pm1 pm2 : proto_model P} (h : pm_frame pm1 pm2) (d : func_decl)
    (hd : pm1.m_finterp.contains d = true) : pm2.m_finterp.contains d = true := by
  obtain ⟨fi, hfi⟩ := (obj_map.mem_keys_iff _ _).1 ((obj_map.contains_iff _ _).1 hd)
  exact (obj_map.contains_iff _ _).2 ((obj_map.mem_keys_iff _ _).2 ⟨fi, h.finterp d fi hfi⟩)

theorem contains_insert (m : obj_map func_decl func_interp) (k d : func_decl)
    (fi : func_interp) (h : m.contains d = true) : (m.insert k fi).contains d = true := by
  rw [obj_map.contains_iff, obj_map.mem_keys_insert]
  exact Or.inr ((obj_map.contains_iff _ _).1 h)

theorem aux_registered_register_aux_decl (pm : proto_model P) (d : func_decl)
    (fi : func_interp) (h : aux_registered pm) : aux_registered (pm.register_aux_decl d fi) := by
  intro d2 hd2
  have hd3 : d2 = d ∨ d2 ∈ pm.m_aux_decls.elems := (obj_hashtable.set_mem_insert _ _ _).1 hd2
  show (pm.register_decl_fi d fi).m_finterp.contains d2 = true
  apply contains_register_decl_fi
  rcases hd3 with h1 | h1
  · exact Or.inl h1
  · exact Or.inr (h d2 h1)

theorem aux_registered_reregister_decl (pm : proto_model P) (f : func_decl)
    (new_fi : func_interp) (f_aux : Option func_decl) (h : aux_registered pm) :
    aux_registered (pm.reregister_decl f new_fi f_aux) := by
  unfold reregister_decl
  split
  · intro d2 hd2
    exact contains_register_decl_fi pm f d2 new_fi (Or.inr (h d2 hd2))
  · rename_i fi _
    cases f_aux with
    | none =>
      intro d2 hd2
      exact contains_insert _ _ _ _ (h d2 hd2)
    | some g =>
      intro d2 hd2
      have hd3 : d2 = g ∨ d2 ∈ pm.m_aux_decls.elems :=
        (obj_hashtable.set_mem_insert _ _ _).1 hd2
      apply contains_insert
      show (pm.register_decl_fi g fi).m_finterp.contains d2 = true
      apply contains_register_decl_fi
      rcases hd3 with h1 | h1
      · exact Or.inl h1
      · exact Or.inr (h d2 h1)

theorem aux_registered_of_frame {pm1 pm2 : proto_model P} (hf : pm_frame pm1 pm2)
    (h : aux_registered pm1) : aux_registered pm2 := by
  intro d hd
  rw [hf.aux] at hd
  exact contains_of_frame hf d (h d hd)

theorem aux_registered_mk_some_interp_for (pm : proto_model P) (d : func_decl)
    (h : aux_registered pm) : aux_registered (pm.mk_some_interp_for d).2 := by
  have h1 := aux_registered_of_frame (get_some_value_frame pm d.get_range) h
  unfold mk_some_interp_for
  split_ifs
  · intro d2 hd2
    show obj_map.contains
      (model_core.register_decl (pm.get_some_value d.get_range).2.tomodel_core d _).m_finterp d2
        = true
    rw [model_core.register_decl_m_finterp]
    exact h1 d2 hd2
  · intro d2 hd2
    exact contains_register_decl_fi _ d d2 _ (Or.inr (h1 d2 hd2))

theorem aux_registered_complete_partial_func (pm : proto_model P) (f : func_decl)
    (h : aux_registered pm) : aux_registered (pm.complete_partial_func f) := by
  unfold complete_partial_func
  split
  · split_ifs
    · split
      · intro d hd
        exact contains_insert _ _ _ _ (h d hd)
      · have h1 := aux_registered_of_frame (get_some_value_frame pm f.get_range) h
        intro d hd
        exact contains_insert _ _ _ _ (h1 d hd)
    · exact h
  · exact h

theorem aux_registered_complete_partial_funcs_loop (fuel : Nat) :
    ∀ (i : Nat) (pm pm2 : proto_model P), complete_partial_funcs_loop fuel i pm = some pm2 →
      aux_registered pm → aux_registered pm2 := by
  induction fuel with
  | zero =>
    intro i pm pm2 h ha
    unfold complete_partial_funcs_loop at h
    cases hg : pm.m_func_decls.get? i with
    | none => rw [hg] at h; cases h; exact ha
    | some f => rw [hg] at h; cases h
  | succ fuel ih =>
    intro i pm pm2 h ha
    unfold complete_partial_funcs_loop at h
    cases hg : pm.m_func_decls.get? i with
    | none => rw [hg] at h; cases h; exact ha
    | some f =>
      rw [hg] at h
      exact ih (i + 1) _ pm2 h (aux_registered_complete_partial_func pm f ha)

theorem cleanup_func_interp_contains (pm pm1 : proto_model P) (f : func_decl)
    (fi : func_interp) (found found1 : func_decl_set)
    (h : cleanup_func_interp pm f fi found = some (pm1, found1)) (d : func_decl)
    (hd : pm.m_finterp.contains d = true) : pm1.m_finterp.contains d = true := by
  obtain ⟨hnone, hsome⟩ := cleanup_func_interp_some pm f fi found
  cases he : fi.get_else with
  | none =>
    rw [hnone he] at h
    cases h
    exact hd
  | some e =>
    obtain ⟨st, a, hinv, _, heq⟩ := hsome e he
    rw [heq] at h
    cases h
    exact contains_insert _ _ _ _ (contains_of_frame hinv.frame d hd)

theorem cleanup_tables_contains (ks : List func_decl) :
    ∀ (pm pm1 : proto_model P) (found found1 : func_decl_set),
      cleanup_tables ks pm found = some (pm1, found1) → ∀ d,
      pm.m_finterp.contains d = true → pm1.m_finterp.contains d = true := by
  induction ks with
  | nil =>
    intro pm pm1 found found1 h d hd
    simp only [cleanup_tables] at h
    cases h
    exact hd
  | cons k ks ih =>
    intro pm pm1 found found1 h d hd
    cases hk : pm.get_func_interp k with
    | none =>
      have hk0 : model_core.get_func_interp pm.tomodel_core k = none := hk
      simp only [cleanup_tables, hk0] at h
      exact ih pm pm1 found found1 h d hd
    | some fi =>
      have hk0 : model_core.get_func_interp pm.tomodel_core k = some fi := hk
      cases hc : cleanup_func_interp pm k fi found with
      | none => simp only [cleanup_tables, hk0, hc] at h; cases h
      | some r =>
        obtain ⟨pmk, foundk⟩ := r
        simp only [cleanup_tables, hk0, hc] at h
        exact ih pmk pm1 foundk found1 h d
          (cleanup_func_interp_contains pm pmk k fi found foundk hc d hd)

/-- `cleanup()` returns when every auxiliary declaration has a function table: the
assertion of its removal loop holds. -/
theorem cleanup_returns (pm : proto_model P) (h : aux_registered pm) :
    ∃ pm2, pm.cleanup = some pm2 := by
  obtain ⟨pmT, found, hT, haux, _⟩ :=
    cleanup_tables_found pm.m_finterp.keys pm obj_hashtable.empty pm.m_finterp.nodup
      (fun k hk => (obj_map.mem_keys_iff _ _).1 hk)
  have hkeep := cleanup_tables_contains _ pm pmT _ found hT
  unfold cleanup
  rw [hT]
  by_cases hsz : found.size = pmT.m_aux_decls.size
  · exact ⟨pmT, by simp [hsz]⟩
  · obtain ⟨m1, hm1⟩ := erase_unused_aux_returns found pmT.m_aux_decls.elems pmT.m_finterp
      pmT.m_aux_decls.nodup (fun d hd _ => by
        rw [haux] at hd
        exact (obj_map.mem_keys_iff _ _).1 ((obj_map.contains_iff _ _).1 (hkeep d (h d hd))))
    simp only [bne_iff_ne, ne_eq, hsz, not_false_eq_true, if_true, hm1]
    exact ⟨_, rfl⟩

theorem aux_registered_cleanup (pm pm2 : proto_model P) (hc : pm.cleanup = some pm2)
    (h : aux_registered pm) : aux_registered pm2 := by
  obtain ⟨pmT, found, hT, haux, href, _, _, _, hauxiff, hfind, _, _⟩ := cleanup_cases pm pm2 hc
  have hkeep := cleanup_tables_contains _ pm pmT _ found hT
  intro d hd
  have hd1 : d ∈ found.elems := (hauxiff d).1 hd
  have hfc : found.contains d = true := (obj_hashtable.set_contains_iff _ _).2 hd1
  obtain ⟨fi, hfi⟩ := (obj_map.mem_keys_iff _ _).1
    ((obj_map.contains_iff _ _).1 (hkeep d (h d ((href d).1 hd1).1)))
  rw [obj_map.contains_iff, obj_map.mem_keys_iff]
  refine ⟨fi, ?_⟩
  rw [hfind, if_neg (by simp [hfc])]
  exact hfi

/-- Along every sequence of operations that does not finalize, every auxiliary declaration
keeps a function table. -/
theorem aux_registered_of_reachable (pm0 pm : proto_model P) (h0 : aux_registered pm0)
    (h : reachable_before_finalization pm0 pm) : aux_registered pm := by
  induction h with
  | init => exact h0
  | register_aux_decl pm d fi _ ih => exact aux_registered_register_aux_decl pm d fi ih
  | reregister_decl pm f new_fi f_aux _ ih =>
    exact aux_registered_reregister_decl pm f new_fi f_aux ih
  | mk_some_interp_for pm d _ ih => exact aux_registered_mk_some_interp_for pm d ih
  | complete_partial_funcs pm pm2 fuel _ hc ih =>
    unfold complete_partial_funcs at hc
    split_ifs at hc
    · cases hc; exact ih
    · exact aux_registered_complete_partial_funcs_loop fuel 0 pm pm2 hc ih
  | cleanup pm pm2 _ hc ih => exact aux_registered_cleanup pm pm2 hc ih

end proto_model

/-! ## The user-sort factory -/

theorem usf_get_some_value_of_empty (u : user_sort_factory) (s : sort)
    (h : u.get_known_universe s = []) :
    (u.get_some_value s).1 = mk_model_value 0 s ∧
    (u.get_some_value s).2.m_finite = u.m_finite ∧
    (u.get_some_value s).2.get_known_universe s = [mk_model_value 0 s] := by
  unfold user_sort_factory.get_known_universe at h
  cases hf : u.m_sort2value_set.find s with
  | none =>
    simp [user_sort_factory.get_some_value, user_sort_factory.mk_value,
      user_sort_factory.get_value_set, hf, user_sort_factory.get_known_universe,
      obj_map.find_insert_self]
  | some set =>
    obtain ⟨vs, n⟩ := set
    rw [hf] at h
    simp only at h
    subst h
    simp [user_sort_factory.get_some_value, user_sort_factory.mk_value,
      user_sort_factory.get_value_set, hf, user_sort_factory.get_known_universe,
      obj_map.find_insert_self]

theorem usf_freeze_universe_is_finite (u : user_sort_factory) (s : sort) :
    (u.freeze_universe s).is_finite s = true := by
  unfold user_sort_factory.freeze_universe
  split_ifs with h
  · exact h
  · simp [user_sort_factory.is_finite]

theorem usf_freeze_universe_of_nonempty (u : user_sort_factory) (s : sort) (v : expr)
    (vs : List expr) (h : u.get_known_universe s = v :: vs)
    (hf : u.is_finite s = false) :
    (u.freeze_universe s).get_known_universe s = v :: vs := by
  unfold user_sort_factory.get_known_universe at h
  cases hs : u.m_sort2value_set.find s with
  | none => rw [hs] at h; cases h
  | some set =>
    obtain ⟨ws, n⟩ := set
    rw [hs] at h
    simp only at h
    subst h
    simp [user_sort_factory.freeze_universe, hf, hs, user_sort_factory.get_known_universe]

theorem foldl_copy (l : List expr) (acc : List expr) :
    l.foldl (fun tmp e => tmp ++ [e]) acc = acc ++ l := by
  induction l generalizing acc with
  | nil => simp
  | cons a l ih => simp [ih]

/-! ## The measure of the work left decreases -/

namespace proto_model
variable {P : Type}

theorem entry_weight_app (cache : obj_map expr expr) (above : List expr) (f : func_decl)
    (args : List expr) :
    entry_weight cache above (.app f args) =
      if is_uninterp_const (.app f args) ||
          args.all (fun y => cache.contains y || decide (y ∈ above)) then 1
      else 2 * (expr.app f args).size := rfl

theorem entry_weight_pos (cache : obj_map expr expr) (above : List expr) (x : expr) :
    1 ≤ entry_weight cache above x := by
  cases x with
  | app f args =>
    rw [entry_weight_app]
    split_ifs
    · exact Nat.le_refl _
    · have := size_pos (.app f args); omega
  | var i s => simp [entry_weight]
  | quantifier i b => simp [entry_weight]

theorem entry_weight_le (cache : obj_map expr expr) (above : List expr) (x : expr) :
    entry_weight cache above x ≤ 2 * x.size := by
  cases x with
  | app f args =>
    rw [entry_weight_app]
    split_ifs
    · have := size_pos (.app f args); omega
    · exact Nat.le_refl _
  | var i s => simp [entry_weight, expr.size]
  | quantifier i b => simp only [entry_weight, expr.size]; omega

/-- A larger cache or more entries above make no entry heavier. -/
theorem entry_weight_mono (c1 c2 : obj_map expr expr) (ab1 ab2 : List expr)
    (h : ∀ y, (c1.contains y || decide (y ∈ ab1)) = true →
      (c2.contains y || decide (y ∈ ab2)) = true) (x : expr) :
    entry_weight c2 ab2 x ≤ entry_weight c1 ab1 x := by
  cases x with
  | app f args =>
    rw [entry_weight_app, entry_weight_app]
    by_cases h1 : (is_uninterp_const (.app f args) ||
        args.all (fun y => c1.contains y || decide (y ∈ ab1))) = true
    · have h2 : (is_uninterp_const (.app f args) ||
          args.all (fun y => c2.contains y || decide (y ∈ ab2))) = true := by
        rcases Bool.or_eq_true _ _ ▸ h1 with hc | hall
        · simp [hc]
        · rw [Bool.or_eq_true]
          right
          rw [List.all_eq_true] at hall ⊢
          exact fun y hy => h y (hall y hy)
      rw [if_pos h1, if_pos h2]
    · rw [if_neg h1]
      split_ifs
      · have := size_pos (.app f args); omega
      · exact Nat.le_refl _
  | var i s => simp [entry_weight]
  | quantifier i b => simp [entry_weight]

theorem stack_weight_mono (c1 c2 : obj_map expr expr) (l : List expr) :
    ∀ (ab1 ab2 : List expr),
      (∀ y, (c1.contains y || decide (y ∈ ab1)) = true →
        (c2.contains y || decide (y ∈ ab2)) = true) →
      stack_weight c2 ab2 l ≤ stack_weight c1 ab1 l := by
  induction l with
  | nil => intro _ _ _; simp [stack_weight]
  | cons x l ih =>
    intro ab1 ab2 h
    simp only [stack_weight]
    have h1 := entry_weight_mono c1 c2 ab1 ab2 h x
    have h2 := ih (x :: ab1) (x :: ab2) (by
      intro y hy
      simp only [Bool.or_eq_true, decide_eq_true_eq, List.mem_cons] at hy ⊢
      rcases hy with hy | hy | hy
      · have := h y (by simp [hy])
        simp only [Bool.or_eq_true, decide_eq_true_eq] at this
        rcases this with t | t
        · exact Or.inl t
        · exact Or.inr (Or.inr t)
      · exact Or.inr (Or.inl hy)
      · have := h y (by simp [hy])
        simp only [Bool.or_eq_true, decide_eq_true_eq] at this
        rcases this with t | t
        · exact Or.inl t
        · exact Or.inr (Or.inr t))
    omega

theorem stack_weight_append (cache : obj_map expr expr) (l1 l2 : List expr) :
    ∀ above, stack_weight cache above (l1 ++ l2) =
      stack_weight cache above l1 + stack_weight cache (l1.reverse ++ above) l2 := by
  induction l1 with
  | nil => intro above; simp [stack_weight]
  | cons x l1 ih =>
    intro above
    have h := ih (x :: above)
    have e : (x :: l1).reverse ++ above = l1.reverse ++ x :: above := by simp
    rw [e]
    show entry_weight cache above x + stack_weight cache (x :: above) (l1 ++ l2) = _
    rw [h]
    simp only [stack_weight]
    omega

theorem stack_weight_le (cache : obj_map expr expr) (l : List expr) :
    ∀ above, stack_weight cache above l ≤ 2 * expr.sizeList l := by
  induction l with
  | nil => intro _; simp [stack_weight]
  | cons x l ih =>
    intro above
    simp only [stack_weight, expr.sizeList]
    have := entry_weight_le cache above x
    have := ih (x :: above)
    omega

/-- Every iteration of the loop on a stack that is not empty makes the measure smaller. -/
theorem cleanup_measure_decreases (st : cleanup_state P) (h : st.todo ≠ []) :
    cleanup_measure (cleanup_step st) < cleanup_measure st := by
  cases ht : st.todo with
  | nil => exact absurd ht h
  | cons a rest =>
    cases hr : ready st.cache a with
    | true =>
      obtain ⟨h1, h2, h3⟩ := cleanup_step_ready st a rest ht hr
      unfold cleanup_measure
      rw [h1, ht]
      simp only [stack_weight]
      have hpos := entry_weight_pos st.cache [] a
      have hmono := stack_weight_mono st.cache (cleanup_step st).cache rest [a] [] (by
        intro y hy
        simp only [Bool.or_eq_true, decide_eq_true_eq, List.mem_singleton] at hy
        simp only [Bool.or_eq_true, decide_eq_true_eq, List.not_mem_nil, or_false]
        rw [obj_map.contains_iff]
        rcases hy with hy | hy
        · exact h3 y ((obj_map.contains_iff _ _).1 hy)
        · subst hy; exact h2)
      omega
    | false =>
      obtain ⟨f, args, ha, hstep⟩ := cleanup_step_not_ready st a rest ht hr
      subst ha
      have hc : is_uninterp_const (.app f args) = false := by
        simp only [ready, Bool.or_eq_false_iff] at hr; exact hr.1
      have hall : args.all (fun a => st.cache.contains a) = false := by
        simp only [ready, Bool.or_eq_false_iff] at hr; exact hr.2
      unfold cleanup_measure
      rw [hstep, ht]
      simp only [stack_weight_append, stack_weight, List.reverse_reverse, List.append_nil]
      have hold : entry_weight st.cache [] (.app f args) = 2 * (expr.app f args).size := by
        rw [entry_weight_app]
        rw [if_neg]
        simp only [List.not_mem_nil, decide_False, Bool.or_false, hc, hall, Bool.or_self,
          Bool.false_eq_true, not_false_eq_true]
      have hnew : entry_weight st.cache (args.filter (fun a => !st.cache.contains a))
          (.app f args) = 1 := by
        rw [entry_weight_app]
        rw [if_pos]
        rw [Bool.or_eq_true]
        right
        rw [List.all_eq_true]
        intro y hy
        cases hcy : st.cache.contains y with
        | true => simp
        | false => simp [List.mem_filter, hy, hcy]
      have hpush := stack_weight_le st.cache
        (args.filter (fun a => !st.cache.contains a)).reverse []
      rw [sizeList_reverse] at hpush
      have hfil := sizeList_filter_le (fun a => !st.cache.contains a) args
      have hmono := stack_weight_mono st.cache st.cache rest [.app f args]
        (.app f args :: args.filter (fun a => !st.cache.contains a)) (by
        intro y hy
        simp only [Bool.or_eq_true, decide_eq_true_eq, List.mem_singleton] at hy
        simp only [Bool.or_eq_true, decide_eq_true_eq, List.mem_cons]
        rcases hy with hy | hy
        · exact Or.inl hy
        · exact Or.inr (Or.inl hy))
      have hsz : (expr.app f args).size = 1 + expr.sizeList args := by rw [expr.size]
      rw [hold, hnew]
      omega

/-- The loop run with at least as much fuel as the measure of its start state ends with an
empty stack. -/
theorem cleanup_loop_of_measure (fuel : Nat) :
    ∀ st : cleanup_state P, cleanup_measure st ≤ fuel → (cleanup_loop fuel st).todo = [] := by
  induction fuel with
  | zero =>
    intro st h
    cases ht : st.todo with
    | nil => simp [cleanup_loop, ht]
    | cons a rest =>
      have := cleanup_measure_decreases st (by rw [ht]; exact List.cons_ne_nil _ _)
      omega
  | succ n ih =>
    intro st h
    cases ht : st.todo with
    | nil => simp [cleanup_loop, ht]
    | cons a rest =>
      have := cleanup_measure_decreases st (by rw [ht]; exact List.cons_ne_nil _ _)
      simp only [cleanup_loop, ht]
      exact ih _ (by omega)

end proto_model

/-! ## The naive rewrite -/

/-- Induction over expressions: a property that holds of every leaf, and of an application
when it holds of its arguments, holds of every expression. -/
theorem expr_induction {motive : expr → Prop}
    (happ : ∀ f args, (∀ x ∈ args, motive x) → motive (.app f args))
    (hvar : ∀ i s, motive (.var i s)) (hq : ∀ i b, motive b → motive (.quantifier i b)) :
    ∀ e, motive e := by
  have key : ∀ n (e : expr), e.size ≤ n → motive e := by
    intro n
    induction n with
    | zero => intro e h; have := size_pos e; omega
    | succ n ih =>
      intro e h
      cases e with
      | app f args =>
        apply happ
        intro x hx
        exact ih x (by have := size_lt_of_mem_args f args x hx; omega)
      | var i s => exact hvar i s
      | quantifier i b =>
        exact hq i b (ih b (by simp only [expr.size] at h; omega))
  exact fun e => key e.size e (Nat.le_refl _)

theorem mem_consts_list (d : func_decl) (l : List expr) :
    d ∈ expr.outer_consts_list l ↔ ∃ x ∈ l, d ∈ x.outer_consts := by
  induction l with
  | nil => simp [expr.outer_consts_list]
  | cons a l ih => simp [expr.outer_consts_list, ih]

theorem consts_app (f : func_decl) (args : List expr)
    (h : is_uninterp_const (.app f args) = false) :
    (expr.app f args).outer_consts = expr.outer_consts_list args := by
  rw [expr.outer_consts]; simp [h]

theorem consts_const (f : func_decl) (args : List expr)
    (h : is_uninterp_const (.app f args) = true) : (expr.app f args).outer_consts = [f] := by
  rw [expr.outer_consts]; simp [h]

theorem consts_of_outer_node (root x : expr) (h : outer_node root x) :
    ∀ d ∈ x.outer_consts, d ∈ root.outer_consts := by
  induction h with
  | root => exact fun d hd => hd
  | arg f args x _ hx ih =>
    intro d hd
    apply ih
    rw [consts_app f args (is_uninterp_const_of_mem_args f args x hx)]
    exact (mem_consts_list d args).2 ⟨x, hx, hd⟩

theorem outer_node_trans {a b c : expr} (h1 : outer_node a b) (h2 : outer_node b c) :
    outer_node a c := by
  induction h2 with
  | root => exact h1
  | arg f args x _ hx ih => exact outer_node.arg f args x ih hx

theorem subterm_trans {a b c : expr} (h1 : subterm a b) (h2 : subterm b c) : subterm a c := by
  induction h2 with
  | root => exact h1
  | arg f args x _ hx ih => exact subterm.arg f args x ih hx
  | body i b _ ih => exact subterm.body i b ih

/-- A node that the traversal can reach is a sub-term. -/
theorem subterm_of_outer_node {root x : expr} (h : outer_node root x) : subterm root x := by
  induction h with
  | root => exact subterm.root
  | arg f args x _ hx ih => exact subterm.arg f args x ih hx

theorem mem_decls_list (d : func_decl) (l : List expr) :
    d ∈ expr.decls_list l ↔ ∃ x ∈ l, d ∈ x.decls := by
  induction l with
  | nil => simp [expr.decls_list]
  | cons a l ih => simp [expr.decls_list, ih]

/-- The declarations of `e.decls` are those that head an application that is a sub-term of
`e`. -/
theorem mem_decls_iff (d : func_decl) :
    ∀ e : expr, d ∈ e.decls ↔ ∃ args, subterm e (.app d args) := by
  have fwd : ∀ e : expr, d ∈ e.decls → ∃ args, subterm e (.app d args) := by
    apply expr_induction
    · intro f args ih h
      rw [expr.decls, List.mem_cons, mem_decls_list] at h
      rcases h with h | ⟨x, hx, h⟩
      · subst h; exact ⟨args, subterm.root⟩
      · obtain ⟨args2, h2⟩ := ih x hx h
        exact ⟨args2, subterm_trans (subterm.arg f args x subterm.root hx) h2⟩
    · intro i s h; rw [expr.decls] at h; cases h
    · intro i b ih h
      rw [expr.decls] at h
      obtain ⟨args2, h2⟩ := ih h
      exact ⟨args2, subterm_trans (subterm.body i b subterm.root) h2⟩
  have bwd : ∀ root x : expr, subterm root x → ∀ d, d ∈ x.decls → d ∈ root.decls := by
    intro root x h
    induction h with
    | root => exact fun d hd => hd
    | arg f args x _ hx ih =>
      intro d hd
      apply ih
      rw [expr.decls, List.mem_cons, mem_decls_list]
      exact Or.inr ⟨x, hx, hd⟩
    | body i b _ ih =>
      intro d hd
      apply ih
      rw [expr.decls]; exact hd
  intro e
  refine ⟨fwd e, ?_⟩
  rintro ⟨args, h⟩
  apply bwd e _ h
  rw [expr.decls]; exact List.mem_cons_self _ _

/-- The declarations of `e.outer_app_decls` are those that head an application, other than
an uninterpreted constant, that the traversal can reach. -/
theorem mem_outer_app_decls_iff (d : func_decl) :
    ∀ e : expr, d ∈ e.outer_app_decls ↔
      ∃ args, outer_node e (.app d args) ∧ is_uninterp_const (.app d args) = false := by
  have fwd : ∀ e : expr, d ∈ e.outer_app_decls →
      ∃ args, outer_node e (.app d args) ∧ is_uninterp_const (.app d args) = false := by
    apply expr_induction
    · intro f args ih h
      cases hc : is_uninterp_const (.app f args) with
      | true => rw [outer_app_decls_const f args hc] at h; cases h
      | false =>
        rw [outer_app_decls_app f args hc, List.mem_cons, mem_outer_app_decls_list] at h
        rcases h with h | ⟨x, hx, h⟩
        · subst h; exact ⟨args, outer_node.root, hc⟩
        · obtain ⟨args2, h2, h3⟩ := ih x hx h
          exact ⟨args2, outer_node_trans (outer_node.arg f args x outer_node.root hx) h2, h3⟩
    · intro i s h; rw [expr.outer_app_decls] at h; cases h
    · intro i b _ h; rw [expr.outer_app_decls] at h; cases h
  intro e
  refine ⟨fwd e, ?_⟩
  rintro ⟨args, h, hc⟩
  apply outer_app_decls_of_outer_node e _ h
  rw [outer_app_decls_app d args hc]; exact List.mem_cons_self _ _

/-- The declarations of `e.outer_consts` are those of the uninterpreted constants that the
traversal can reach. -/
theorem mem_outer_consts_iff (c : func_decl) :
    ∀ e : expr, c ∈ e.outer_consts ↔
      ∃ args, outer_node e (.app c args) ∧ is_uninterp_const (.app c args) = true := by
  have fwd : ∀ e : expr, c ∈ e.outer_consts →
      ∃ args, outer_node e (.app c args) ∧ is_uninterp_const (.app c args) = true := by
    apply expr_induction
    · intro f args ih h
      cases hc : is_uninterp_const (.app f args) with
      | true =>
        rw [consts_const f args hc] at h
        rw [List.mem_singleton.1 h]
        exact ⟨args, outer_node.root, hc⟩
      | false =>
        rw [consts_app f args hc, mem_consts_list] at h
        obtain ⟨x, hx, h⟩ := h
        obtain ⟨args2, h2, h3⟩ := ih x hx h
        exact ⟨args2, outer_node_trans (outer_node.arg f args x outer_node.root hx) h2, h3⟩
    · intro i s h; rw [expr.outer_consts] at h; cases h
    · intro i b _ h; rw [expr.outer_consts] at h; cases h
  intro e
  refine ⟨fwd e, ?_⟩
  rintro ⟨args, h, hc⟩
  apply consts_of_outer_node e _ h
  rw [consts_const c args hc]; exact List.mem_singleton.2 rfl

/-- A declaration that heads a node rebuilt by the traversal heads an application in the
expression. -/
theorem decls_of_outer_app_decls (d : func_decl) (e : expr) (h : d ∈ e.outer_app_decls) :
    d ∈ e.decls := by
  obtain ⟨args, h1, _⟩ := (mem_outer_app_decls_iff d e).1 h
  exact (mem_decls_iff d e).2 ⟨args, subterm_of_outer_node h1⟩

namespace proto_model
variable {P : Type}

theorem naive_rewrite_list_eq_map (pm : proto_model P) (l : List expr) :
    naive_rewrite_list pm l = l.map (naive_rewrite pm) := by
  induction l with
  | nil => rfl
  | cons a l ih => simp [naive_rewrite_list, ih]

theorem naive_rewrite_const (pm : proto_model P) (f : func_decl) (args : List expr) (v : expr)
    (h : is_uninterp_const (.app f args) = true) (hi : pm.get_const_interp f = some v) :
    naive_rewrite pm (.app f args) = v := by
  have hi0 : model_core.get_const_interp pm.tomodel_core f = some v := hi
  rw [naive_rewrite]; simp [h, hi0]

theorem naive_rewrite_app (pm : proto_model P) (f : func_decl) (args : List expr)
    (h : is_uninterp_const (.app f args) = false) :
    naive_rewrite pm (.app f args) = pm.m_rewrite.mk_app f (args.map (naive_rewrite pm)) := by
  rw [naive_rewrite, naive_rewrite_list_eq_map]; simp [h]

/-- The naive rewrite reads the rewriter and the interpretations of the uninterpreted
constants of the expression, and nothing else of the builder. -/
theorem naive_rewrite_congr (pm1 pm2 : proto_model P) (hrw : pm2.m_rewrite = pm1.m_rewrite) :
    ∀ e : expr, (∀ c ∈ e.outer_consts, pm2.get_const_interp c = pm1.get_const_interp c) →
      naive_rewrite pm2 e = naive_rewrite pm1 e := by
  apply expr_induction
  · intro f args ih h
    cases hc : is_uninterp_const (.app f args) with
    | true =>
      have hf := h f (by rw [consts_const f args hc]; exact List.mem_singleton.2 rfl)
      have hf0 : model_core.get_const_interp pm2.tomodel_core f =
          model_core.get_const_interp pm1.tomodel_core f := hf
      rw [naive_rewrite, naive_rewrite]
      simp only [hc, if_true, hf0]
    | false =>
      rw [naive_rewrite_app pm2 f args hc, naive_rewrite_app pm1 f args hc, hrw]
      congr 1
      apply List.map_congr_left
      intro x hx
      apply ih x hx
      intro c hcx
      apply h
      rw [consts_app f args hc]
      exact (mem_consts_list c args).2 ⟨x, hx, hcx⟩
  · intro i s _; rw [naive_rewrite, naive_rewrite]
  · intro i b _ _; rw [naive_rewrite, naive_rewrite]

end proto_model

/-! ## The traversal computes the naive rewrite -/

namespace proto_model
variable {P : Type}

/-- An iteration changes the builder only when it fabricates the interpretation of an
uninterpreted constant that has none. -/
theorem cleanup_step_pm (st : cleanup_state P) :
    (cleanup_step st).pm = st.pm ∨
    ∃ f args rest, st.todo = .app f args :: rest ∧ is_uninterp_const (.app f args) = true ∧
      st.pm.get_const_interp f = none ∧
      (cleanup_step st).pm = (st.pm.get_some_value f.get_range).2.register_decl f
        (st.pm.get_some_value f.get_range).1 := by
  cases ht : st.todo with
  | nil => left; rw [cleanup_step_nil st ht]
  | cons a rest =>
    cases a with
    | var i s => left; rw [cleanup_step_var st i s rest ht]
    | quantifier i b => left; rw [cleanup_step_quantifier st i b rest ht]
    | app f args =>
      cases hc : is_uninterp_const (.app f args) with
      | true =>
        cases hi : st.pm.get_const_interp f with
        | some ai => left; rw [cleanup_step_const_some st f args rest ai ht hc hi]
        | none =>
          right
          refine ⟨f, args, rest, rfl, hc, hi, ?_⟩
          rw [cleanup_step_const_none st f args rest ht hc hi]
      | false =>
        cases hall : args.all (fun a => st.cache.contains a) with
        | false => left; rw [cleanup_step_app_push st f args rest ht hc hall]
        | true => left; rw [cleanup_step_app_ready st f args rest ht hc hall]

theorem interp_ext_refl (pm : proto_model P) : interp_ext pm pm := ⟨rfl, fun _ _ h => h⟩

theorem interp_ext_trans {pm1 pm2 pm3 : proto_model P} (h12 : interp_ext pm1 pm2)
    (h23 : interp_ext pm2 pm3) : interp_ext pm1 pm3 :=
  ⟨h23.1.trans h12.1, fun d v h => h23.2 d v (h12.2 d v h)⟩

theorem interp_ext_of_frame {pm1 pm2 : proto_model P} (h : pm_frame pm1 pm2) :
    interp_ext pm1 pm2 := ⟨h.rewriter, h.interp⟩

/-- In a builder that extends another, the naive rewrite of an expression resolved in the
smaller builder is the same, and the expression is still resolved. -/
theorem naive_rewrite_of_ext {pm1 pm2 : proto_model P} (h : interp_ext pm1 pm2) (e : expr)
    (hres : resolved pm1 e) : naive_rewrite pm2 e = naive_rewrite pm1 e ∧ resolved pm2 e := by
  refine ⟨naive_rewrite_congr pm1 pm2 h.1 e ?_, ?_⟩
  · intro c hc
    obtain ⟨v, hv⟩ := Option.isSome_iff_exists.1 (hres c hc)
    rw [hv]; exact h.2 c v hv
  · intro c hc
    obtain ⟨v, hv⟩ := Option.isSome_iff_exists.1 (hres c hc)
    exact Option.isSome_iff_exists.2 ⟨v, h.2 c v hv⟩

theorem rewrite_inv_step (st : cleanup_state P) (h : rewrite_inv st) :
    rewrite_inv (cleanup_step st) := by
  cases ht : st.todo with
  | nil => rw [cleanup_step_nil st ht]; exact h
  | cons a rest =>
    have ins : ∀ (st1 : cleanup_state P) (v : expr), st1.pm = st.pm →
        st1.cache = st.cache.insert a v → v = naive_rewrite st.pm a → resolved st.pm a →
        rewrite_inv st1 := by
      intro st1 v hpm hcache hv hres n w hn
      rw [hcache] at hn
      rw [hpm]
      rcases find_insert_cases _ _ _ _ _ hn with ⟨h1, h2⟩ | h1
      · subst h1; subst h2; exact ⟨hv, hres⟩
      · exact h n w h1
    cases a with
    | var i s =>
      rw [cleanup_step_var st i s rest ht]
      exact ins _ _ rfl rfl (by rw [naive_rewrite])
        (by intro c hc; rw [expr.outer_consts] at hc; cases hc)
    | quantifier i b =>
      rw [cleanup_step_quantifier st i b rest ht]
      exact ins _ _ rfl rfl (by rw [naive_rewrite])
        (by intro c hc; rw [expr.outer_consts] at hc; cases hc)
    | app f args =>
      cases hc : is_uninterp_const (.app f args) with
      | true =>
        cases hi : st.pm.get_const_interp f with
        | some ai =>
          rw [cleanup_step_const_some st f args rest ai ht hc hi]
          refine ins _ _ rfl rfl (naive_rewrite_const st.pm f args ai hc hi).symm ?_
          intro c hcm
          rw [consts_const f args hc] at hcm
          rw [List.mem_singleton.1 hcm]
          exact Option.isSome_iff_exists.2 ⟨ai, hi⟩
        | none =>
          rw [cleanup_step_const_none st f args rest ht hc hi]
          have hrw : ((st.pm.get_some_value f.get_range).2.register_decl f
              (st.pm.get_some_value f.get_range).1).m_rewrite = st.pm.m_rewrite :=
            (get_some_value_frame st.pm f.get_range).rewriter
          have hmap : ((st.pm.get_some_value f.get_range).2.register_decl f
              (st.pm.get_some_value f.get_range).1).m_interp =
              st.pm.m_interp.insert f (st.pm.get_some_value f.get_range).1 := by
            show (model_core.register_decl (st.pm.get_some_value f.get_range).2.tomodel_core f
              (st.pm.get_some_value f.get_range).1).m_interp = _
            rw [model_core.register_decl_m_interp, get_some_value_m_interp]
          have hself : ((st.pm.get_some_value f.get_range).2.register_decl f
              (st.pm.get_some_value f.get_range).1).get_const_interp f =
              some (st.pm.get_some_value f.get_range).1 := by
            show obj_map.find ((st.pm.get_some_value f.get_range).2.register_decl f
              (st.pm.get_some_value f.get_range).1).m_interp f = _
            rw [hmap, obj_map.find_insert_self]
          have hne : ∀ d, d ≠ f → ((st.pm.get_some_value f.get_range).2.register_decl f
              (st.pm.get_some_value f.get_range).1).get_const_interp d =
              st.pm.get_const_interp d := by
            intro d hd
            show obj_map.find ((st.pm.get_some_value f.get_range).2.register_decl f
              (st.pm.get_some_value f.get_range).1).m_interp d = obj_map.find st.pm.m_interp d
            rw [hmap, obj_map.find_insert_ne _ _ _ _ hd]
          intro n w hn
          dsimp only at hn ⊢
          rcases find_insert_cases _ _ _ _ _ hn with ⟨h1, h2⟩ | h1
          · subst h1; subst h2
            refine ⟨(naive_rewrite_const _ f args _ hc hself).symm, ?_⟩
            intro c hcm
            rw [consts_const f args hc] at hcm
            rw [List.mem_singleton.1 hcm]
            exact Option.isSome_iff_exists.2 ⟨_, hself⟩
          · obtain ⟨hv, hres⟩ := h n w h1
            have heq : ∀ c ∈ n.outer_consts,
                ((st.pm.get_some_value f.get_range).2.register_decl f
                  (st.pm.get_some_value f.get_range).1).get_const_interp c =
                st.pm.get_const_interp c := by
              intro c hcm
              apply hne
              intro hcf
              subst hcf
              obtain ⟨v, hv2⟩ := Option.isSome_iff_exists.1 (hres c hcm)
              rw [hi] at hv2; cases hv2
            refine ⟨?_, ?_⟩
            · rw [naive_rewrite_congr st.pm _ hrw n heq]; exact hv
            · intro c hcm
              rw [heq c hcm]; exact hres c hcm
      | false =>
        cases hall : args.all (fun a => st.cache.contains a) with
        | false =>
          rw [cleanup_step_app_push st f args rest ht hc hall]
          exact h
        | true =>
          rw [cleanup_step_app_ready st f args rest ht hc hall]
          have cached : ∀ x ∈ args, ∃ v, st.cache.find x = some v := by
            intro x hx
            have := List.all_eq_true.1 hall x hx
            exact (obj_map.mem_keys_iff _ _).1 ((obj_map.contains_iff _ _).1 this)
          refine ins _ _ rfl rfl ?_ ?_
          · rw [naive_rewrite_app st.pm f args hc]
            congr 1
            apply filterMap_find_eq_map
            intro x hx
            obtain ⟨v, hv⟩ := cached x hx
            rw [hv, (h x v hv).1]
          · intro c hcm
            rw [consts_app f args hc] at hcm
            obtain ⟨x, hx, hcx⟩ := (mem_consts_list c args).1 hcm
            obtain ⟨v, hv⟩ := cached x hx
            exact (h x v hv).2 c hcx

theorem rewrite_inv_iterate (k : Nat) (st : cleanup_state P) (h : rewrite_inv st) :
    rewrite_inv (Nat.iterate cleanup_step k st) := by
  induction k with
  | zero => exact h
  | succ k ih => rw [Function.iterate_succ_apply']; exact rewrite_inv_step _ ih

/-- When every uninterpreted constant of the root has an interpretation, no iteration
changes the builder. -/
theorem cleanup_pm_eq_iterate (pm0 : proto_model P) (root : expr) (found0 : func_decl_set)
    (hres : resolved pm0 root) (k : Nat) (st : cleanup_state P)
    (h : cleanup_inv pm0 root found0 st) (hpm : st.pm = pm0) :
    (Nat.iterate cleanup_step k st).pm = pm0 := by
  induction k with
  | zero => exact hpm
  | succ k ih =>
    rw [Function.iterate_succ_apply']
    have hinv := cleanup_inv_iterate pm0 root found0 k st h
    rcases cleanup_step_pm (Nat.iterate cleanup_step k st) with h1 | ⟨f, args, rest, ht, hc, hi, _⟩
    · rw [h1]; exact ih
    · exfalso
      have hsub : outer_node root (.app f args) :=
        hinv.todo_sub _ (by rw [ht]; exact List.mem_cons_self _ _)
      have hmem : f ∈ root.outer_consts := consts_of_outer_node root _ hsub f
        (by rw [consts_const f args hc]; exact List.mem_singleton.2 rfl)
      obtain ⟨v, hv⟩ := Option.isSome_iff_exists.1 (hres f hmem)
      rw [ih] at hi
      rw [hi] at hv; cases hv

/-- The result of `cleanup_func_interp` on a table with the default `e`, read off the state
in which the loop ends. -/
theorem cleanup_func_interp_eq (pm : proto_model P) (f : func_decl) (fi : func_interp)
    (found : func_decl_set) (e : expr) (he : fi.get_else = some e) :
    ∃ k a, (Nat.iterate cleanup_step k
        { pm := pm, cache := obj_map.empty, todo := [e], found_aux_fs := found }).cache.find e
          = some a ∧
      cleanup_func_interp pm f fi found =
        some ({ (Nat.iterate cleanup_step k
                  { pm := pm, cache := obj_map.empty, todo := [e],
                    found_aux_fs := found }).pm with
                m_finterp := (Nat.iterate cleanup_step k
                  { pm := pm, cache := obj_map.empty, todo := [e],
                    found_aux_fs := found }).pm.m_finterp.insert f (fi.set_else a) },
              (Nat.iterate cleanup_step k
                { pm := pm, cache := obj_map.empty, todo := [e],
                  found_aux_fs := found }).found_aux_fs) := by
  obtain ⟨k, _, hloop, htodo, hkey⟩ := cleanup_loop_terminates pm e found
  obtain ⟨a, ha⟩ := (obj_map.mem_keys_iff _ _).1 hkey
  refine ⟨k, a, ha, ?_⟩
  unfold cleanup_func_interp
  rw [he]
  simp only [hloop, htodo, ha]

end proto_model

namespace proto_model
variable {P : Type}

theorem naive_rewrite_set_finterp (pm : proto_model P) (m : obj_map func_decl func_interp)
    (e : expr) :
    naive_rewrite ({ pm with m_finterp := m } : proto_model P) e = naive_rewrite pm e :=
  naive_rewrite_congr pm ({ pm with m_finterp := m } : proto_model P) rfl e (fun _ _ => rfl)

/-- The result of `cleanup_func_interp` on the table `fi` stored under `f`: the constant
interpretations and the rewriter are kept, the other tables are kept, and a default `e` is
replaced by its naive rewrite in the resulting builder, in which `e` is resolved. -/
theorem cleanup_func_interp_rewrites (pm : proto_model P) (f : func_decl) (fi : func_interp)
    (found : func_decl_set) :
    ∃ pm1 found1, cleanup_func_interp pm f fi found = some (pm1, found1) ∧
      interp_ext pm pm1 ∧
      (∀ d fi2, d ≠ f → pm.m_finterp.find d = some fi2 → pm1.m_finterp.find d = some fi2) ∧
      (fi.get_else = none → pm1 = pm) ∧
      (∀ e, fi.get_else = some e →
        pm1.m_finterp.find f = some (fi.set_else (naive_rewrite pm1 e)) ∧ resolved pm1 e) := by
  cases he : fi.get_else with
  | none =>
    refine ⟨pm, found, (cleanup_func_interp_some pm f fi found).1 he, interp_ext_refl pm,
      fun d fi2 _ h => h, fun _ => rfl, ?_⟩
    intro e h; cases h
  | some e =>
    obtain ⟨k, a, ha, heq⟩ := cleanup_func_interp_eq pm f fi found e he
    have hinv := cleanup_inv_iterate pm e found k _ (cleanup_inv_init pm e found)
    have hrw := rewrite_inv_iterate k
      ({ pm := pm, cache := obj_map.empty, todo := [e], found_aux_fs := found } :
        cleanup_state P) (fun n v hn => by cases hn)
    obtain ⟨hval, hres⟩ := hrw e a ha
    refine ⟨_, _, heq, ⟨hinv.frame.rewriter, hinv.frame.interp⟩, ?_, ?_, ?_⟩
    · intro d fi2 hne hd
      show obj_map.find (obj_map.insert _ f (fi.set_else a)) d = some fi2
      rw [obj_map.find_insert_ne _ _ _ _ hne]
      exact hinv.frame.finterp d fi2 hd
    · intro h; cases h
    · intro e2 h2
      cases h2
      refine ⟨?_, fun c hc => hres c hc⟩
      show obj_map.find (obj_map.insert _ f (fi.set_else a)) f = _
      rw [obj_map.find_insert_self, naive_rewrite_set_finterp, ← hval]

/-- The loop over the tables: the constant interpretations and the rewriter are kept, the
tables out of the loop's range are kept, a partial table in the range is kept, and any other
table in the range has its default replaced by the naive rewrite of that default in the
resulting builder, in which the default is resolved. -/
theorem cleanup_tables_rewrites (ks : List func_decl) :
    ∀ (pm : proto_model P) (found : func_decl_set), ks.Nodup →
      (∀ k ∈ ks, ∃ fi, pm.m_finterp.find k = some fi) →
      ∃ pm1 found1, cleanup_tables ks pm found = some (pm1, found1) ∧
        interp_ext pm pm1 ∧
        (∀ d fi, d ∉ ks → pm.m_finterp.find d = some fi → pm1.m_finterp.find d = some fi) ∧
        (∀ k ∈ ks, ∀ fi, pm.m_finterp.find k = some fi →
          (fi.get_else = none → pm1.m_finterp.find k = some fi) ∧
          (∀ e, fi.get_else = some e →
            pm1.m_finterp.find k = some (fi.set_else (naive_rewrite pm1 e)) ∧
            resolved pm1 e)) := by
  induction ks with
  | nil =>
    intro pm found _ _
    exact ⟨pm, found, rfl, interp_ext_refl pm, fun d fi _ h => h, fun k hk => by cases hk⟩
  | cons k ks ih =>
    intro pm found hnd hks
    obtain ⟨fi, hfi⟩ := hks k (List.mem_cons_self _ _)
    have hfi0 : model_core.get_func_interp pm.tomodel_core k = some fi := hfi
    have hk : k ∉ ks := (List.nodup_cons.1 hnd).1
    have hne2 : ∀ k2 ∈ ks, k2 ≠ k := fun k2 hk2 h => hk (h ▸ hk2)
    obtain ⟨pm1, found1, h1, hext1, hkeep1, hnone1, hsome1⟩ :=
      cleanup_func_interp_rewrites pm k fi found
    obtain ⟨pm2, found2, h2, hext2, hout2, hin2⟩ := ih pm1 found1 (List.nodup_cons.1 hnd).2
      (fun k2 hk2 => by
        obtain ⟨fi2, hfi2⟩ := hks k2 (List.mem_cons_of_mem _ hk2)
        exact ⟨fi2, hkeep1 k2 fi2 (hne2 k2 hk2) hfi2⟩)
    refine ⟨pm2, found2, ?_, interp_ext_trans hext1 hext2, ?_, ?_⟩
    · simp only [cleanup_tables, hfi0, h1, h2]
    · intro d fi2 hd hfind
      have hdk : d ≠ k := fun h => hd (by rw [h]; exact List.mem_cons_self _ _)
      exact hout2 d fi2 (fun h => hd (List.mem_cons_of_mem _ h)) (hkeep1 d fi2 hdk hfind)
    · intro k2 hk2 fi2 hfi2
      rcases List.mem_cons.1 hk2 with hk2 | hk2
      · subst hk2
        rw [hfi] at hfi2; cases hfi2
        refine ⟨?_, ?_⟩
        · intro hn
          apply hout2 k2 fi hk
          rw [hnone1 hn]; exact hfi
        · intro e he
          obtain ⟨hf1, hr1⟩ := hsome1 e he
          obtain ⟨hr2, hres2⟩ := naive_rewrite_of_ext hext2 e hr1
          rw [hr2]
          exact ⟨hout2 k2 _ hk hf1, hres2⟩
      · exact hin2 k2 hk2 fi2 (hkeep1 k2 fi2 (hne2 k2 hk2) hfi2)

end proto_model

namespace proto_model
variable {P : Type}

theorem get_else_some_find (pm : proto_model P) (d : func_decl) (e : expr)
    (h : pm.get_else d = some e) :
    ∃ fi, pm.m_finterp.find d = some fi ∧ fi.get_else = some e := by
  cases hf : pm.m_finterp.find d with
  | none =>
    have : pm.get_else d = none := by
      unfold get_else
      rw [show pm.get_func_interp d = none from hf]
    rw [this] at h; cases h
  | some fi =>
    refine ⟨fi, rfl, ?_⟩
    unfold get_else at h
    rw [show pm.get_func_interp d = some fi from hf] at h
    exact h

theorem get_else_of_find (pm : proto_model P) (d : func_decl) (fi : func_interp)
    (h : pm.m_finterp.find d = some fi) : pm.get_else d = fi.get_else := by
  unfold get_else
  rw [show pm.get_func_interp d = some fi from h]

/-- What `cleanup()` does when it returns. It keeps the rewriter and the constant
interpretations. The auxiliary declarations it keeps are those that head an application
node that the traversal rebuilds (outside any quantifier, not an uninterpreted constant) in
the default of some table, as the defaults are before the pass. The table of an auxiliary
declaration that it drops is erased; another table is kept when it is partial, and otherwise
has its default replaced by the naive rewrite of that default in the resulting builder, in
which every uninterpreted constant of the old default outside any quantifier has an
interpretation. -/
theorem cleanup_spec (pm pm2 : proto_model P) (h : pm.cleanup = some pm2) :
    interp_ext pm pm2 ∧
      (∀ g, g ∈ pm2.m_aux_decls.elems ↔
        g ∈ pm.m_aux_decls.elems ∧ ∃ k e, pm.get_else k = some e ∧ g ∈ e.outer_app_decls) ∧
      (∀ d fi, pm.m_finterp.find d = some fi →
        (d ∈ pm.m_aux_decls.elems → d ∉ pm2.m_aux_decls.elems →
          pm2.m_finterp.find d = none) ∧
        ((d ∈ pm.m_aux_decls.elems → d ∈ pm2.m_aux_decls.elems) →
          (fi.get_else = none → pm2.m_finterp.find d = some fi) ∧
          (∀ e, fi.get_else = some e →
            pm2.m_finterp.find d = some (fi.set_else (naive_rewrite pm2 e))))) ∧
      (∀ d fi e, pm.m_finterp.find d = some fi → fi.get_else = some e → resolved pm2 e) := by
  obtain ⟨pmT, found, hT, haux, href, hi, hr, _, hauxiff, hfind, _, _⟩ :=
    cleanup_cases pm pm2 h
  obtain ⟨pmT2, found2, hT2, hext, _, hin⟩ :=
    cleanup_tables_rewrites pm.m_finterp.keys pm obj_hashtable.empty pm.m_finterp.nodup
      (fun k hk => (obj_map.mem_keys_iff _ _).1 hk)
  rw [hT] at hT2
  cases hT2
  have htab : ∀ d fi, pm.m_finterp.find d = some fi →
      (fi.get_else = none → pmT.m_finterp.find d = some fi) ∧
      (∀ e, fi.get_else = some e →
        pmT.m_finterp.find d = some (fi.set_else (naive_rewrite pmT e)) ∧ resolved pmT e) :=
    fun d fi hd => hin d ((obj_map.mem_keys_iff _ _).2 ⟨fi, hd⟩) fi hd
  have hci : ∀ c, pm2.get_const_interp c = pmT.get_const_interp c := by
    intro c
    show obj_map.find pm2.m_interp c = obj_map.find pmT.m_interp c
    rw [hi]
  have hR : ∀ e, naive_rewrite pm2 e = naive_rewrite pmT e :=
    fun e => naive_rewrite_congr pmT pm2 hr e (fun c _ => hci c)
  refine ⟨⟨hr.trans hext.1, fun d v hd => by rw [hci]; exact hext.2 d v hd⟩,
    fun g => (hauxiff g).trans (href g), ?_, ?_⟩
  · intro d fi hd
    refine ⟨?_, ?_⟩
    · intro h1 h2
      rw [hfind, if_pos]
      refine ⟨by rw [haux]; exact h1, ?_⟩
      exact (obj_hashtable.set_contains_eq_false_iff _ _).2 (fun hf => h2 ((hauxiff d).2 hf))
    · intro hkeep
      have hfd : pm2.m_finterp.find d = pmT.m_finterp.find d := by
        rw [hfind, if_neg]
        rintro ⟨h1, h2⟩
        rw [haux] at h1
        exact (obj_hashtable.set_contains_eq_false_iff _ _).1 h2 ((hauxiff d).1 (hkeep h1))
      refine ⟨?_, ?_⟩
      · intro hn
        rw [hfd]; exact (htab d fi hd).1 hn
      · intro e he
        rw [hfd, hR]; exact ((htab d fi hd).2 e he).1
  · intro d fi e hd he c hc
    rw [hci]
    exact ((htab d fi hd).2 e he).2 c hc

end proto_model

namespace proto_model
variable {P : Type}

/-- The tables and the auxiliary set after a reregistration with an alias of a declaration
that has a table. -/
theorem reregister_decl_tables (pm : proto_model P) (f g : func_decl) (T1 T2 : func_interp)
    (h : pm.get_func_interp f = some T1) :
    (pm.reregister_decl f T2 (some g)).m_finterp.find f = some T2 ∧
    g ∈ (pm.reregister_decl f T2 (some g)).m_aux_decls.elems ∧
    (g ≠ f → (pm.reregister_decl f T2 (some g)).m_finterp.find g = some T1) := by
  have hf : model_core.get_func_interp pm.tomodel_core f = some T1 := h
  simp only [reregister_decl, hf]
  refine ⟨?_, ?_, ?_⟩
  · exact obj_map.find_insert_self _ _ _
  · exact (obj_hashtable.set_mem_insert _ _ _).2 (Or.inl rfl)
  · intro hne
    show obj_map.find (obj_map.insert _ f T2) g = some T1
    rw [obj_map.find_insert_ne _ _ _ _ hne]
    show obj_map.find (pm.register_decl_fi g T1).m_finterp g = some T1
    rw [pm_register_decl_fi_m_finterp]
    exact obj_map.find_insert_self _ _ _

end proto_model

/-! ## The kinds of the registered declarations -/

theorem disjoint_of_well_kinded (m : model_core) (h : m.well_kinded) : m.disjoint_maps := by
  rintro d ⟨h1, h2⟩
  have a := h.1 d ((obj_map.contains_iff _ _).1 h1)
  have b := h.2 d ((obj_map.contains_iff _ _).1 h2)
  omega

namespace proto_model
variable {P : Type}

theorem well_kinded_register_decl (pm : proto_model P) (d : func_decl) (v : expr)
    (h : pm.well_kinded) (hd : d.get_arity = 0) : (pm.register_decl d v).well_kinded := by
  have h1 : (pm.register_decl d v).m_interp = pm.m_interp.insert d v :=
    model_core.register_decl_m_interp pm.tomodel_core d v
  have h2 : (pm.register_decl d v).m_finterp = pm.m_finterp :=
    model_core.register_decl_m_finterp pm.tomodel_core d v
  refine ⟨?_, ?_⟩
  · intro x hx
    have hx1 : x ∈ (pm.register_decl d v).m_interp.keys := hx
    rw [h1, obj_map.mem_keys_insert] at hx1
    rcases hx1 with hx1 | hx1
    · rw [hx1]; exact hd
    · exact h.1 x hx1
  · intro x hx
    have hx1 : x ∈ (pm.register_decl d v).m_finterp.keys := hx
    rw [h2] at hx1
    exact h.2 x hx1

theorem well_kinded_register_decl_fi (pm : proto_model P) (d : func_decl) (fi : func_interp)
    (h : pm.well_kinded) (hd : 0 < d.get_arity) : (pm.register_decl_fi d fi).well_kinded := by
  have h1 : (pm.register_decl_fi d fi).m_interp = pm.m_interp :=
    model_core.register_decl_fi_m_interp pm.tomodel_core d fi
  have h2 : (pm.register_decl_fi d fi).m_finterp = pm.m_finterp.insert d fi :=
    model_core.register_decl_fi_m_finterp pm.tomodel_core d fi
  refine ⟨?_, ?_⟩
  · intro x hx
    have hx1 : x ∈ (pm.register_decl_fi d fi).m_interp.keys := hx
    rw [h1] at hx1
    exact h.1 x hx1
  · intro x hx
    have hx1 : x ∈ (pm.register_decl_fi d fi).m_finterp.keys := hx
    rw [h2, obj_map.mem_keys_insert] at hx1
    rcases hx1 with hx1 | hx1
    · rw [hx1]; exact hd
    · exact h.2 x hx1

/-- A builder with the same constant map and a function-table map whose keys have a positive
arity is well kinded. -/
theorem well_kinded_of_maps (pm pm1 : model_core) (h : pm.well_kinded)
    (hi : pm1.m_interp = pm.m_interp)
    (hf : ∀ d ∈ pm1.m_finterp.keys, d ∈ pm.m_finterp.keys ∨ 0 < d.get_arity) :
    pm1.well_kinded := by
  refine ⟨?_, ?_⟩
  · intro x hx
    have hx1 : x ∈ pm1.m_interp.keys := hx
    rw [hi] at hx1
    exact h.1 x hx1
  · intro x hx
    rcases hf x hx with h1 | h1
    · exact h.2 x h1
    · exact h1

theorem well_kinded_register_new_decls (regs : List registration) :
    ∀ pm : proto_model P, pm.well_kinded → (∀ r ∈ regs, 0 < r.1.get_arity) →
      (pm.register_new_decls regs).well_kinded := by
  induction regs with
  | nil => intro pm h _; exact h
  | cons r regs ih =>
    intro pm h hr
    obtain ⟨d, fi⟩ := r
    unfold register_new_decls
    split_ifs
    · exact ih pm h (fun r hr2 => hr r (List.mem_cons_of_mem _ hr2))
    · exact ih _ (well_kinded_register_decl_fi pm d fi h (hr (d, fi) (List.mem_cons_self _ _)))
        (fun r hr2 => hr r (List.mem_cons_of_mem _ hr2))

theorem well_kinded_get_some_value (pm : proto_model P) (s : sort) (h : pm.well_kinded)
    (hp : pm.registers_functions) : (pm.get_some_value s).2.well_kinded := by
  unfold get_some_value
  split
  · exact h
  · split
    · rename_i f hf
      exact well_kinded_register_new_decls _ _ h (hp _ f hf s pm.m_plugins)
    · exact h
    · exact h

theorem registers_functions_of_factories (pm pm1 : proto_model P)
    (hf : pm1.m_factories = pm.m_factories) (h : pm.registers_functions) :
    pm1.registers_functions := by
  intro fid f hfid
  apply h fid f
  unfold get_factory at hfid ⊢
  rw [← hf]; exact hfid

end proto_model

namespace proto_model
variable {P : Type}

/-- Every iteration of the loop keeps the builder well kinded, when the uninterpreted
constants of the root have arity zero. -/
theorem well_kinded_iterate (pm0 : proto_model P) (root : expr) (found0 : func_decl_set)
    (hp : pm0.registers_functions) (hc : ∀ c ∈ root.outer_consts, c.get_arity = 0) (k : Nat)
    (st : cleanup_state P) (h : cleanup_inv pm0 root found0 st) (hwk : st.pm.well_kinded) :
    (Nat.iterate cleanup_step k st).pm.well_kinded := by
  induction k with
  | zero => exact hwk
  | succ k ih =>
    rw [Function.iterate_succ_apply']
    have hinv := cleanup_inv_iterate pm0 root found0 k st h
    rcases cleanup_step_pm (Nat.iterate cleanup_step k st) with
      h1 | ⟨f, args, rest, ht, hconst, _, h1⟩
    · rw [h1]; exact ih
    · rw [h1]
      have hsub : outer_node root (.app f args) :=
        hinv.todo_sub _ (by rw [ht]; exact List.mem_cons_self _ _)
      have hmem : f ∈ root.outer_consts := consts_of_outer_node root _ hsub f
        (by rw [consts_const f args hconst]; exact List.mem_singleton.2 rfl)
      apply well_kinded_register_decl _ _ _ _ (hc f hmem)
      exact well_kinded_get_some_value _ _ ih
        (registers_functions_of_factories pm0 _ hinv.frame.factories hp)

theorem well_kinded_cleanup_func_interp (pm pm1 : proto_model P) (f : func_decl)
    (fi : func_interp) (found found1 : func_decl_set)
    (h : cleanup_func_interp pm f fi found = some (pm1, found1))
    (hfi : pm.m_finterp.find f = some fi) (hwk : pm.well_kinded)
    (hp : pm.registers_functions)
    (hc : ∀ e, fi.get_else = some e → ∀ c ∈ e.outer_consts, c.get_arity = 0) :
    pm1.well_kinded ∧ pm1.m_factories = pm.m_factories := by
  cases he : fi.get_else with
  | none =>
    rw [(cleanup_func_interp_some pm f fi found).1 he] at h
    cases h
    exact ⟨hwk, rfl⟩
  | some e =>
    obtain ⟨k, a, _, heq⟩ := cleanup_func_interp_eq pm f fi found e he
    rw [heq] at h
    cases h
    have hinv := cleanup_inv_iterate pm e found k _ (cleanup_inv_init pm e found)
    have hwk1 := well_kinded_iterate pm e found hp (hc e he) k _ (cleanup_inv_init pm e found)
      hwk
    refine ⟨well_kinded_of_maps _ _ hwk1 rfl ?_, hinv.frame.factories⟩
    intro d hd
    left
    have hd1 : d ∈ (obj_map.insert (Nat.iterate cleanup_step k
      ({ pm := pm, cache := obj_map.empty, todo := [e], found_aux_fs := found } :
        cleanup_state P)).pm.m_finterp f (fi.set_else a)).keys := hd
    rw [obj_map.mem_keys_insert] at hd1
    rcases hd1 with hd1 | hd1
    · rw [hd1]
      exact (obj_map.mem_keys_iff _ _).2 ⟨fi, hinv.frame.finterp f fi hfi⟩
    · exact hd1

theorem well_kinded_cleanup_tables (ks : List func_decl) :
    ∀ (pm pm1 : proto_model P) (found found1 : func_decl_set),
      cleanup_tables ks pm found = some (pm1, found1) → ks.Nodup →
      (∀ k ∈ ks, ∃ fi, pm.m_finterp.find k = some fi) →
      pm.well_kinded → pm.registers_functions →
      (∀ k ∈ ks, ∀ c ∈ pm.default_consts k, c.get_arity = 0) →
      pm1.well_kinded := by
  induction ks with
  | nil =>
    intro pm pm1 found found1 h _ _ hwk _ _
    simp only [cleanup_tables] at h
    cases h
    exact hwk
  | cons k ks ih =>
    intro pm pm1 found found1 h hnd hks hwk hp hc
    obtain ⟨fi, hfi⟩ := hks k (List.mem_cons_self _ _)
    have hfi0 : model_core.get_func_interp pm.tomodel_core k = some fi := hfi
    have hk : k ∉ ks := (List.nodup_cons.1 hnd).1
    have hne2 : ∀ k2 ∈ ks, k2 ≠ k := fun k2 hk2 h => hk (h ▸ hk2)
    obtain ⟨pmA, foundA, hA, _, _, hkeep⟩ := cleanup_func_interp_found pm k fi found
    simp only [cleanup_tables, hfi0, hA] at h
    have hck : ∀ e, fi.get_else = some e → ∀ c ∈ e.outer_consts, c.get_arity = 0 := by
      intro e he c hcm
      apply hc k (List.mem_cons_self _ _) c
      unfold default_consts
      rw [get_else_of_find pm k fi hfi, he]
      exact hcm
    obtain ⟨hwkA, hfacA⟩ := well_kinded_cleanup_func_interp pm pmA k fi found foundA hA hfi hwk
      hp hck
    refine ih pmA pm1 foundA found1 h (List.nodup_cons.1 hnd).2 ?_ hwkA
      (registers_functions_of_factories pm pmA hfacA hp) ?_
    · intro k2 hk2
      obtain ⟨fi2, hfi2⟩ := hks k2 (List.mem_cons_of_mem _ hk2)
      exact ⟨fi2, hkeep k2 fi2 (hne2 k2 hk2) hfi2⟩
    · intro k2 hk2 c hcm
      apply hc k2 (List.mem_cons_of_mem _ hk2) c
      obtain ⟨fi2, hfi2⟩ := hks k2 (List.mem_cons_of_mem _ hk2)
      have hfiA := hkeep k2 fi2 (hne2 k2 hk2) hfi2
      unfold default_consts at hcm ⊢
      rw [get_else_of_find pmA k2 fi2 hfiA] at hcm
      rw [get_else_of_find pm k2 fi2 hfi2]
      exact hcm

/-- `cleanup()` keeps the builder well kinded. -/
theorem well_kinded_cleanup (pm pm2 : proto_model P) (h : pm.cleanup = some pm2)
    (hwk : pm.well_kinded) (hp : pm.registers_functions) (hc : pm.const_arities) :
    pm2.well_kinded := by
  obtain ⟨pmT, found, hT, _, _, hi, _, _, _, hfind, _, _⟩ := cleanup_cases pm pm2 h
  have hwkT := well_kinded_cleanup_tables pm.m_finterp.keys pm pmT _ found hT
    pm.m_finterp.nodup (fun k hk => (obj_map.mem_keys_iff _ _).1 hk) hwk hp hc
  refine well_kinded_of_maps pmT.tomodel_core _ hwkT hi ?_
  intro d hd
  left
  obtain ⟨fi, hfi⟩ := (obj_map.mem_keys_iff _ _).1 hd
  have hfi1 : pm2.m_finterp.find d = some fi := hfi
  rw [hfind] at hfi1
  split_ifs at hfi1
  exact (obj_map.mem_keys_iff _ _).2 ⟨fi, hfi1⟩

end proto_model

/-! ## Finalization copies the maps -/

theorem foldl_register_decl_find (l : List (func_decl × expr))
    (hl : (l.map Prod.fst).Nodup) (m : model) (d : func_decl) :
    (l.foldl (fun (m : model) e =>
        { m with tomodel_core := m.tomodel_core.register_decl e.1 e.2 }) m).m_interp.find d =
      (lookupK d l).orElse (fun _ => m.m_interp.find d) := by
  induction l generalizing m with
  | nil => simp [lookupK]
  | cons e l ih =>
    obtain ⟨a, b⟩ := e
    have hnd : (l.map Prod.fst).Nodup := (List.nodup_cons.1 hl).2
    have ha : a ∉ l.map Prod.fst := (List.nodup_cons.1 hl).1
    rw [List.foldl_cons, ih hnd]
    simp only [model_core.register_decl_m_interp, lookupK]
    by_cases h : a = d
    · subst h
      rw [(lookupK_eq_none_iff a l).2 ha, obj_map.find_insert_self]
      simp
    · rw [obj_map.find_insert_ne _ _ _ _ (Ne.symm h)]
      simp [h]

theorem foldl_register_decl_rest (l : List (func_decl × expr)) (m : model) :
    (l.foldl (fun (m : model) e =>
        { m with tomodel_core := m.tomodel_core.register_decl e.1 e.2 }) m).m_finterp =
      m.m_finterp := by
  induction l generalizing m with
  | nil => rfl
  | cons e l ih => rw [List.foldl_cons, ih]; exact model_core.register_decl_m_finterp _ _ _

theorem foldl_register_decl_fi_find (l : List (func_decl × func_interp))
    (hl : (l.map Prod.fst).Nodup) (m : model) (d : func_decl) :
    (l.foldl (fun (m : model) e =>
        { m with tomodel_core := m.tomodel_core.register_decl_fi e.1 e.2 }) m).m_finterp.find d =
      (lookupK d l).orElse (fun _ => m.m_finterp.find d) := by
  induction l generalizing m with
  | nil => simp [lookupK]
  | cons e l ih =>
    obtain ⟨a, b⟩ := e
    have hnd : (l.map Prod.fst).Nodup := (List.nodup_cons.1 hl).2
    have ha : a ∉ l.map Prod.fst := (List.nodup_cons.1 hl).1
    rw [List.foldl_cons, ih hnd]
    simp only [model_core.register_decl_fi_m_finterp, lookupK]
    by_cases h : a = d
    · subst h
      rw [(lookupK_eq_none_iff a l).2 ha, obj_map.find_insert_self]
      simp
    · rw [obj_map.find_insert_ne _ _ _ _ (Ne.symm h)]
      simp [h]

theorem foldl_register_decl_fi_rest (l : List (func_decl × func_interp)) (m : model) :
    (l.foldl (fun (m : model) e =>
        { m with tomodel_core := m.tomodel_core.register_decl_fi e.1 e.2 }) m).m_interp =
      m.m_interp := by
  induction l generalizing m with
  | nil => rfl
  | cons e l ih => rw [List.foldl_cons, ih]; exact model_core.register_decl_fi_m_interp _ _ _

theorem foldl_register_usort_core {P : Type} (pm : proto_model P) (l : List Nat) (m : model) :
    (l.foldl (fun (m : model) i =>
        match pm.get_uninterpreted_sort i with
        | some s => proto_model.model_register_usort m s (pm.get_universe s)
        | none => m) m).tomodel_core = m.tomodel_core := by
  induction l generalizing m with
  | nil => rfl
  | cons i l ih =>
    rw [List.foldl_cons, ih]
    cases pm.get_uninterpreted_sort i <;> rfl

namespace proto_model
variable {P : Type}

theorem well_kinded_register_aux_decl (pm : proto_model P) (d : func_decl) (fi : func_interp)
    (h : pm.well_kinded) (hd : 0 < d.get_arity) : (pm.register_aux_decl d fi).well_kinded :=
  well_kinded_register_decl_fi pm d fi h hd

theorem well_kinded_reregister_decl (pm : proto_model P) (f : func_decl) (new_fi : func_interp)
    (f_aux : Option func_decl) (h : pm.well_kinded) (hf : 0 < f.get_arity)
    (hg : ∀ g, f_aux = some g → 0 < g.get_arity) :
    (pm.reregister_decl f new_fi f_aux).well_kinded := by
  unfold reregister_decl
  cases hfi : pm.get_func_interp f with
  | none =>
    have hfi0 : model_core.get_func_interp pm.tomodel_core f = none := hfi
    simp only [hfi0]
    exact well_kinded_register_decl_fi pm f new_fi h hf
  | some fi =>
    have hfi0 : model_core.get_func_interp pm.tomodel_core f = some fi := hfi
    simp only [hfi0]
    cases f_aux with
    | none =>
      refine well_kinded_of_maps pm.tomodel_core _ h rfl ?_
      intro d hd
      have hd1 : d ∈ (obj_map.insert pm.m_finterp f new_fi).keys := hd
      rw [obj_map.mem_keys_insert] at hd1
      rcases hd1 with hd1 | hd1
      · right; rw [hd1]; exact hf
      · left; exact hd1
    | some g =>
      have hwk1 := well_kinded_register_decl_fi pm g fi h (hg g rfl)
      refine well_kinded_of_maps (pm.register_decl_fi g fi).tomodel_core _ hwk1 rfl ?_
      intro d hd
      have hd1 : d ∈ (obj_map.insert (pm.register_decl_fi g fi).m_finterp f new_fi).keys := hd
      rw [obj_map.mem_keys_insert] at hd1
      rcases hd1 with hd1 | hd1
      · right; rw [hd1]; exact hf
      · left; exact hd1

theorem well_kinded_mk_some_interp_for (pm : proto_model P) (d : func_decl)
    (h : pm.well_kinded) (hp : pm.registers_functions) :
    (pm.mk_some_interp_for d).2.well_kinded := by
  have h1 := well_kinded_get_some_value pm d.get_range h hp
  unfold mk_some_interp_for
  by_cases hd : d.get_arity = 0
  · simp only [hd, if_true]
    exact well_kinded_register_decl _ d _ h1 hd
  · simp only [hd, if_false]
    exact well_kinded_register_decl_fi _ d _ h1 (by omega)

theorem well_kinded_complete_partial_func (pm : proto_model P) (f : func_decl)
    (h : pm.well_kinded) (hp : pm.registers_functions) :
    (pm.complete_partial_func f).well_kinded ∧
    (pm.complete_partial_func f).m_factories = pm.m_factories := by
  unfold complete_partial_func
  cases hfi : pm.get_func_interp f with
  | none =>
    exact ⟨h, rfl⟩
  | some fi =>
    have hkey : f ∈ pm.m_finterp.keys := (obj_map.mem_keys_iff _ _).2 ⟨fi, hfi⟩
    dsimp only
    split_ifs
    · split
      · refine ⟨well_kinded_of_maps pm.tomodel_core _ h rfl ?_, rfl⟩
        intro d hd
        left
        have hd1 : d ∈ (obj_map.insert pm.m_finterp f _).keys := hd
        rw [obj_map.mem_keys_insert] at hd1
        rcases hd1 with hd1 | hd1
        · rw [hd1]; exact hkey
        · exact hd1
      · have hfr := get_some_value_frame pm f.get_range
        have h1 := well_kinded_get_some_value pm f.get_range h hp
        refine ⟨well_kinded_of_maps _ _ h1 rfl ?_, hfr.factories⟩
        intro d hd
        left
        have hd1 : d ∈ (obj_map.insert (pm.get_some_value f.get_range).2.m_finterp f _).keys :=
          hd
        rw [obj_map.mem_keys_insert] at hd1
        rcases hd1 with hd1 | hd1
        · rw [hd1]
          exact (obj_map.mem_keys_iff _ _).2 ⟨fi, hfr.finterp f fi hfi⟩
        · exact hd1
    · exact ⟨h, rfl⟩

theorem well_kinded_complete_partial_funcs_loop (fuel : Nat) :
    ∀ (i : Nat) (pm pm2 : proto_model P), complete_partial_funcs_loop fuel i pm = some pm2 →
      pm.well_kinded → pm.registers_functions → pm2.well_kinded := by
  induction fuel with
  | zero =>
    intro i pm pm2 h hwk _
    unfold complete_partial_funcs_loop at h
    cases hg : pm.m_func_decls.get? i with
    | none => rw [hg] at h; cases h; exact hwk
    | some f => rw [hg] at h; cases h
  | succ fuel ih =>
    intro i pm pm2 h hwk hp
    unfold complete_partial_funcs_loop at h
    cases hg : pm.m_func_decls.get? i with
    | none => rw [hg] at h; cases h; exact hwk
    | some f =>
      rw [hg] at h
      obtain ⟨h1, h2⟩ := well_kinded_complete_partial_func pm f hwk hp
      exact ih (i + 1) _ pm2 h h1 (registers_functions_of_factories pm _ h2 hp)

/-- The finalizer hands the lookups of the builder over to the result. -/
theorem mk_model_finds (pm : proto_model P) :
    (∀ d, (pm.mk_model).1.m_interp.find d = pm.m_interp.find d) ∧
    (∀ d, (pm.mk_model).1.m_finterp.find d = pm.m_finterp.find d) := by
  refine ⟨?_, ?_⟩
  · intro d
    show obj_map.find (model_core.m_interp (pm.mk_model).1.tomodel_core) d = _
    unfold proto_model.mk_model
    simp only [foldl_register_usort_core]
    rw [foldl_register_decl_fi_rest, foldl_register_decl_find _ pm.m_interp.nodup]
    show (lookupK d pm.m_interp.entries).orElse _ = lookupK d pm.m_interp.entries
    cases lookupK d pm.m_interp.entries <;> rfl
  · intro d
    show obj_map.find (model_core.m_finterp (pm.mk_model).1.tomodel_core) d = _
    unfold proto_model.mk_model
    simp only [foldl_register_usort_core]
    rw [foldl_register_decl_fi_find _ pm.m_finterp.nodup, foldl_register_decl_rest]
    show (lookupK d pm.m_finterp.entries).orElse _ = lookupK d pm.m_finterp.entries
    cases lookupK d pm.m_finterp.entries <;> rfl

end proto_model

/-! ## The defaults of the tables -/

theorem lookupK_eq_some_iff {K V : Type} [DecidableEq K] (k : K) (v : V) (l : List (K × V))
    (hl : (l.map Prod.fst).Nodup) : lookupK k l = some v ↔ (k, v) ∈ l := by
  induction l with
  | nil => simp [lookupK]
  | cons e l ih =>
    obtain ⟨a, b⟩ := e
    have hnd : (l.map Prod.fst).Nodup := (List.nodup_cons.1 hl).2
    have ha : a ∉ l.map Prod.fst := (List.nodup_cons.1 hl).1
    by_cases h : a = k
    · subst h
      simp only [lookupK, if_true, Option.some.injEq, List.mem_cons, Prod.mk.injEq, true_and]
      constructor
      · intro hb; exact Or.inl hb.symm
      · rintro (hb | hb)
        · exact hb.symm
        · exact absurd (List.mem_map.2 ⟨(a, v), hb, rfl⟩) ha
    · simp only [lookupK, h, if_false, ih hnd, List.mem_cons, Prod.mk.injEq]
      constructor
      · exact fun hm => Or.inr hm
      · rintro (⟨hk, _⟩ | hm)
        · exact absurd hk.symm h
        · exact hm

namespace proto_model
variable {P : Type}

/-- The list `defaults` holds the default of every table that is not partial. -/
theorem mem_defaults_iff (pm : proto_model P) (e : expr) :
    e ∈ pm.defaults ↔ ∃ d, pm.get_else d = some e := by
  unfold defaults
  rw [List.mem_filterMap]
  constructor
  · rintro ⟨⟨d, fi⟩, hmem, he⟩
    refine ⟨d, ?_⟩
    have hfind : pm.m_finterp.find d = some fi :=
      (lookupK_eq_some_iff d fi _ pm.m_finterp.nodup).2 hmem
    rw [get_else_of_find pm d fi hfind]
    exact he
  · rintro ⟨d, hd⟩
    obtain ⟨fi, hfi, hfe⟩ := get_else_some_find pm d e hd
    exact ⟨(d, fi), (lookupK_eq_some_iff d fi _ pm.m_finterp.nodup).1 hfi, hfe⟩

end proto_model

/-! ## The traversal when no value has to be fabricated -/

namespace proto_model
variable {P : Type}

theorem resolved_of_outer_const_free (pm : proto_model P) :
    ∀ e : expr, e.outer_const_free = true → resolved pm e := by
  intro e h c hc
  obtain ⟨args, hn, hconst⟩ := (mem_outer_consts_iff c e).1 hc
  have := ((outer_const_free_app c args).1 (outer_const_free_of_outer_node e _ hn h)).1
  rw [hconst] at this; cases this

/-- On a table whose default `e` is resolved, `cleanup_func_interp` changes nothing in the
builder but the table, whose default becomes the naive rewrite of `e`; the accumulator gains
the auxiliary declarations that head a rebuilt node of `e`. -/
theorem cleanup_func_interp_resolved (pm : proto_model P) (f : func_decl) (fi : func_interp)
    (found : func_decl_set) (e : expr) (he : fi.get_else = some e) (hres : resolved pm e) :
    ∃ found1, cleanup_func_interp pm f fi found =
        some ({ pm with m_finterp := pm.m_finterp.insert f (fi.set_else (naive_rewrite pm e)) },
              found1) ∧
      ∀ d, d ∈ found1.elems ↔
        d ∈ found.elems ∨ (d ∈ pm.m_aux_decls.elems ∧ d ∈ e.outer_app_decls) := by
  obtain ⟨k, a, ha, heq⟩ := cleanup_func_interp_eq pm f fi found e he
  have hinit := cleanup_inv_init pm e found
  have hpm := cleanup_pm_eq_iterate pm e found hres k _ hinit rfl
  have hrw := rewrite_inv_iterate k
    ({ pm := pm, cache := obj_map.empty, todo := [e], found_aux_fs := found } :
      cleanup_state P) (fun n v hn => by cases hn)
  have hval := (hrw e a ha).1
  rw [hpm] at hval
  obtain ⟨pm1, found1, h1, _, hfound, _⟩ := cleanup_func_interp_found pm f fi found
  rw [hpm, hval] at heq
  rw [heq] at h1
  cases h1
  refine ⟨_, heq, ?_⟩
  intro d
  rw [hfound]
  constructor
  · rintro (h | ⟨h1, e2, h2, h3⟩)
    · exact Or.inl h
    · rw [he] at h2; cases h2; exact Or.inr ⟨h1, h3⟩
  · rintro (h | ⟨h1, h3⟩)
    · exact Or.inl h
    · exact Or.inr ⟨h1, e, he, h3⟩

theorem get_else_insert_ne (pm : proto_model P) (k d : func_decl) (fi : func_interp)
    (h : d ≠ k) :
    ({ pm with m_finterp := pm.m_finterp.insert k fi } : proto_model P).get_else d =
      pm.get_else d :=
  get_else_eq_of_find_eq _ _ d (obj_map.find_insert_ne _ _ _ _ h)

/-- The loop over the tables when every default is resolved: nothing but the function-table
map changes, the tables out of the loop's range are untouched, a partial table in the range
is untouched, and any other table in the range has its default replaced by its naive
rewrite. -/
theorem cleanup_tables_static (ks : List func_decl) :
    ∀ (pm : proto_model P) (found : func_decl_set), ks.Nodup →
      (∀ k ∈ ks, ∃ fi, pm.m_finterp.find k = some fi) →
      (∀ k ∈ ks, ∀ e, pm.get_else k = some e → resolved pm e) →
      ∃ pm1 found1, cleanup_tables ks pm found = some (pm1, found1) ∧
        pm1 = { pm with m_finterp := pm1.m_finterp } ∧
        (∀ d, d ∉ ks → pm1.m_finterp.find d = pm.m_finterp.find d) ∧
        (∀ k ∈ ks, ∀ fi, pm.m_finterp.find k = some fi →
          (fi.get_else = none → pm1.m_finterp.find k = some fi) ∧
          (∀ e, fi.get_else = some e →
            pm1.m_finterp.find k = some (fi.set_else (naive_rewrite pm e)))) := by
  induction ks with
  | nil =>
    intro pm found _ _ _
    exact ⟨pm, found, rfl, rfl, fun _ _ => rfl, fun k hk => by cases hk⟩
  | cons k ks ih =>
    intro pm found hnd hks hD
    obtain ⟨fi, hfi⟩ := hks k (List.mem_cons_self _ _)
    have hfi0 : model_core.get_func_interp pm.tomodel_core k = some fi := hfi
    have hk : k ∉ ks := (List.nodup_cons.1 hnd).1
    have hne2 : ∀ k2 ∈ ks, k2 ≠ k := fun k2 hk2 h => hk (h ▸ hk2)
    have hke : pm.get_else k = fi.get_else := get_else_of_find pm k fi hfi
    cases he : fi.get_else with
    | none =>
      have h1 : cleanup_func_interp pm k fi found = some (pm, found) :=
        (cleanup_func_interp_some pm k fi found).1 he
      obtain ⟨pm2, found2, h2, heq2, hout2, hin2⟩ := ih pm found (List.nodup_cons.1 hnd).2
        (fun k2 hk2 => hks k2 (List.mem_cons_of_mem _ hk2))
        (fun k2 hk2 => hD k2 (List.mem_cons_of_mem _ hk2))
      refine ⟨pm2, found2, ?_, heq2, ?_, ?_⟩
      · simp only [cleanup_tables, hfi0, h1, h2]
      · intro d hd
        exact hout2 d (fun h => hd (List.mem_cons_of_mem _ h))
      · intro k2 hk2 fi2 hfi2
        rcases List.mem_cons.1 hk2 with hk2 | hk2
        · subst hk2
          rw [hfi] at hfi2; cases hfi2
          refine ⟨fun _ => by rw [hout2 k2 hk]; exact hfi, ?_⟩
          intro e he2; rw [he] at he2; cases he2
        · exact hin2 k2 hk2 fi2 hfi2
    | some e =>
      obtain ⟨found1, h1, _⟩ := cleanup_func_interp_resolved pm k fi found e he
        (hD k (List.mem_cons_self _ _) e (hke.trans he))
      obtain ⟨pm2, found2, h2, heq2, hout2, hin2⟩ :=
        ih { pm with m_finterp := pm.m_finterp.insert k (fi.set_else (naive_rewrite pm e)) }
          found1 (List.nodup_cons.1 hnd).2
          (fun k2 hk2 => by
            obtain ⟨fi2, hfi2⟩ := hks k2 (List.mem_cons_of_mem _ hk2)
            refine ⟨fi2, ?_⟩
            show obj_map.find (obj_map.insert pm.m_finterp k _) k2 = some fi2
            rw [obj_map.find_insert_ne _ _ _ _ (hne2 k2 hk2)]; exact hfi2)
          (fun k2 hk2 e2 he2 => by
            rw [get_else_insert_ne pm k k2 _ (hne2 k2 hk2)] at he2
            exact fun c hc => hD k2 (List.mem_cons_of_mem _ hk2) e2 he2 c hc)
      refine ⟨pm2, found2, ?_, ?_, ?_, ?_⟩
      · simp only [cleanup_tables, hfi0, h1, h2]
      · rw [heq2]
      · intro d hd
        rw [hout2 d (fun h => hd (List.mem_cons_of_mem _ h))]
        exact obj_map.find_insert_ne _ _ _ _
          (fun h => hd (by rw [h]; exact List.mem_cons_self _ _))
      · intro k2 hk2 fi2 hfi2
        rcases List.mem_cons.1 hk2 with hk2 | hk2
        · subst hk2
          rw [hfi] at hfi2; cases hfi2
          refine ⟨?_, ?_⟩
          · intro hn; rw [he] at hn; cases hn
          · intro e2 he2
            rw [he] at he2; cases he2
            rw [hout2 k2 hk]; exact obj_map.find_insert_self _ _ _
        · have hne : k2 ≠ k := hne2 k2 hk2
          obtain ⟨hn2, hs2⟩ := hin2 k2 hk2 fi2
            (by
              show obj_map.find (obj_map.insert pm.m_finterp k _) k2 = some fi2
              rw [obj_map.find_insert_ne _ _ _ _ hne]; exact hfi2)
          refine ⟨hn2, ?_⟩
          intro e2 he2
          rw [hs2 e2 he2, naive_rewrite_set_finterp]

end proto_model

/-- The assertion of the removal loop: in `pm_finalized` the auxiliary declaration `decl_g`
has no function table, and `cleanup()` fails the assertion `fi != 0`. -/
theorem cleanup_finalized_asserts : (Example.pm_finalized.cleanup).isSome = false := by
  decide

/-- The application `decl_g(x)` is a sub-term of `decl_b(quant_gx)`, in the body of the
quantifier. -/
theorem subterm_term_quant_gx :
    subterm Example.term_quant_gx (.app Example.decl_g [Example.var_x]) :=
  subterm.arg Example.decl_p [Example.node_gx] _
    (subterm.body 0 _
      (subterm.arg Example.decl_b [Example.quant_gx] _ subterm.root (by decide)))
    (by decide)

/-- The constant `decl_c` is a sub-term of `decl_b(quant_c)`, in the body of the
quantifier. -/
theorem subterm_term_quant_c :
    subterm Example.term_quant_c (.app Example.decl_c []) :=
  subterm.arg Example.decl_p [.app Example.decl_c []] _
    (subterm.body 0 _
      (subterm.arg Example.decl_b [Example.quant_c] _ subterm.root (by decide)))
    (by decide)

/-! ## Reregistration -/

/-- C3, as stated, fails when the alias is the declaration itself: after
`reregister_decl(f, T2, f)` the interpretation of the alias `f` is the new table `T2`, not
the table `T1` that `f` had before the call. -/
theorem reregister_alias_self_counterexample :
    Example.pm_f.get_func_interp Example.decl_f = some Example.table_1 ∧
    (Example.pm_f.reregister_decl Example.decl_f Example.table_2
        (some Example.decl_f)).get_func_interp Example.decl_f = some Example.table_2 ∧
    Example.table_2 ≠ Example.table_1 := by
  decide

/-- C3 (amended): if `f` has the function table `T1`, then after
`reregister_decl(f, T2, g)` with a non-null alias `g` the interpretation of `f` is `T2`,
`g` is in the auxiliary-decl set, and, when `g` is not `f` itself, the interpretation of `g`
is exactly `T1`. -/
theorem reregister_decl_alias (P : Type) (pm : proto_model P) (f g : func_decl)
    (T1 T2 : func_interp) (h : pm.get_func_interp f = some T1) :
    (pm.reregister_decl f T2 (some g)).get_func_interp f = some T2 ∧
    g ∈ (pm.reregister_decl f T2 (some g)).m_aux_decls.elems ∧
    (g ≠ f → (pm.reregister_decl f T2 (some g)).get_func_interp g = some T1) := by
  have hf : model_core.get_func_interp pm.tomodel_core f = some T1 := h
  simp only [proto_model.reregister_decl, hf]
  refine ⟨?_, ?_, ?_⟩
  · exact obj_map.find_insert_self _ _ _
  · exact (obj_hashtable.set_mem_insert _ _ _).2 (Or.inl rfl)
  · intro hne
    show obj_map.find (obj_map.insert _ f T2) g = some T1
    rw [obj_map.find_insert_ne _ _ _ _ hne]
    show obj_map.find (pm.register_decl_fi g T1).m_finterp g = some T1
    rw [proto_model.pm_register_decl_fi_m_finterp]
    exact obj_map.find_insert_self _ _ _

theorem reregister_decl_alias_witness :
    Example.pm_f.get_func_interp Example.decl_f = some Example.table_1 ∧
    (Example.pm_f.reregister_decl Example.decl_f Example.table_2
        (some Example.decl_g)).get_func_interp Example.decl_g = some Example.table_1 :=
  ⟨by decide,
   (reregister_decl_alias Unit Example.pm_f Example.decl_f Example.decl_g Example.table_1
      Example.table_2 (by decide)).2.2 (by decide)⟩

/-! ## Finalization -/

/-- C4: after `mk_model()` the function-table map of the builder is empty, its constant map
is unchanged, and the returned model interprets every declaration exactly as the builder did
before the call: the same constant value and the same function table for a declaration that
had one, and none for a declaration that had none. -/
theorem mk_model_ownership_transfer (P : Type) (pm : proto_model P) :
    (pm.mk_model).2.m_finterp.entries = [] ∧
    (pm.mk_model).2.m_interp = pm.m_interp ∧
    (∀ d, (pm.mk_model).1.get_const_interp d = pm.get_const_interp d) ∧
    (∀ d, (pm.mk_model).1.get_func_interp d = pm.get_func_interp d) := by
  refine ⟨rfl, rfl, ?_, ?_⟩
  · intro d
    show obj_map.find (model_core.m_interp (pm.mk_model).1.tomodel_core) d = _
    unfold proto_model.mk_model
    simp only [foldl_register_usort_core]
    rw [foldl_register_decl_fi_rest, foldl_register_decl_find _ pm.m_interp.nodup]
    show (lookupK d pm.m_interp.entries).orElse _ = lookupK d pm.m_interp.entries
    cases lookupK d pm.m_interp.entries <;> rfl
  · intro d
    show obj_map.find (model_core.m_finterp (pm.mk_model).1.tomodel_core) d = _
    unfold proto_model.mk_model
    simp only [foldl_register_usort_core]
    rw [foldl_register_decl_fi_find _ pm.m_finterp.nodup, foldl_register_decl_rest]
    show (lookupK d pm.m_finterp.entries).orElse _ = lookupK d pm.m_finterp.entries
    cases lookupK d pm.m_finterp.entries <;> rfl

/-! ## Value generation -/

/-- C5: `get_some_value(S)` has no failing path: for every sort `S` it returns a value, and,
assuming that the user-sort factory and the plugin registered for the family of `S` (if any)
each return a value of the requested sort, that value has sort `S`. For an interpreted sort
whose family has no plugin, the value and the new factory state are those of the user-sort
factory. -/
theorem get_some_value_total (P : Type) (pm : proto_model P) (s : sort)
    (h_user : get_sort (pm.m_user_sort_factory.get_some_value s).1 = s)
    (h_plugin : ∀ f, pm.get_factory s.family_id = some (factory_ref.plugin f) →
      get_sort (f.get_some_value s pm.m_plugins).1 = s) :
    get_sort (pm.get_some_value s).1 = s ∧
    (is_uninterp s = false → pm.get_factory s.family_id = none →
      (pm.get_some_value s).1 = (pm.m_user_sort_factory.get_some_value s).1 ∧
      (pm.get_some_value s).2.m_user_sort_factory =
        (pm.m_user_sort_factory.get_some_value s).2) := by
  constructor
  · unfold proto_model.get_some_value
    split
    · exact h_user
    · split
      · rename_i f hf; exact h_plugin f hf
      · exact h_user
      · exact h_user
  · intro hs hf
    unfold proto_model.get_some_value
    rw [if_neg (by simp [hs]), hf]
    exact ⟨rfl, rfl⟩

theorem get_some_value_total_witness :
    get_sort (Example.fresh.get_some_value Example.sort_D).1 = Example.sort_D :=
  (get_some_value_total Unit Example.fresh Example.sort_D (by decide)
    (fun f h => by
      have h0 : Example.fresh.get_factory Example.sort_D.family_id = none := rfl
      rw [h0] at h
      cases h)).1

/-- C6, as stated, fails: on the fresh builder, for the interpreted sort `sort_D` whose
family has no plugin, `get_some_values` returns `false`, while the user-sort factory's
`get_some_values` returns two values for that sort. -/
theorem get_some_values_no_fallback_counterexample :
    is_uninterp Example.sort_D = false ∧
    (Example.fresh.get_factory Example.sort_D.family_id).isNone = true ∧
    (Example.fresh.get_some_values Example.sort_D).1 = none ∧
    (Example.fresh.m_user_sort_factory.get_some_values Example.sort_D).1 =
      some (mk_model_value 0 Example.sort_D, mk_model_value 1 Example.sort_D) := by
  decide

/-- C6 (amended): for every interpreted sort `s` whose family id has no registered plugin,
`get_some_values(s, v1, v2)` returns `false` and changes nothing: no value is produced and
the builder, its user-sort factory included, is left as it was. -/
theorem get_some_values_no_plugin (P : Type) (pm : proto_model P) (s : sort)
    (hs : is_uninterp s = false) (hf : pm.get_factory s.family_id = none) :
    pm.get_some_values s = (none, pm) := by
  unfold proto_model.get_some_values
  rw [if_neg (by simp [hs]), hf]

theorem get_some_values_no_plugin_witness :
    Example.fresh.get_some_values Example.sort_D = (none, Example.fresh) :=
  get_some_values_no_plugin Unit Example.fresh Example.sort_D (by decide) rfl

/-- C7, at the failing input: `value_D` has the interpreted sort `sort_D`, whose family has
no plugin. `register_value(value_D)` on the fresh builder leaves the user-sort factory
without any sort and with an empty universe for `sort_D`, although `get_fresh_value` routes
`sort_D` into that factory, and although recording the value there (what the user-sort
factory does for an uninterpreted sort) would put `value_D` in the universe. -/
theorem register_value_no_plugin_dropped :
    is_uninterp (get_sort Example.value_D) = false ∧
    (Example.fresh.get_factory (get_sort Example.value_D).family_id).isNone = true ∧
    (Example.fresh.register_value Example.value_D).m_user_sort_factory.m_sorts = [] ∧
    (Example.fresh.register_value Example.value_D).get_known_universe Example.sort_D = [] ∧
    (Example.fresh.get_fresh_value Example.sort_D).2.m_user_sort_factory.m_sorts =
      [Example.sort_D] ∧
    (Example.fresh.user_sort_register_value Example.value_D).get_known_universe
      Example.sort_D = [Example.value_D] := by
  decide

/-! ## Completion of partial function tables -/

namespace func_interp

theorem max_occ_loop_isSome (done rs : List expr) (max : Nat) (r_max : Option expr)
    (h : r_max.isSome = true) : (max_occ_loop done rs max r_max).isSome = true := by
  induction rs generalizing done max r_max with
  | nil => simpa [max_occ_loop] using h
  | cons r rs ih =>
    simp only [max_occ_loop]
    split_ifs
    · exact ih _ _ _ rfl
    · exact ih _ _ _ h

theorem max_occ_loop_max (done rs : List expr) (max : Nat) (r_max : Option expr)
    (h1 : ∀ x, List.count x done ≤ max)
    (h2 : ∀ r, r_max = some r → List.count r done = max) :
    ∀ r, max_occ_loop done rs max r_max = some r →
      ∀ x, List.count x (done ++ rs) ≤ List.count r (done ++ rs) := by
  induction rs generalizing done max r_max with
  | nil =>
    intro r hr x
    simp only [max_occ_loop] at hr
    simp only [List.append_nil]
    rw [h2 r hr]
    exact h1 x
  | cons r0 rs ih =>
    intro r hr x
    simp only [max_occ_loop] at hr
    have hperm : ∀ y, List.count y (done ++ r0 :: rs) = List.count y ((r0 :: done) ++ rs) :=
      fun y => List.Perm.count_eq (List.perm_middle) y
    rw [hperm x, hperm r]
    split_ifs at hr with hgt
    · refine ih (r0 :: done) (List.count r0 done + 1) (some r0) ?_ ?_ r hr x
      · intro y
        by_cases hy : y = r0
        · subst hy; simp
        · rw [List.count_cons_of_ne hy]
          have := h1 y
          omega
      · intro r' hr'
        cases hr'
        simp
    · refine ih (r0 :: done) max r_max ?_ ?_ r hr x
      · intro y
        by_cases hy : y = r0
        · subst hy
          simp only [List.count_cons_self]
          omega
        · rw [List.count_cons_of_ne hy]
          exact h1 y
      · intro r' hr'
        by_cases hy : r' = r0
        · subst hy
          have := h2 r' hr'
          omega
        · rw [List.count_cons_of_ne hy]
          exact h2 r' hr'

/-- The most-frequent-value query answers with a result that no other result outnumbers,
and it answers whenever the table has an entry. -/
theorem get_max_occ_result_spec (fi : func_interp) :
    (fi.m_entries ≠ [] → ∃ r, fi.get_max_occ_result = some r) ∧
    (fi.m_entries = [] → fi.get_max_occ_result = none) ∧
    (∀ r, fi.get_max_occ_result = some r →
      r ∈ fi.m_entries.map func_entry.result ∧
      ∀ x, List.count x (fi.m_entries.map func_entry.result) ≤
        List.count r (fi.m_entries.map func_entry.result)) := by
  have hmax : ∀ r, fi.get_max_occ_result = some r →
      ∀ x, List.count x (fi.m_entries.map func_entry.result) ≤
        List.count r (fi.m_entries.map func_entry.result) := by
    intro r hr x
    have := max_occ_loop_max [] (fi.m_entries.map func_entry.result) 0 none
      (by simp) (by simp) r hr x
    simpa using this
  refine ⟨?_, ?_, ?_⟩
  · intro hne
    cases he : fi.m_entries with
    | nil => exact absurd he hne
    | cons e es =>
      have : (fi.get_max_occ_result).isSome = true := by
        simp only [get_max_occ_result, he, List.map_cons, max_occ_loop, List.count_nil]
        rw [if_pos (by omega)]
        exact max_occ_loop_isSome _ _ _ _ rfl
      cases h : fi.get_max_occ_result with
      | none => rw [h] at this; cases this
      | some r => exact ⟨r, rfl⟩
  · intro he
    simp [get_max_occ_result, he, max_occ_loop]
  · intro r hr
    refine ⟨?_, hmax r hr⟩
    cases he : fi.m_entries with
    | nil => simp [get_max_occ_result, he, max_occ_loop] at hr
    | cons e es =>
      have h := hmax r hr e.result
      rw [he] at h
      simp only [List.map_cons, List.count_cons_self] at h
      exact List.count_pos_iff.1 (by simp only [List.map_cons]; omega)

end func_interp

/-- C8: `complete_partial_func(f)` leaves the builder unchanged when `f` has no function
table or its table is not partial. Otherwise the table of `f` afterwards is not partial and
has the same entries (and arity); its default is the most frequent result of the entries,
one that no other result outnumbers, when there is an entry, and the value that
`get_some_value` returns for the range of `f` when there is none. -/
theorem complete_partial_func_spec (P : Type) (pm : proto_model P) (f : func_decl) :
    (pm.get_func_interp f = none → pm.complete_partial_func f = pm) ∧
    (∀ fi, pm.get_func_interp f = some fi → func_interp.is_partial fi = false →
      pm.complete_partial_func f = pm) ∧
    (∀ fi, pm.get_func_interp f = some fi → func_interp.is_partial fi = true →
      ∃ fi2, (pm.complete_partial_func f).get_func_interp f = some fi2 ∧
        func_interp.is_partial fi2 = false ∧
        fi2.m_entries = fi.m_entries ∧ fi2.m_arity = fi.m_arity ∧
        (fi.m_entries ≠ [] → ∃ r, fi2.m_else = some r ∧
          r ∈ fi.m_entries.map func_entry.result ∧
          ∀ x, List.count x (fi.m_entries.map func_entry.result) ≤
            List.count r (fi.m_entries.map func_entry.result)) ∧
        (fi.m_entries = [] → fi2.m_else = some (pm.get_some_value f.get_range).1)) := by
  refine ⟨?_, ?_, ?_⟩
  · intro h
    have h0 : model_core.get_func_interp pm.tomodel_core f = none := h
    simp only [proto_model.complete_partial_func, h0]
  · intro fi h hp
    have h0 : model_core.get_func_interp pm.tomodel_core f = some fi := h
    simp [proto_model.complete_partial_func, h0, hp]
  · intro fi h hp
    have h0 : model_core.get_func_interp pm.tomodel_core f = some fi := h
    obtain ⟨hne, hnil, hmax⟩ := func_interp.get_max_occ_result_spec fi
    cases hr : fi.get_max_occ_result with
    | some r =>
      refine ⟨fi.set_else r, ?_, rfl, rfl, rfl, ?_, ?_⟩
      · simp only [proto_model.complete_partial_func, h0, hp, hr, if_true]
        exact obj_map.find_insert_self _ _ _
      · intro _
        exact ⟨r, rfl, (hmax r hr).1, (hmax r hr).2⟩
      · intro he
        rw [hnil he] at hr
        cases hr
    | none =>
      refine ⟨fi.set_else (pm.get_some_value f.get_range).1, ?_, rfl, rfl, rfl, ?_, ?_⟩
      · simp only [proto_model.complete_partial_func, h0, hp, hr, if_true]
        exact obj_map.find_insert_self _ _ _
      · intro he
        obtain ⟨r, hr2⟩ := hne he
        rw [hr] at hr2
        cases hr2
      · intro _
        rfl

/-- The scenario of C8: the entries `0 -> 1`, `0 -> 1`, `2 -> 3` with no default yield the
default 1. -/
theorem complete_partial_func_spec_witness :
    Example.pm_scenario.get_func_interp Example.decl_f = some Example.scenario_table ∧
    func_interp.is_partial Example.scenario_table = true ∧
    (Example.pm_scenario.complete_partial_func Example.decl_f).get_func_interp Example.decl_f =
      some (Example.scenario_table.set_else (Example.mk_numeral 1)) ∧
    (∃ fi2, (Example.pm_scenario.complete_partial_func Example.decl_f).get_func_interp
        Example.decl_f = some fi2 ∧ func_interp.is_partial fi2 = false) :=
  ⟨by decide, by decide, by decide,
   by
    obtain ⟨fi2, h1, h2, _⟩ :=
      (complete_partial_func_spec Unit Example.pm_scenario Example.decl_f).2.2
        Example.scenario_table (by decide) (by decide)
    exact ⟨fi2, h1, h2⟩⟩

/-! ## The auxiliary set after finalization -/

/-- C10, at the failing input: after `register_aux_decl(decl_g, table_1)` and `mk_model()`
on the fresh builder, `decl_g` is still in the auxiliary set although the function-table
map is empty and `decl_g` has no interpretation left in the builder. -/
theorem mk_model_keeps_aux_decls :
    Example.decl_g ∈ Example.pm_finalized.m_aux_decls.elems ∧
    Example.pm_finalized.m_finterp.entries = [] ∧
    Example.pm_finalized.has_interpretation Example.decl_g = false ∧
    Example.pm_finalized.get_func_interp Example.decl_g = none := by
  decide

/-- Finalization is the only operation that breaks the invariant of the auxiliary set: in
every state reached from the freshly constructed builder by `register_aux_decl`,
`reregister_decl`, `mk_some_interp_for`, `complete_partial_funcs` and `cleanup`, every
declaration in the auxiliary set has a function table. -/
theorem aux_decls_registered_before_finalization (P : Type) (rw : th_rewriter)
    (basic_factory : value_factory P) (p0 : P) (partial_models : Bool) (pm : proto_model P)
    (h : proto_model.reachable_before_finalization
      (proto_model.mk_proto_model rw basic_factory p0 partial_models) pm) :
    ∀ d ∈ pm.m_aux_decls.elems, pm.m_finterp.contains d = true :=
  proto_model.aux_registered_of_reachable _ pm
    (fun d hd => absurd hd (List.not_mem_nil d)) h

/-! ## Reregistration without a prior interpretation -/

/-- C15: when `f` has no function table, `reregister_decl(f, new_table, alias)` is
`register_decl(f, new_table)` whatever the alias, null or not: the interpretation of `f`
becomes `new_table`, the auxiliary set and the constant map are unchanged, and so is the
function table of every other declaration, the alias included. -/
theorem reregister_decl_without_table (P : Type) (pm : proto_model P) (f : func_decl)
    (new_fi : func_interp) (f_aux : Option func_decl) (h : pm.get_func_interp f = none) :
    pm.reregister_decl f new_fi f_aux = pm.register_decl_fi f new_fi ∧
    (pm.reregister_decl f new_fi f_aux).get_func_interp f = some new_fi ∧
    (pm.reregister_decl f new_fi f_aux).m_aux_decls = pm.m_aux_decls ∧
    (pm.reregister_decl f new_fi f_aux).m_interp = pm.m_interp ∧
    (∀ d, d ≠ f →
      (pm.reregister_decl f new_fi f_aux).get_func_interp d = pm.get_func_interp d) := by
  have h0 : model_core.get_func_interp pm.tomodel_core f = none := h
  have heq : pm.reregister_decl f new_fi f_aux = pm.register_decl_fi f new_fi := by
    simp only [proto_model.reregister_decl, h0]
  rw [heq]
  refine ⟨rfl, ?_, rfl, ?_, ?_⟩
  · show obj_map.find (pm.register_decl_fi f new_fi).m_finterp f = some new_fi
    rw [proto_model.pm_register_decl_fi_m_finterp]
    exact obj_map.find_insert_self _ _ _
  · exact model_core.register_decl_fi_m_interp pm.tomodel_core f new_fi
  · intro d hd
    show obj_map.find (pm.register_decl_fi f new_fi).m_finterp d = obj_map.find pm.m_finterp d
    rw [proto_model.pm_register_decl_fi_m_finterp]
    exact obj_map.find_insert_ne _ _ _ _ hd

theorem reregister_decl_without_table_witness :
    Example.fresh.get_func_interp Example.decl_f = none ∧
    (Example.fresh.reregister_decl Example.decl_f Example.table_2
        (some Example.decl_g)).get_func_interp Example.decl_g = none ∧
    (Example.fresh.reregister_decl Example.decl_f Example.table_2
        (some Example.decl_g)).get_func_interp Example.decl_f = some Example.table_2 :=
  ⟨by decide,
   by
    rw [(reregister_decl_without_table Unit Example.fresh Example.decl_f Example.table_2
      (some Example.decl_g) (by decide)).2.2.2.2 Example.decl_g (by decide)]
    decide,
   (reregister_decl_without_table Unit Example.fresh Example.decl_f Example.table_2
      (some Example.decl_g) (by decide)).2.1⟩

/-! ## A shared node is rebuilt once per push -/

/-- C17, at the failing input: in the traversal of `decl_h2(decl_g(x), decl_g(x))` the loop
over the arguments pushes the node `decl_g(x)` twice, because it is not in the cache at
either test, and the loop does not look the node up when it comes to the top of the stack
again: `mk_app` is invoked twice for `decl_g(x)`. After four iterations the node is on top
of the stack and in the cache, and the next iteration rebuilds it and writes its cache entry
again. The loop ends within its fuel, after three invocations of `mk_app` for two distinct
application nodes. -/
theorem shared_node_rebuilt_twice :
    (Nat.iterate proto_model.cleanup_step 4 Example.shared_start).todo =
      [Example.node_gx, Example.shared_expr] ∧
    (Nat.iterate proto_model.cleanup_step 4 Example.shared_start).cache.contains
      Example.node_gx = true ∧
    proto_model.rebuilt_next (Nat.iterate proto_model.cleanup_step 4 Example.shared_start) =
      [Example.node_gx] ∧
    (Nat.iterate proto_model.cleanup_step 5 Example.shared_start).todo =
      [Example.shared_expr] ∧
    (proto_model.cleanup_trace (proto_model.cleanup_fuel Example.shared_expr)
      Example.shared_start) =
      [Example.node_gx, Example.node_gx, Example.shared_expr] ∧
    (proto_model.cleanup_trace (proto_model.cleanup_fuel Example.shared_expr)
      Example.shared_start).count Example.node_gx = 2 ∧
    (proto_model.cleanup_loop (proto_model.cleanup_fuel Example.shared_expr)
      Example.shared_start).todo = [] := by
  decide

/-! ## The sorts that finalization enumerates -/

/-- C20, at the failing input: `sort_D` is interpreted and its family has no plugin. After
`get_fresh_value(sort_D)` on the fresh builder, the user-sort factory counts one sort, and
`get_uninterpreted_sort(0)` is `sort_D`, which is not uninterpreted: `mk_model` calls
`get_universe(sort_D)`, against the precondition `is_uninterp(s)` that
`get_known_universe` asserts, and registers `sort_D` among the uninterpreted sorts of the
result. The same happens after `get_some_value(sort_D)`. -/
theorem finalization_enumerates_interpreted_sort :
    is_uninterp Example.sort_D = false ∧
    (Example.fresh.get_factory Example.sort_D.family_id).isNone = true ∧
    Example.pm_routed.get_num_uninterpreted_sorts = 1 ∧
    Example.pm_routed.get_uninterpreted_sort 0 = some Example.sort_D ∧
    (Example.pm_routed.mk_model).1.m_usorts =
      [(Example.sort_D, [mk_model_value 0 Example.sort_D])] ∧
    (Example.fresh.get_some_value Example.sort_D).2.get_uninterpreted_sort 0 =
      some Example.sort_D := by
  decide

/-! ## Finite universes -/

/-- C16: `is_finite(s)` is true exactly when `s` is uninterpreted and the user-sort factory
holds its universe as frozen (so never for an interpreted sort), and it is true after
`freeze_universe(s)` for an uninterpreted `s`. For an uninterpreted sort `U` that is not
frozen and has no known value, after `v0 = get_some_value(U)` the sort is still not finite,
and after `freeze_universe(U)` it is finite and `get_universe(U)` is exactly `[v0]`. -/
theorem is_finite_and_universe (P : Type) (pm : proto_model P) :
    (∀ s, pm.is_finite s = true ↔
      (is_uninterp s = true ∧ pm.m_user_sort_factory.is_finite s = true)) ∧
    (∀ s, is_uninterp s = false → pm.is_finite s = false) ∧
    (∀ s, is_uninterp s = true → (pm.freeze_universe s).is_finite s = true) ∧
    (∀ U, is_uninterp U = true → pm.get_known_universe U = [] → pm.is_finite U = false →
      (pm.get_some_value U).2.is_finite U = false ∧
      ((pm.get_some_value U).2.freeze_universe U).is_finite U = true ∧
      ((pm.get_some_value U).2.freeze_universe U).get_universe U =
        [(pm.get_some_value U).1]) := by
  refine ⟨?_, ?_, ?_, ?_⟩
  · intro s
    simp [proto_model.is_finite]
  · intro s hs
    simp [proto_model.is_finite, hs]
  · intro s hs
    simp only [proto_model.is_finite, hs, Bool.true_and, proto_model.freeze_universe]
    exact usf_freeze_universe_is_finite _ _
  · intro U hU hempty hfin
    have hfin0 : pm.m_user_sort_factory.is_finite U = false := by
      simpa [proto_model.is_finite, hU] using hfin
    obtain ⟨h1, h2, h3⟩ := usf_get_some_value_of_empty pm.m_user_sort_factory U hempty
    have hval : (pm.get_some_value U).1 = mk_model_value 0 U := by
      simp only [proto_model.get_some_value, hU, if_true,
        proto_model.user_sort_get_some_value]
      exact h1
    have hst : (pm.get_some_value U).2.m_user_sort_factory =
        (pm.m_user_sort_factory.get_some_value U).2 := by
      simp only [proto_model.get_some_value, hU, if_true,
        proto_model.user_sort_get_some_value]
    have hfin1 : (pm.m_user_sort_factory.get_some_value U).2.is_finite U = false := by
      unfold user_sort_factory.is_finite at hfin0 ⊢
      rw [h2]; exact hfin0
    refine ⟨?_, ?_, ?_⟩
    · simp only [proto_model.is_finite, hU, Bool.true_and, hst]
      exact hfin1
    · simp only [proto_model.is_finite, hU, Bool.true_and, proto_model.freeze_universe]
      exact usf_freeze_universe_is_finite _ _
    · simp only [proto_model.get_universe, proto_model.get_known_universe,
        proto_model.freeze_universe, hst, foldl_copy, List.nil_append, hval]
      exact usf_freeze_universe_of_nonempty _ U _ [] h3 hfin1

theorem is_finite_and_universe_witness :
    Example.fresh.is_finite Example.sort_U = false ∧
    ((Example.fresh.get_some_value Example.sort_U).2.freeze_universe Example.sort_U).is_finite
      Example.sort_U = true ∧
    ((Example.fresh.get_some_value Example.sort_U).2.freeze_universe
      Example.sort_U).get_universe Example.sort_U = [mk_model_value 0 Example.sort_U] :=
  ⟨by decide,
   ((is_finite_and_universe Unit Example.fresh).2.2.2 Example.sort_U (by decide) (by decide)
      (by decide)).2.1,
   by
    rw [((is_finite_and_universe Unit Example.fresh).2.2.2 Example.sort_U (by decide)
      (by decide) (by decide)).2.2]
    decide⟩

/-! ## Termination of the traversal -/

/-- C19: the work-stack loop of `cleanup_func_interp` terminates and leaves the root in the
cache. `cleanup_measure` is a measure into the natural numbers that every iteration on a
stack that is not empty makes smaller, so the loop run with that much fuel ends with an
empty stack, from any state; on the start state of the default `e` (any expression, shared
subterms included) the measure is within `cleanup_fuel e`, the loop ends with an empty stack
and a cache entry for `e`, and `cleanup_func_interp` returns a result: neither the fuel nor
the `UNREACHABLE` branch is ever hit. -/
theorem cleanup_traversal_total (P : Type) (pm : proto_model P) (f : func_decl)
    (fi : func_interp) (found : func_decl_set) :
    (∀ st : cleanup_state P, st.todo ≠ [] →
      proto_model.cleanup_measure (proto_model.cleanup_step st) <
        proto_model.cleanup_measure st) ∧
    (∀ (st : cleanup_state P) (fuel : Nat), proto_model.cleanup_measure st ≤ fuel →
      (proto_model.cleanup_loop fuel st).todo = []) ∧
    (∀ e : expr,
      proto_model.cleanup_measure
        ({ pm := pm, cache := obj_map.empty, todo := [e], found_aux_fs := found } :
          cleanup_state P) ≤ proto_model.cleanup_fuel e ∧
      (proto_model.cleanup_loop (proto_model.cleanup_fuel e)
        { pm := pm, cache := obj_map.empty, todo := [e], found_aux_fs := found }).todo = [] ∧
      ((proto_model.cleanup_loop (proto_model.cleanup_fuel e)
        { pm := pm, cache := obj_map.empty, todo := [e],
          found_aux_fs := found }).cache.find e).isSome = true) ∧
    (proto_model.cleanup_func_interp pm f fi found).isSome = true := by
  refine ⟨proto_model.cleanup_measure_decreases, fun st fuel h =>
    proto_model.cleanup_loop_of_measure fuel st h, ?_, ?_⟩
  · intro e
    obtain ⟨k, _, hloop, htodo, hkey⟩ := proto_model.cleanup_loop_terminates pm e found
    obtain ⟨a, ha⟩ := (obj_map.mem_keys_iff _ _).1 hkey
    refine ⟨?_, ?_, ?_⟩
    · unfold proto_model.cleanup_measure proto_model.cleanup_fuel
      simp only [proto_model.stack_weight, Nat.add_zero]
      exact proto_model.entry_weight_le _ _ e
    · rw [hloop]; exact htodo
    · rw [hloop, ha]; rfl
  · obtain ⟨hnone, hsome⟩ := proto_model.cleanup_func_interp_some pm f fi found
    cases he : fi.get_else with
    | none => rw [hnone he]; rfl
    | some e =>
      obtain ⟨st, a, _, _, heq⟩ := hsome e he
      rw [heq]; rfl

theorem cleanup_traversal_total_witness :
    Example.shared_start.todo ≠ [] ∧
    proto_model.cleanup_measure (proto_model.cleanup_step Example.shared_start) <
      proto_model.cleanup_measure Example.shared_start :=
  ⟨by decide,
   (cleanup_traversal_total Unit Example.fresh Example.decl_f Example.table_2
      obj_hashtable.empty).1 Example.shared_start (by decide)⟩


/-! ## Cleanup: which auxiliary declarations are removed

The traversal of a default meets the application nodes outside the quantifiers, and takes an
application without arguments of an uninterpreted declaration for a constant, which it
replaces by its interpretation without traversing the interpretation. What `cleanup()` does
with an auxiliary declaration that is applied only in the interpretation of a constant is
the subject of the section on an auxiliary declaration that is used and removed. -/

/-- C1, as stated, fails. In `pm_chain` the auxiliary declaration `decl_g` is mentioned
only by the table of `decl_h`, which cleanup removes. After cleanup the only function table
left is that of `decl_g`, with default `0`, so no surviving default contains an application
of `decl_g`; yet `decl_g` is not removed. In `pm_quant_aux` the auxiliary declaration
`decl_g` is applied in the body of a quantifier in the default of the table of `decl_f`,
which is `decl_b(quant_gx)`: the traversal does not enter the quantifier, and cleanup
removes `decl_g` although the table of `decl_f` survives with that default. -/
theorem cleanup_gc_counterexample :
    Example.decl_g ∈ Example.pm_chain.m_aux_decls.elems ∧
    (Example.pm_chain.cleanup).map (fun s => s.m_finterp.entries) =
      some [(Example.decl_g, Example.total_fi (Example.mk_numeral 0))] ∧
    Example.decl_g ∉ (Example.mk_numeral 0).decls ∧
    (Example.pm_chain.cleanup).map (fun s => s.m_aux_decls.elems) = some [Example.decl_g] ∧
    (Example.pm_chain.cleanup).map (fun s => s.m_func_decls) = some [Example.decl_g] ∧
    Example.decl_g ∈ Example.pm_quant_aux.m_aux_decls.elems ∧
    (Example.pm_quant_aux.cleanup).map
      (fun s => (s.get_else Example.decl_f, s.m_aux_decls.elems,
        s.get_func_interp Example.decl_g)) = some (some Example.term_quant_gx, [], none) ∧
    subterm Example.term_quant_gx (.app Example.decl_g [Example.var_x]) :=
  ⟨by decide, by decide, by decide, by decide, by decide, by decide, by decide,
    subterm_term_quant_gx⟩

/-- C1 (amended): `cleanup()` returns whenever every auxiliary declaration has a function
table, which is what its removal loop asserts. When it returns, for every auxiliary
declaration `g` tracked before the call: if the default of some function table held before
the call, whether the table survives or not, contains before rewriting, outside any
quantifier, an application node headed by `g` that is not an uninterpreted constant, then
`g` is kept, in the auxiliary set and with its table if it had one; and if no default
contains such a node before the call and no default contains any application of `g` after
the call, then `g` is removed: dropped from the auxiliary set, from `m_decls` and
`m_func_decls`, and from the function-table map. -/
theorem cleanup_removes_unreferenced (P : Type) (pm : proto_model P) :
    (pm.aux_registered → ∃ pm2, pm.cleanup = some pm2) ∧
    ∀ pm2, pm.cleanup = some pm2 → ∀ g ∈ pm.m_aux_decls.elems,
      ((∃ e ∈ pm.defaults, ∃ args, outer_node e (.app g args) ∧
          is_uninterp_const (.app g args) = false) →
        g ∈ pm2.m_aux_decls.elems ∧
        ((pm.get_func_interp g).isSome = true → (pm2.get_func_interp g).isSome = true)) ∧
      ((∀ e ∈ pm.defaults, ∀ args, outer_node e (.app g args) →
          is_uninterp_const (.app g args) = true) →
        (∀ e ∈ pm2.defaults, ∀ args, ¬ subterm e (.app g args)) →
        g ∉ pm2.m_aux_decls.elems ∧ g ∉ pm2.m_decls ∧ g ∉ pm2.m_func_decls ∧
        pm2.get_func_interp g = none) := by
  refine ⟨proto_model.cleanup_returns pm, ?_⟩
  intro pm2 hc g hg
  obtain ⟨pmT, found, hT, haux, href, _, _, _, hauxiff, hfind, hdecls, hfdecls⟩ :=
    proto_model.cleanup_cases pm pm2 hc
  have hkeep := proto_model.cleanup_tables_contains _ pm pmT _ found hT
  have hgT : g ∈ pmT.m_aux_decls.elems := by rw [haux]; exact hg
  refine ⟨?_, ?_⟩
  · rintro ⟨e, he, args, hnode, hconst⟩
    obtain ⟨d, hd⟩ := (proto_model.mem_defaults_iff pm e).1 he
    have hgf : g ∈ found.elems :=
      (href g).2 ⟨hg, d, e, hd, (mem_outer_app_decls_iff g e).2 ⟨args, hnode, hconst⟩⟩
    refine ⟨(hauxiff g).2 hgf, ?_⟩
    intro hsome
    have hcont : pmT.m_finterp.contains g = true := hkeep g hsome
    show (pm2.m_finterp.find g).isSome = true
    rw [hfind, if_neg]
    · exact hcont
    · rintro ⟨_, h2⟩
      exact (obj_hashtable.set_contains_eq_false_iff _ _).1 h2 hgf
  · intro hpre _
    have hgf : g ∉ found.elems := by
      intro hgf
      obtain ⟨_, d, e, hd, hmem⟩ := (href g).1 hgf
      obtain ⟨args, hnode, hconst⟩ := (mem_outer_app_decls_iff g e).1 hmem
      have := hpre e ((proto_model.mem_defaults_iff pm e).2 ⟨d, hd⟩) args hnode
      rw [hconst] at this; cases this
    refine ⟨fun h => hgf ((hauxiff g).1 h), ?_, ?_, ?_⟩
    · intro h; exact hgf (((hdecls g).1 h).2 hgT)
    · intro h; exact hgf (((hfdecls g).1 h).2 hgT)
    · show pm2.m_finterp.find g = none
      rw [hfind, if_pos ⟨hgT, (obj_hashtable.set_contains_eq_false_iff _ _).2 hgf⟩]

/-- In `pm_chain` the table of the auxiliary declaration `decl_h` has the default
`decl_g(x)` and nothing mentions `decl_h`: cleanup returns, keeps `decl_g` and removes
`decl_h`. -/
theorem cleanup_removes_unreferenced_witness :
    ∃ pm2, Example.pm_chain.cleanup = some pm2 ∧
      Example.decl_g ∈ pm2.m_aux_decls.elems ∧ Example.decl_h ∉ pm2.m_aux_decls.elems ∧
      pm2.get_func_interp Example.decl_h = none := by
  obtain ⟨pm2, h⟩ := (cleanup_removes_unreferenced Unit Example.pm_chain).1 (by decide)
  have hd : (Example.pm_chain.cleanup).map (fun s => s.defaults) =
      some [Example.mk_numeral 0] := by decide
  rw [h] at hd
  have hd2 : pm2.defaults = [Example.mk_numeral 0] := Option.some.inj hd
  have hdefs : Example.pm_chain.defaults = [Example.mk_numeral 0, Example.node_gx] := by
    decide
  have hkept := ((cleanup_removes_unreferenced Unit Example.pm_chain).2 pm2 h Example.decl_g
    (by decide)).1 ⟨Example.node_gx, by decide, [Example.var_x], outer_node.root, by decide⟩
  have hrem := ((cleanup_removes_unreferenced Unit Example.pm_chain).2 pm2 h Example.decl_h
    (by decide)).2
    (by
      intro e he
      have hmem : Example.decl_h ∉ e.outer_app_decls := by
        rw [hdefs] at he
        revert e
        decide
      intro args hn
      by_contra hc
      exact hmem ((mem_outer_app_decls_iff _ e).2 ⟨args, hn, by simpa using hc⟩))
    (by
      intro e he
      have hmem : Example.decl_h ∉ e.decls := by
        rw [hd2] at he
        revert e
        decide
      intro args hs
      exact hmem ((mem_decls_iff _ e).2 ⟨args, hs⟩))
  exact ⟨pm2, h, hkept.1, hrem.1, hrem.2.2.2⟩

/-! ## Cleanup: the constants of the defaults -/

/-- C12, as stated, fails. In `pm_dangling` the default of the table of `decl_f` is the
constant `decl_c`, interpreted by the constant `decl_d`, which has no interpretation:
cleanup substitutes the interpretation of `decl_c` without traversing it, and afterwards
the default is the uninterpreted constant `decl_d`, which has no interpretation. In
`pm_quant_const` the default of the table of `decl_f` is `decl_b(quant_c)`, where the body
of the quantifier `quant_c` is `decl_p(decl_c)`: the traversal does not enter the
quantifier, and afterwards the default still contains `decl_c`, which has no
interpretation. -/
theorem cleanup_dangling_constant_counterexample :
    (Example.pm_dangling.cleanup).map (fun s => s.get_else Example.decl_f) =
      some (some (.app Example.decl_d [])) ∧
    is_uninterp_const (.app Example.decl_d []) = true ∧
    (Example.pm_dangling.cleanup).map (fun s => s.get_const_interp Example.decl_d) =
      some none ∧
    (Example.pm_quant_const.cleanup).map (fun s => s.get_else Example.decl_f) =
      some (some Example.term_quant_c) ∧
    subterm Example.term_quant_c (.app Example.decl_c []) ∧
    is_uninterp_const (.app Example.decl_c []) = true ∧
    (Example.pm_quant_const.cleanup).map (fun s => s.get_const_interp Example.decl_c) =
      some none :=
  ⟨by decide, by decide, by decide, by decide, subterm_term_quant_c, by decide, by decide⟩

/-- C12 (amended): `cleanup()` returns whenever every auxiliary declaration has a function
table, which is what its removal loop asserts. When it returns, every uninterpreted constant
that occurs, outside any quantifier, in the default branch of a function table before the
call has a constant interpretation after it, and the interpretations that constants had
before the call are kept. -/
theorem cleanup_interprets_old_constants (P : Type) (pm : proto_model P) :
    (pm.aux_registered → ∃ pm2, pm.cleanup = some pm2) ∧
    ∀ pm2, pm.cleanup = some pm2 →
      (∀ e ∈ pm.defaults, ∀ c args, outer_node e (.app c args) →
        is_uninterp_const (.app c args) = true → ∃ v, pm2.get_const_interp c = some v) ∧
      (∀ c v, pm.get_const_interp c = some v → pm2.get_const_interp c = some v) := by
  refine ⟨proto_model.cleanup_returns pm, ?_⟩
  intro pm2 hc
  obtain ⟨hext, _, _, hres⟩ := proto_model.cleanup_spec pm pm2 hc
  refine ⟨?_, hext.2⟩
  intro e he c args hsub hconst
  obtain ⟨d, hd⟩ := (proto_model.mem_defaults_iff pm e).1 he
  obtain ⟨fi, hfi, hfe⟩ := proto_model.get_else_some_find pm d e hd
  apply Option.isSome_iff_exists.1
  apply hres d fi e hfi hfe
  exact (mem_outer_consts_iff c e).2 ⟨args, hsub, hconst⟩

/-- In `pm_fabricate` the default of the table of `decl_f` is the constant `decl_c`, which
has no interpretation: cleanup returns and fabricates one. -/
theorem cleanup_interprets_old_constants_witness :
    Example.pm_fabricate.get_const_interp Example.decl_c = none ∧
    ∃ pm2, Example.pm_fabricate.cleanup = some pm2 ∧
      ∃ v, pm2.get_const_interp Example.decl_c = some v := by
  obtain ⟨pm2, h⟩ :=
    (cleanup_interprets_old_constants Unit Example.pm_fabricate).1 (by decide)
  exact ⟨by decide, pm2, h,
    ((cleanup_interprets_old_constants Unit Example.pm_fabricate).2 pm2 h).1
      (.app Example.decl_c []) (by decide) Example.decl_c [] outer_node.root (by decide)⟩

/-! ## Cleanup: an auxiliary declaration that is used and removed -/

/-- C13, at the failing input: in `pm_hidden` the default of the table of `decl_f` is the
constant `decl_c`, interpreted by `decl_g(x)`, where `decl_g` is auxiliary and has a table.
Cleanup substitutes the interpretation without traversing it, so it never meets `decl_g`:
afterwards the default of `decl_f`, still in the registry, is `decl_g(x)`, an application of
`decl_g`, and `decl_g` is neither in the auxiliary set nor in the function-table map. -/
theorem cleanup_removes_used_aux :
    Example.decl_g ∈ Example.pm_hidden.m_aux_decls.elems ∧
    (Example.pm_hidden.get_func_interp Example.decl_g).isSome = true ∧
    Example.pm_hidden.get_const_interp Example.decl_c = some Example.node_gx ∧
    Example.pm_hidden.get_else Example.decl_f = some (.app Example.decl_c []) ∧
    (Example.pm_hidden.cleanup).map (fun s => s.get_else Example.decl_f) =
      some (some Example.node_gx) ∧
    Example.decl_g ∈ Example.node_gx.decls ∧
    (Example.pm_hidden.cleanup).map (fun s => s.m_aux_decls.elems) = some [] ∧
    (Example.pm_hidden.cleanup).map (fun s => s.get_func_interp Example.decl_g) =
      some none := by
  decide

/-! ## Reregistration followed by cleanup -/

/-- C14, as stated, fails. In `pm_const` the table of `decl_f` has the default `decl_c`.
After the reregistration of `decl_f` with a total table whose default is
`decl_b(quant_gx)`, where the body of the quantifier `quant_gx` is `decl_p(decl_g(x))`, and
the alias `decl_g`, cleanup does not enter the quantifier and removes `decl_g` from the
auxiliary set and from the function-table map. In `pm_quant_table` the constant `decl_c` is
`5` and the table of `decl_f` has the default `decl_b(quant_c)`, where the body of the
quantifier `quant_c` is `decl_p(decl_c)`: after the reregistration of `decl_f` with the
default `decl_g(x)` and the alias `decl_g`, cleanup keeps `decl_g`, and the default of its
table is still `decl_b(quant_c)`. And when the default of the new table is `decl_d()`, the
application of the alias `decl_d` to no argument, cleanup takes the node for an
uninterpreted constant and removes `decl_d`. -/
theorem alias_under_quantifier_counterexample :
    Example.pm_const.get_func_interp Example.decl_f =
      some (Example.total_fi (.app Example.decl_c [])) ∧
    subterm Example.term_quant_gx (.app Example.decl_g [Example.var_x]) ∧
    ((Example.pm_const.reregister_decl Example.decl_f
        (Example.total_fi Example.term_quant_gx) (some Example.decl_g)).cleanup).map
      (fun s => (s.m_aux_decls.elems, s.get_func_interp Example.decl_g)) = some ([], none) ∧
    Example.pm_quant_table.get_const_interp Example.decl_c = some (Example.mk_numeral 5) ∧
    ((Example.pm_quant_table.reregister_decl Example.decl_f
        (Example.total_fi Example.node_gx) (some Example.decl_g)).cleanup).map
      (fun s => (s.m_aux_decls.elems, s.get_else Example.decl_g)) =
      some ([Example.decl_g], some Example.term_quant_c) ∧
    subterm Example.term_quant_c (.app Example.decl_c []) ∧
    (((Example.fresh.register_decl_fi Example.decl_c
          ((func_interp.alloc 0).set_else (Example.mk_numeral 1))).reregister_decl
        Example.decl_c ((func_interp.alloc 0).set_else (.app Example.decl_d []))
        (some Example.decl_d)).cleanup).map
      (fun s => (s.m_aux_decls.elems, s.get_func_interp Example.decl_d)) = some ([], none) :=
  ⟨by decide, subterm_term_quant_gx, by decide, by decide, by decide,
    subterm_term_quant_c, by decide⟩

/-- C14 (amended): let `f` have the table `T1`, let `T2` be a table that is not partial, and
let its default contain, outside any quantifier, an application node headed by `aux1` that is
not an uninterpreted constant. Then `cleanup()` after `reregister_decl(f, T2, aux1)` returns
whenever every auxiliary declaration had a function table before the reregistration, and
when it returns it keeps `aux1` in the auxiliary set and in the function-table map. The
table of `aux1`, which is `T1` when `aux1` is not `f` itself, is untouched when it is
partial; otherwise its default `e1` is replaced by the naive rewrite of `e1`, in which
every uninterpreted constant of `e1` outside any quantifier is replaced by its
interpretation, and every such constant has an interpretation. When `aux1` is `f` itself
its table is `T2`, rewritten in the same way. -/
theorem alias_survives_cleanup (P : Type) (pm : proto_model P) (f aux1 : func_decl)
    (T1 T2 : func_interp) (e2 : expr) (args : List expr)
    (h1 : pm.get_func_interp f = some T1) (h2 : T2.get_else = some e2)
    (href : outer_node e2 (.app aux1 args)) (hnc : is_uninterp_const (.app aux1 args) = false) :
    (pm.aux_registered → ∃ pm2, (pm.reregister_decl f T2 (some aux1)).cleanup = some pm2) ∧
    ∀ pm2, (pm.reregister_decl f T2 (some aux1)).cleanup = some pm2 →
      aux1 ∈ pm2.m_aux_decls.elems ∧ (pm2.get_func_interp aux1).isSome = true ∧
      (aux1 ≠ f →
        (T1.get_else = none → pm2.get_func_interp aux1 = some T1) ∧
        (∀ e1, T1.get_else = some e1 →
          pm2.get_func_interp aux1 = some (T1.set_else (pm2.naive_rewrite e1)) ∧
          ∀ c cargs, outer_node e1 (.app c cargs) →
            is_uninterp_const (.app c cargs) = true →
            (pm2.get_const_interp c).isSome = true)) ∧
      (aux1 = f →
        pm2.get_func_interp aux1 = some (T2.set_else (pm2.naive_rewrite e2)) ∧
        ∀ c cargs, outer_node e2 (.app c cargs) →
          is_uninterp_const (.app c cargs) = true →
          (pm2.get_const_interp c).isSome = true) := by
  refine ⟨fun hreg => proto_model.cleanup_returns _
    (proto_model.aux_registered_reregister_decl pm f T2 (some aux1) hreg), ?_⟩
  intro pm2 hc
  obtain ⟨hf, haux1, hg⟩ := proto_model.reregister_decl_tables pm f aux1 T1 T2 h1
  obtain ⟨_, haux, htab, hres⟩ :=
    proto_model.cleanup_spec (pm.reregister_decl f T2 (some aux1)) pm2 hc
  have hke : (pm.reregister_decl f T2 (some aux1)).get_else f = some e2 := by
    rw [proto_model.get_else_of_find _ f T2 hf]; exact h2
  have hkept : aux1 ∈ pm2.m_aux_decls.elems :=
    (haux aux1).2 ⟨haux1, f, e2, hke, (mem_outer_app_decls_iff aux1 e2).2 ⟨args, href, hnc⟩⟩
  have hcon : ∀ d fi e, (pm.reregister_decl f T2 (some aux1)).m_finterp.find d = some fi →
      fi.get_else = some e → ∀ c cargs, outer_node e (.app c cargs) →
      is_uninterp_const (.app c cargs) = true → (pm2.get_const_interp c).isSome = true :=
    fun d fi e hd he c cargs hn hu =>
      hres d fi e hd he c ((mem_outer_consts_iff c e).2 ⟨cargs, hn, hu⟩)
  have hT2 : aux1 = f →
      pm2.get_func_interp aux1 = some (T2.set_else (pm2.naive_rewrite e2)) ∧
      ∀ c cargs, outer_node e2 (.app c cargs) →
        is_uninterp_const (.app c cargs) = true →
        (pm2.get_const_interp c).isSome = true := by
    intro heq
    subst heq
    exact ⟨((htab aux1 T2 hf).2 (fun _ => hkept)).2 e2 h2, hcon aux1 T2 e2 hf h2⟩
  have hT1 : aux1 ≠ f →
      (T1.get_else = none → pm2.get_func_interp aux1 = some T1) ∧
      (∀ e1, T1.get_else = some e1 →
        pm2.get_func_interp aux1 = some (T1.set_else (pm2.naive_rewrite e1)) ∧
        ∀ c cargs, outer_node e1 (.app c cargs) →
          is_uninterp_const (.app c cargs) = true →
          (pm2.get_const_interp c).isSome = true) := by
    intro hne
    obtain ⟨hnone, hsome⟩ := (htab aux1 T1 (hg hne)).2 (fun _ => hkept)
    exact ⟨hnone, fun e1 he1 => ⟨hsome e1 he1, hcon aux1 T1 e1 (hg hne) he1⟩⟩
  refine ⟨hkept, ?_, hT1, hT2⟩
  by_cases heq : aux1 = f
  · rw [(hT2 heq).1]; rfl
  · cases he : T1.get_else with
    | none => rw [(hT1 heq).1 he]; rfl
    | some e1 => rw [((hT1 heq).2 e1 he).1]; rfl

/-- In `pm_const` the table of `decl_f` has the default `decl_c`, and `decl_c` is `5`.
After the reregistration of `decl_f` with a table whose default is `decl_g(x)` and the alias
`decl_g`, cleanup returns and keeps `decl_g`, and the default of its table is `5`. -/
theorem alias_survives_cleanup_witness :
    ∃ pm2, (Example.pm_const.reregister_decl Example.decl_f
        (Example.total_fi Example.node_gx) (some Example.decl_g)).cleanup = some pm2 ∧
      Example.decl_g ∈ pm2.m_aux_decls.elems ∧
      pm2.get_func_interp Example.decl_g =
        some ((Example.total_fi (.app Example.decl_c [])).set_else
          (pm2.naive_rewrite (.app Example.decl_c []))) ∧
      pm2.get_else Example.decl_g = some (Example.mk_numeral 5) := by
  have h := alias_survives_cleanup Unit Example.pm_const Example.decl_f Example.decl_g
    (Example.total_fi (.app Example.decl_c [])) (Example.total_fi Example.node_gx)
    Example.node_gx [Example.var_x] (by decide) (by decide) outer_node.root (by decide)
  obtain ⟨pm2, hc⟩ := h.1 (by decide)
  obtain ⟨h2, _, h4, _⟩ := h.2 pm2 hc
  have hd : ((Example.pm_const.reregister_decl Example.decl_f
      (Example.total_fi Example.node_gx) (some Example.decl_g)).cleanup).map
      (fun s => s.get_else Example.decl_g) = some (some (Example.mk_numeral 5)) := by decide
  rw [hc] at hd
  exact ⟨pm2, hc, h2, ((h4 (by decide)).2 (.app Example.decl_c []) (by decide)).1,
    Option.some.inj hd⟩

/-! ## The traversal and the naive rewrite -/

/-- C18, as stated, fails on the accumulator. In `pm_quant_aux` the declaration `decl_g` is
auxiliary and the default of the table of `decl_f` is `decl_b(quant_gx)`, where the body of
the quantifier `quant_gx` is `decl_p(decl_g(x))`; the default mentions no uninterpreted
constant. The traversal does not enter the quantifier, and the accumulator gains nothing
although `decl_g` heads an application node of the default. In the second
builder the auxiliary declaration `decl_d` has the constant interpretation `5` and the
default of the table of `decl_f` is `decl_d()`: the traversal takes the node for an
uninterpreted constant, and the accumulator gains nothing. -/
theorem accumulator_misses_quantifier_counterexample :
    Example.decl_g ∈ Example.pm_quant_aux.m_aux_decls.elems ∧
    Example.pm_quant_aux.get_func_interp Example.decl_f =
      some (Example.total_fi Example.term_quant_gx) ∧
    Example.term_quant_gx.decls = [Example.decl_b, Example.decl_p, Example.decl_g] ∧
    subterm Example.term_quant_gx (.app Example.decl_g [Example.var_x]) ∧
    (proto_model.cleanup_func_interp Example.pm_quant_aux Example.decl_f
        (Example.total_fi Example.term_quant_gx) obj_hashtable.empty).map
      (fun r => (r.1.get_else Example.decl_f, r.2.elems)) =
      some (some Example.term_quant_gx, []) ∧
    (proto_model.cleanup_func_interp
        (((Example.fresh.register_decl Example.decl_d (Example.mk_numeral 5)).register_aux_decl
          Example.decl_d (func_interp.alloc 0)).register_decl_fi Example.decl_f
            (Example.total_fi (.app Example.decl_d [])))
        Example.decl_f (Example.total_fi (.app Example.decl_d [])) obj_hashtable.empty).map
      (fun r => (r.1.get_else Example.decl_f, r.2.elems)) =
      some (some (Example.mk_numeral 5), []) :=
  ⟨by decide, by decide, by decide, subterm_term_quant_gx, by decide, by decide⟩

/-- C18 (amended): let `fi` be the table stored under `f`, not partial, with default `e`,
and let every uninterpreted constant of `e` outside any quantifier have a constant
interpretation. Then `cleanup_func_interp` returns, changes nothing in the builder but the
table, which stays where it is in the function-table map, and sets the default of the table
to `R(e)`, the naive recursive rewrite: `R(c)` is the interpretation of an uninterpreted
constant `c`, `R(g(a1, ..., an))` is
`mk_app(g, R(a1), ..., R(an))`, arguments in their order, for any other application, and
`R(a) = a` for any other node, a variable or a quantifier, whose body is left as it is. The
accumulator gains exactly the auxiliary declarations that head an application node of `e`
that is outside any quantifier and is not an uninterpreted constant. -/
theorem cleanup_func_interp_refines_naive (P : Type) (pm : proto_model P) (f : func_decl)
    (fi : func_interp) (found : func_decl_set) (e : expr)
    (hfi : pm.get_func_interp f = some fi) (he : fi.get_else = some e)
    (hres : ∀ c args, outer_node e (.app c args) → is_uninterp_const (.app c args) = true →
      (pm.get_const_interp c).isSome = true) :
    (∃ found1, proto_model.cleanup_func_interp pm f fi found =
        some ({ pm with m_finterp := pm.m_finterp.insert f (fi.set_else (pm.naive_rewrite e)) },
              found1) ∧
      (pm.m_finterp.insert f (fi.set_else (pm.naive_rewrite e))).keys = pm.m_finterp.keys ∧
      ∀ d, d ∈ found1.elems ↔
        d ∈ found.elems ∨ (d ∈ pm.m_aux_decls.elems ∧
          ∃ args, outer_node e (.app d args) ∧ is_uninterp_const (.app d args) = false)) ∧
    (∀ c args v, is_uninterp_const (.app c args) = true → pm.get_const_interp c = some v →
      pm.naive_rewrite (.app c args) = v) ∧
    (∀ g args, is_uninterp_const (.app g args) = false →
      pm.naive_rewrite (.app g args) = pm.m_rewrite.mk_app g (args.map pm.naive_rewrite)) ∧
    (∀ i s, pm.naive_rewrite (.var i s) = .var i s) ∧
    (∀ i b, pm.naive_rewrite (.quantifier i b) = .quantifier i b) := by
  refine ⟨?_, fun c args v hc hv => proto_model.naive_rewrite_const pm c args v hc hv,
    fun g args hg => proto_model.naive_rewrite_app pm g args hg,
    fun i s => by rw [proto_model.naive_rewrite],
    fun i b => by rw [proto_model.naive_rewrite]⟩
  have hres2 : pm.resolved e := by
    intro c hc
    obtain ⟨args, hn, hu⟩ := (mem_outer_consts_iff c e).1 hc
    exact hres c args hn hu
  obtain ⟨found1, h1, h2⟩ := proto_model.cleanup_func_interp_resolved pm f fi found e he hres2
  refine ⟨found1, h1, obj_map.keys_insert_of_mem _ f _
    ((obj_map.mem_keys_iff _ _).2 ⟨fi, hfi⟩), ?_⟩
  intro d
  rw [h2, mem_outer_app_decls_iff]

/-- In `pm_mixed` the constant `decl_c` is `5`, `decl_g` is auxiliary and the table of
`decl_f` has the default `decl_h2(decl_c, decl_g(x))`: the default becomes
`decl_h2(5, decl_g(x))` and the accumulator gains `decl_g`. -/
theorem cleanup_func_interp_refines_naive_witness :
    Example.pm_mixed.naive_rewrite Example.mixed_expr =
      .app Example.decl_h2 [Example.mk_numeral 5, Example.node_gx] ∧
    ∃ found1, proto_model.cleanup_func_interp Example.pm_mixed Example.decl_f
        (Example.total_fi Example.mixed_expr) obj_hashtable.empty =
      some ({ Example.pm_mixed with
                m_finterp := Example.pm_mixed.m_finterp.insert Example.decl_f
                  ((Example.total_fi Example.mixed_expr).set_else
                    (Example.pm_mixed.naive_rewrite Example.mixed_expr)) }, found1) ∧
      Example.decl_g ∈ found1.elems := by
  have hres : ∀ c args, outer_node Example.mixed_expr (.app c args) →
      is_uninterp_const (.app c args) = true →
      (Example.pm_mixed.get_const_interp c).isSome = true := by
    intro c args hn hu
    have hc : c ∈ Example.mixed_expr.outer_consts :=
      (mem_outer_consts_iff c Example.mixed_expr).2 ⟨args, hn, hu⟩
    clear hn hu
    revert c
    decide
  obtain ⟨found1, h1, _, h2⟩ :=
    (cleanup_func_interp_refines_naive Unit Example.pm_mixed Example.decl_f
      (Example.total_fi Example.mixed_expr) obj_hashtable.empty Example.mixed_expr
      (by decide) rfl hres).1
  exact ⟨by decide, found1, h1,
    (h2 Example.decl_g).2 (Or.inr ⟨by decide, [Example.var_x],
      outer_node.arg Example.decl_h2 [.app Example.decl_c [], Example.node_gx] Example.node_gx
        outer_node.root (by decide), by decide⟩)⟩

/-! ## Cleanup twice -/

/-- C11, as stated, fails: the operations register what they are given, whatever its arity.
In `pm_c` the constant `decl_c`, of arity zero, is `5`, and the registry is well kinded:
after `register_aux_decl(decl_c, table)`, or after `reregister_decl(decl_c, table, none)`,
`decl_c` is a key of both maps. In `pm_constant_table` a plugin registers a table for the
constant `decl_d` whenever it makes a value: after `mk_some_interp_for(decl_fa)` the
declaration `decl_d`, of arity zero, is a key of the function-table map. In `pm_ill_formed`
the default of the table of `decl_f`, of arity one, is the application `decl_f()`: cleanup
takes it for an uninterpreted constant and fabricates a constant interpretation for it, and
`decl_f` is a key of both maps. -/
theorem registry_maps_counterexample :
    Example.pm_c.well_kinded ∧ Example.decl_c.get_arity = 0 ∧
    ¬ (Example.pm_c.register_aux_decl Example.decl_c (func_interp.alloc 0)).disjoint_maps ∧
    ¬ (Example.pm_c.reregister_decl Example.decl_c (func_interp.alloc 0) none).disjoint_maps ∧
    Example.pm_constant_table.well_kinded ∧
    Example.pm_constant_table.has_interpretation Example.decl_fa = false ∧
    Example.decl_d.get_arity = 0 ∧
    (Example.pm_constant_table.mk_some_interp_for Example.decl_fa).2.m_finterp.contains
      Example.decl_d = true ∧
    Example.pm_ill_formed.well_kinded ∧
    (Example.pm_ill_formed.cleanup).map
      (fun s => (s.m_interp.contains Example.decl_f, s.m_finterp.contains Example.decl_f)) =
      some (true, true) :=
  ⟨by decide, by decide, fun h => h Example.decl_c ⟨by decide, by decide⟩,
    fun h => h Example.decl_c ⟨by decide, by decide⟩, by decide, by decide, by decide,
    by decide, by decide, by decide⟩

/-- C11 (amended): the registry is well kinded when the keys of the constant map have arity
zero and the keys of the function-table map have a positive arity; a well-kinded registry
has no declaration in both maps. In a well-kinded builder whose plugins register tables only
for declarations of positive arity, these operations leave a well-kinded registry:
`register_aux_decl(d, table)` and `reregister_decl(f, table, alias)` when the declarations
they are given have a positive arity, `mk_some_interp_for(d)` for any `d`, `cleanup()`,
the constants it fabricates included, when the applications without arguments outside any
quantifier in the defaults are applications of declarations of arity zero (and `cleanup()`
returns whenever every auxiliary declaration has a function table), every step and every
result of `complete_partial_funcs()`, and `mk_model()`, for the builder it leaves and for
the model it returns. -/
theorem registry_maps_stay_disjoint (P : Type) (pm : proto_model P) (hwk : pm.well_kinded)
    (hp : pm.registers_functions) :
    pm.disjoint_maps ∧
    (∀ m : model_core, m.well_kinded → m.disjoint_maps) ∧
    (∀ d fi, 0 < d.get_arity → (pm.register_aux_decl d fi).well_kinded) ∧
    (∀ f new_fi f_aux, 0 < f.get_arity → (∀ g, f_aux = some g → 0 < g.get_arity) →
      (pm.reregister_decl f new_fi f_aux).well_kinded) ∧
    (∀ d, (pm.mk_some_interp_for d).2.well_kinded) ∧
    (pm.const_arities →
      (∀ pm2, pm.cleanup = some pm2 → pm2.well_kinded) ∧
      (pm.aux_registered → ∃ pm2, pm.cleanup = some pm2)) ∧
    (∀ f, (pm.complete_partial_func f).well_kinded) ∧
    (∀ fuel pm2, pm.complete_partial_funcs fuel = some pm2 → pm2.well_kinded) ∧
    (pm.mk_model).2.well_kinded ∧ (pm.mk_model).1.well_kinded := by
  refine ⟨disjoint_of_well_kinded _ hwk, disjoint_of_well_kinded,
    fun d fi hd => proto_model.well_kinded_register_aux_decl pm d fi hwk hd,
    fun f new_fi f_aux hf hg =>
      proto_model.well_kinded_reregister_decl pm f new_fi f_aux hwk hf hg,
    fun d => proto_model.well_kinded_mk_some_interp_for pm d hwk hp, ?_,
    fun f => (proto_model.well_kinded_complete_partial_func pm f hwk hp).1, ?_, ?_, ?_⟩
  · intro hc
    exact ⟨fun pm2 h2 => proto_model.well_kinded_cleanup pm pm2 h2 hwk hp hc,
      proto_model.cleanup_returns pm⟩
  · intro fuel pm2 h
    unfold proto_model.complete_partial_funcs at h
    split_ifs at h
    · cases h; exact hwk
    · exact proto_model.well_kinded_complete_partial_funcs_loop fuel 0 pm pm2 h hwk hp
  · refine proto_model.well_kinded_of_maps pm.tomodel_core _ hwk rfl ?_
    intro d hd
    obtain ⟨fi, hfi⟩ := (obj_map.mem_keys_iff _ _).1 hd
    have hfi1 : obj_map.find (obj_map.reset pm.m_finterp) d = some fi := hfi
    rw [obj_map.find_reset] at hfi1
    cases hfi1
  · obtain ⟨h1, h2⟩ := proto_model.mk_model_finds pm
    refine ⟨?_, ?_⟩
    · intro d hd
      obtain ⟨v, hv⟩ := (obj_map.mem_keys_iff _ _).1 hd
      have hv1 : (pm.mk_model).1.m_interp.find d = some v := hv
      rw [h1] at hv1
      exact hwk.1 d ((obj_map.mem_keys_iff _ _).2 ⟨v, hv1⟩)
    · intro d hd
      obtain ⟨v, hv⟩ := (obj_map.mem_keys_iff _ _).1 hd
      have hv1 : (pm.mk_model).1.m_finterp.find d = some v := hv
      rw [h2] at hv1
      exact hwk.2 d ((obj_map.mem_keys_iff _ _).2 ⟨v, hv1⟩)

/-- In `pm_fabricate` the default of the table of `decl_f` is the constant `decl_c`, which
has no interpretation: cleanup returns, it fabricates an interpretation, and the registry it
leaves, with `decl_c` in the constant map and `decl_f` in the function-table map, is well
kinded. -/
theorem registry_maps_stay_disjoint_witness :
    Example.pm_fabricate.well_kinded ∧ Example.pm_fabricate.registers_functions ∧
    Example.pm_fabricate.const_arities ∧
    (Example.pm_fabricate.cleanup).map (fun s => (s.m_interp.keys, s.m_finterp.keys)) =
      some ([Example.decl_c], [Example.decl_f]) ∧
    (∃ pm2, Example.pm_fabricate.cleanup = some pm2 ∧ pm2.well_kinded) ∧
    (Example.pm_fabricate.register_aux_decl Example.decl_g Example.table_1).well_kinded := by
  have hp : Example.pm_fabricate.registers_functions := by
    intro fid f hf s p r hr
    have hcases : f = Example.simple_basic_factory Unit := by
      simp only [proto_model.get_factory, Example.pm_fabricate, Example.fresh,
        proto_model.mk_proto_model, proto_model.register_factory,
        proto_model.register_decl_fi] at hf
      split_ifs at hf <;> cases hf
      rfl
    subst hcases
    simp [Example.simple_basic_factory] at hr
  have hcl := (registry_maps_stay_disjoint Unit Example.pm_fabricate (by decide)
    hp).2.2.2.2.2.1 (by decide)
  obtain ⟨pm2, h2⟩ := hcl.2 (by decide)
  exact ⟨by decide, hp, by decide, by decide, ⟨pm2, h2, hcl.1 pm2 h2⟩,
    (registry_maps_stay_disjoint Unit Example.pm_fabricate (by decide) hp).2.2.1
      Example.decl_g Example.table_1 (by decide)⟩

end ProtoModel
